import Mathlib

/-!
The package base64dec: a universal Base64 decoder

A shallow embedding of `decoder.go` (package `base64dec`) and a verification of
its contract.

Conventions of the embedding.

* A byte is a `Nat`; byte sequences (`src`, `dst`) are `List Nat`.
* An `error` value is an `Option Nat`: `none` is `nil`, and `some k` is
  `base64.CorruptInputError(k)`.
* A function that indexes a slice returns an `Option`; `none` stands for the
  run-time panic of an index out of range.  Loops are driven by a fuel argument
  and also yield `none` when the fuel is used up; every theorem below that
  states a result `some _` therefore shows both that the fuel given by the
  callers suffices and that no index leaves its slice.
* A destination slice is passed by value and the updated slice is returned.
  The re-slicing `dst[n:]` is `dst.drop n`, and the callee's writes are
  stitched back as `dst.take n ++ _`.
-/

namespace Base64dec

/-- An error value: `none` is `nil`, `some k` is `base64.CorruptInputError(k)`. -/
abbrev Err := Option Nat

/-- The constant `padChar = '='`. -/
def padChar : Nat := 61

/-- Modelled from the spec: the generated table `decodeMap` (the file written by
`generate_decode_map.go` is not among the sources).  The characters `A-Z`,
`a-z`, `0-9` carry the codes 0..61, both `+` and `-` carry 62, both `/` and `_`
carry 63, and every other byte carries the sentinel `0xff`. -/
def decodeMap (c : Nat) : Nat :=
  if 65 ≤ c ∧ c ≤ 90 then c - 65
  else if 97 ≤ c ∧ c ≤ 122 then c - 97 + 26
  else if 48 ≤ c ∧ c ≤ 57 then c - 48 + 52
  else if c = 43 ∨ c = 45 then 62
  else if c = 47 ∨ c = 95 then 63
  else 0xff

/-- The function `assemble32`: four table entries to a `uint32` holding three bytes. -/
def assemble32 (n1 n2 n3 n4 : Nat) : Nat × Bool :=
  if n1 ||| n2 ||| n3 ||| n4 = 0xff then (0, false)
  else ((n1 <<< 26) % 2 ^ 32 ||| (n2 <<< 20) % 2 ^ 32 ||| (n3 <<< 14) % 2 ^ 32 |||
      (n4 <<< 8) % 2 ^ 32, true)

/-- The function `assemble64`: eight table entries to a `uint64` holding six bytes. -/
def assemble64 (n1 n2 n3 n4 n5 n6 n7 n8 : Nat) : Nat × Bool :=
  if n1 ||| n2 ||| n3 ||| n4 ||| n5 ||| n6 ||| n7 ||| n8 = 0xff then (0, false)
  else ((n1 <<< 58) % 2 ^ 64 ||| (n2 <<< 52) % 2 ^ 64 ||| (n3 <<< 46) % 2 ^ 64 |||
      (n4 <<< 40) % 2 ^ 64 ||| (n5 <<< 34) % 2 ^ 64 ||| (n6 <<< 28) % 2 ^ 64 |||
      (n7 <<< 22) % 2 ^ 64 ||| (n8 <<< 16) % 2 ^ 64, true)

/-- The library call `binary.BigEndian.PutUint32(b, v)`: panics unless `len(b) >= 4`,
then stores the four bytes of `v`, most significant first. -/
def putUint32 (b : List Nat) (v : Nat) : Option (List Nat) :=
  if b.length < 4 then none
  else some ([(v >>> 24) % 256, (v >>> 16) % 256, (v >>> 8) % 256, v % 256] ++ b.drop 4)

/-- The library call `binary.BigEndian.PutUint64(b, v)`: panics unless `len(b) >= 8`,
then stores the eight bytes of `v`, most significant first. -/
def putUint64 (b : List Nat) (v : Nat) : Option (List Nat) :=
  if b.length < 8 then none
  else some ([(v >>> 56) % 256, (v >>> 48) % 256, (v >>> 40) % 256, (v >>> 32) % 256,
      (v >>> 24) % 256, (v >>> 16) % 256, (v >>> 8) % 256, v % 256] ++ b.drop 8)

/-- The assignment `dst[i] = v`, which panics when `i` is out of range. -/
def setIdx (dst : List Nat) (i v : Nat) : Option (List Nat) :=
  if i < dst.length then some (dst.set i v) else none

/-- The loop `for si < len(src) && (src[si] == '\n' || src[si] == '\r') { si++ }`
of `decodeQuantum`; it yields the final `si`. -/
def skipNewlines (src : List Nat) : Nat → Nat → Option Nat
  | 0, _ => none
  | fuel + 1, si =>
    if si < src.length then
      match src[si]? with
      | none => none
      | some c => if c = 10 ∨ c = 13 then skipNewlines src fuel (si + 1) else some si
    else some si

/-- The part of `decodeQuantum` that runs once a padding character has been read
(and `si` already points behind it): the `switch j` and the following
`if err == nil` block.  It yields the final `si` and `err`. -/
def handlePadding (src : List Nat) (j si : Nat) : Option (Nat × Err) :=
  let afterSwitch : Option (Nat × Err) :=
    if j = 0 ∨ j = 1 then some (si, some (si - 1))
    else if j = 2 then
      match skipNewlines src (src.length + 1) si with
      | none => none
      | some si =>
        if si = src.length then some (si, some (si - 1))
        else
          match src[si]? with
          | none => none
          | some c => if c ≠ padChar then some (si, some (si - 1)) else some (si + 1, none)
    else some (si, none)
  match afterSwitch with
  | none => none
  | some (si, some e) => some (si, some e)
  | some (si, none) =>
    match skipNewlines src (src.length + 1) si with
    | none => none
    | some si => if si < src.length then some (si, some si) else some (si, none)

/-- The tail of `decodeQuantum` behind its loop: the test `dlen == 0`, the
conversion of the four 6-bit digits to three bytes and the `switch dlen` with its
fall-through writes.  It yields `(si, n, err)` and the updated `dst`. -/
def writeQuantum (dst : List Nat) (si dlen : Nat) (dbuf : List Nat) (err : Err) :
    Option (Nat × Nat × Err × List Nat) :=
  if dlen = 0 then some (si, 0, err, dst)
  else
    let val := dbuf.getD 0 0 <<< 18 ||| dbuf.getD 1 0 <<< 12 ||| dbuf.getD 2 0 <<< 6 |||
      dbuf.getD 3 0
    let d2 := (val >>> 0) % 256
    let d1 := (val >>> 8) % 256
    let d0 := (val >>> 16) % 256
    let written : Option (List Nat) :=
      if dlen = 4 then
        (setIdx dst 2 d2).bind fun dst => (setIdx dst 1 d1).bind fun dst => setIdx dst 0 d0
      else if dlen = 3 then
        (setIdx dst 1 d1).bind fun dst => setIdx dst 0 d0
      else if dlen = 2 then setIdx dst 0 d0
      else some dst
    written.map fun dst => (si, dlen - 1, err, dst)

/-- The loop `for j := 0; j < len(dbuf); j++` of `decodeQuantum`, entered at the
loop test with the current `j`, `si` and `dbuf`, together with everything that
follows the loop.  The `j--; continue` of a line break leaves `j` as it is, since
the post statement `j++` undoes it. -/
def quantumLoop (dst src : List Nat) : Nat → Nat → Nat → List Nat →
    Option (Nat × Nat × Err × List Nat)
  | 0, _, _, _ => none
  | fuel + 1, j, si, dbuf =>
    if j < 4 then
      if src.length = si then
        if j = 0 then some (si, 0, none, dst)
        else writeQuantum dst si j dbuf none
      else
        match src[si]? with
        | none => none
        | some c =>
          let si := si + 1
          let out := decodeMap c
          if out ≠ 0xff then quantumLoop dst src fuel (j + 1) si (dbuf.set j out)
          else if c = 10 ∨ c = 13 then quantumLoop dst src fuel j si dbuf
          else if c ≠ padChar then writeQuantum dst si j dbuf (some (si - 1))
          else
            match handlePadding src j si with
            | none => none
            | some (si, err) => writeQuantum dst si j dbuf err
    else writeQuantum dst si 4 dbuf none

/-- The function `decodeQuantum(dst, src, si)`, yielding `(nsi, n, err)` and the
updated `dst`. -/
def decodeQuantum (dst src : List Nat) (si : Nat) : Option (Nat × Nat × Err × List Nat) :=
  quantumLoop dst src (src.length + 1) 0 si [0, 0, 0, 0]

/-- The statements `si, ninc, err = decodeQuantum(dst[n:], src, si); n += ninc`
shared by the three loops of `DecodeBase64`; it yields `(si, n, err)` and `dst`. -/
def quantumStep (dst src : List Nat) (si n : Nat) : Option (Nat × Nat × Err × List Nat) :=
  if n ≤ dst.length then
    match decodeQuantum (dst.drop n) src si with
    | none => none
    | some (si, ninc, err, d) => some (si, n + ninc, err, dst.take n ++ d)
  else none

/-- The third loop of `DecodeBase64`, `for si < len(src)`, and the final
`return n, err`, where `err` is `nil`. -/
def loopQuantum (src : List Nat) : Nat → Nat → Nat → List Nat →
    Option (Nat × Err × List Nat)
  | 0, _, _, _ => none
  | fuel + 1, si, n, dst =>
    if si < src.length then
      match quantumStep dst src si n with
      | none => none
      | some (_, n, some e, dst) => some (n, some e, dst)
      | some (si, n, none, dst) => loopQuantum src fuel si n dst
    else some (n, none, dst)

/-- The second loop of `DecodeBase64`, `for len(src)-si >= 4 && len(dst)-n >= 4`,
followed by the third one.  The truncated subtraction of `Nat` agrees with the
signed one of Go in a comparison `>= 4`. -/
def loop32 (src : List Nat) : Nat → Nat → Nat → List Nat →
    Option (Nat × Err × List Nat)
  | 0, _, _, _ => none
  | fuel + 1, si, n, dst =>
    if src.length - si ≥ 4 ∧ dst.length - n ≥ 4 then
      match src[si]?, src[si + 1]?, src[si + 2]?, src[si + 3]? with
      | some c0, some c1, some c2, some c3 =>
        match assemble32 (decodeMap c0) (decodeMap c1) (decodeMap c2) (decodeMap c3) with
        | (dn, true) =>
          if n ≤ dst.length then
            match putUint32 (dst.drop n) dn with
            | none => none
            | some d => loop32 src fuel (si + 4) (n + 3) (dst.take n ++ d)
          else none
        | (_, false) =>
          match quantumStep dst src si n with
          | none => none
          | some (_, n, some e, dst) => some (n, some e, dst)
          | some (si, n, none, dst) => loop32 src fuel si n dst
      | _, _, _, _ => none
    else loopQuantum src (src.length + 1) si n dst

/-- The first loop of `DecodeBase64`,
`for strconv.IntSize >= 64 && len(src)-si >= 8 && len(dst)-n >= 8`, followed by
the other two.  The platform constant `strconv.IntSize` is the parameter
`intSize`. -/
def loop64 (intSize : Nat) (src : List Nat) : Nat → Nat → Nat → List Nat →
    Option (Nat × Err × List Nat)
  | 0, _, _, _ => none
  | fuel + 1, si, n, dst =>
    if intSize ≥ 64 ∧ src.length - si ≥ 8 ∧ dst.length - n ≥ 8 then
      match src[si]?, src[si + 1]?, src[si + 2]?, src[si + 3]?,
          src[si + 4]?, src[si + 5]?, src[si + 6]?, src[si + 7]? with
      | some c0, some c1, some c2, some c3, some c4, some c5, some c6, some c7 =>
        match assemble64 (decodeMap c0) (decodeMap c1) (decodeMap c2) (decodeMap c3)
            (decodeMap c4) (decodeMap c5) (decodeMap c6) (decodeMap c7) with
        | (dn, true) =>
          if n ≤ dst.length then
            match putUint64 (dst.drop n) dn with
            | none => none
            | some d => loop64 intSize src fuel (si + 8) (n + 6) (dst.take n ++ d)
          else none
        | (_, false) =>
          match quantumStep dst src si n with
          | none => none
          | some (_, n, some e, dst) => some (n, some e, dst)
          | some (si, n, none, dst) => loop64 intSize src fuel si n dst
      | _, _, _, _, _, _, _, _ => none
    else loop32 src (src.length + 1) si n dst

/-- The function `DecodeBase64(dst, src)`, yielding `(n, err)` and the final
contents of `dst`; `intSize` is the platform constant `strconv.IntSize`. -/
def DecodeBase64 (intSize : Nat) (dst src : List Nat) : Option (Nat × Err × List Nat) :=
  if src.length = 0 then some (0, none, dst)
  else loop64 intSize src (src.length + 1) 0 0 dst

/-- The alphabet characters `A-Z`, `a-z`, `0-9`, `+`, `/`, `-`, `_`. -/
def isAlphabet (c : Nat) : Bool :=
  (65 ≤ c && c ≤ 90) || (97 ≤ c && c ≤ 122) || (48 ≤ c && c ≤ 57) ||
    c == 43 || c == 47 || c == 45 || c == 95

/-- The line breaks `\n` and `\r`. -/
def isLineBreak (c : Nat) : Bool := c == 10 || c == 13

/-- The 6-bit codes of the alphabet characters of a text, in order. -/
def codes (p : List Nat) : List Nat := (p.filter isAlphabet).map decodeMap

/-- The reference decoding of a sequence of 6-bit codes: every full group of four
codes gives the three bytes of `v0<<18 | v1<<12 | v2<<6 | v3`, and a final group
of three, two or one codes gives the first two, one or zero bytes of the same
24-bit value. -/
def bytesOfCodes : List Nat → List Nat
  | v0 :: v1 :: v2 :: v3 :: rest =>
    let val := v0 <<< 18 ||| v1 <<< 12 ||| v2 <<< 6 ||| v3
    (val >>> 16) % 256 :: (val >>> 8) % 256 :: val % 256 :: bytesOfCodes rest
  | [v0, v1, v2] =>
    let val := v0 <<< 18 ||| v1 <<< 12 ||| v2 <<< 6
    [(val >>> 16) % 256, (val >>> 8) % 256]
  | [v0, v1] =>
    let val := v0 <<< 18 ||| v1 <<< 12
    [(val >>> 16) % 256]
  | _ => []

/-- A table entry: a 6-bit code or the sentinel. -/
def IsEntry (x : Nat) : Prop := x < 64 ∨ x = 255

/-- A text of alphabet characters and line breaks only. -/
def AlphaNL (v : List Nat) : Prop := ∀ c ∈ v, isAlphabet c = true ∨ isLineBreak c = true

/-- A remainder that is empty or begins with a byte that is neither an alphabet
character nor a line break. -/
def Terminal (tail : List Nat) : Prop :=
  ∀ c ∈ tail.head?, isAlphabet c = false ∧ isLineBreak c = false

/-- The closed form of the final cursor and error once a correct padding has been
consumed: line breaks are skipped and anything else is trailing garbage. -/
def afterPad (rest : List Nat) (si : Nat) : Nat × Err :=
  if rest.dropWhile isLineBreak = [] then (si + (rest.takeWhile isLineBreak).length, none)
  else (si + (rest.takeWhile isLineBreak).length,
    some (si + (rest.takeWhile isLineBreak).length))

/-- The closed form of `handlePadding` on the text `rest` that follows a first
padding character, `si` being the offset of `rest` in the source. -/
def padResult (j : Nat) (rest : List Nat) (si : Nat) : Nat × Err :=
  if j = 0 ∨ j = 1 then (si, some (si - 1))
  else if j = 2 then
    match rest.dropWhile isLineBreak with
    | [] => (si + (rest.takeWhile isLineBreak).length,
        some (si + (rest.takeWhile isLineBreak).length - 1))
    | d :: r =>
      if d ≠ 61 then (si + (rest.takeWhile isLineBreak).length,
        some (si + (rest.takeWhile isLineBreak).length - 1))
      else afterPad r (si + (rest.takeWhile isLineBreak).length + 1)
  else afterPad rest si

/-- The closed form of the error of a final group of `j` digits that is followed
by `tail` at offset `o` of the source. -/
def tailErr (j o : Nat) (tail : List Nat) : Err :=
  match tail with
  | [] => none
  | c :: rest => if c ≠ 61 then some o else (padResult j rest (o + 1)).2

/-- The quantum buffer `dbuf` after the digits `acc` have been stored. -/
def dbufOf (acc : List Nat) : List Nat := acc ++ List.replicate (4 - acc.length) 0

/-- The result of `DecodeBase64` on the source `p ++ tail`, where `p` holds
alphabet characters and line breaks and `tail` is empty or begins with another
byte. -/
def Post (p tail dst0 : List Nat) (r : Option (Nat × Err × List Nat)) : Prop :=
  ∃ dst, r = some (3 * (codes p).length / 4,
      tailErr ((codes p).length % 4) p.length tail, dst) ∧
    dst.take (3 * (codes p).length / 4) = bytesOfCodes (codes p) ∧
    dst.length = dst0.length

/-- The loop invariant of `DecodeBase64`: the part `u` of the text read so far
holds complete groups only, and their bytes are the first `n` of `dst`. -/
def Inv (dst0 u : List Nat) (n : Nat) (dst : List Nat) : Prop :=
  (codes u).length % 4 = 0 ∧ n = 3 * ((codes u).length / 4) ∧
    dst.take n = bytesOfCodes (codes u) ∧ dst.length = dst0.length

/-- The block shared by the three loops of `DecodeBase64`: a call of
`decodeQuantum`, the return on an error, and otherwise the next iteration `cont`. -/
def stepThen (src dst : List Nat) (si n : Nat)
    (cont : Nat → Nat → List Nat → Option (Nat × Err × List Nat)) :
    Option (Nat × Err × List Nat) :=
  match quantumStep dst src si n with
  | none => none
  | some (_, n, some e, dst) => some (n, some e, dst)
  | some (si, n, none, dst) => cont si n dst

/-- The call `DecodeBase64(dst, src)` returns `(n, err)` without a panic and
leaves the bytes `out` in `dst[0..n)`. -/
def DecodesTo (intSize : Nat) (dst src : List Nat) (n : Nat) (err : Err) (out : List Nat) :
    Prop :=
  ∃ d, DecodeBase64 intSize dst src = some (n, err, d) ∧ d.take n = out

instance (v : List Nat) : Decidable (AlphaNL v) := by
  unfold AlphaNL
  infer_instance

/-- The correct padding behind a text of `k` alphabet characters. -/
def correctPadding (k : Nat) : List Nat :=
  if k % 4 = 2 then [61, 61] else if k % 4 = 3 then [61] else []

/-- Two bytes that are equal or differ by one of the replacements `+` by `-`,
`-` by `+`, `/` by `_`, `_` by `/`. -/
def Interchange (a b : Nat) : Prop :=
  a = b ∨ (a = 43 ∧ b = 45) ∨ (a = 45 ∧ b = 43) ∨ (a = 47 ∧ b = 95) ∨ (a = 95 ∧ b = 47)

/-- The standard-alphabet form of a byte: `-` becomes `+` and `_` becomes `/`. -/
def canon (c : Nat) : Nat := if c = 45 then 43 else if c = 95 then 47 else c

/-- The source with every `\n` and `\r` byte deleted. -/
def stripLineBreaks (src : List Nat) : List Nat := src.filter fun c => !isLineBreak c

/-- The table `encodeStd` of the Go package `encoding/base64`, the alphabet
`A-Z`, `a-z`, `0-9`, `+`, `/` indexed by the 6-bit code. -/
def encodeChar (v : Nat) : Nat :=
  if v < 26 then 65 + v
  else if v < 52 then 97 + (v - 26)
  else if v < 62 then 48 + (v - 52)
  else if v = 62 then 43
  else 47

/-- The library function `base64.StdEncoding.EncodeToString` of the Go package
`encoding/base64` (the standard padded encoding of RFC 4648): three bytes make
the 24-bit value `b0<<16 | b1<<8 | b2`, whose four 6-bit digits are looked up in
the alphabet; a remainder of one or two bytes gives two or three characters and
the padding `==` or `=`. -/
def encodeStd : List Nat → List Nat
  | b0 :: b1 :: b2 :: rest =>
    let val := b0 <<< 16 ||| b1 <<< 8 ||| b2
    encodeChar (val >>> 18 &&& 0x3F) :: encodeChar (val >>> 12 &&& 0x3F) ::
      encodeChar (val >>> 6 &&& 0x3F) :: encodeChar (val &&& 0x3F) :: encodeStd rest
  | [b0, b1] =>
    let val := b0 <<< 16 ||| b1 <<< 8
    [encodeChar (val >>> 18 &&& 0x3F), encodeChar (val >>> 12 &&& 0x3F),
      encodeChar (val >>> 6 &&& 0x3F), 61]
  | [b0] =>
    let val := b0 <<< 16
    [encodeChar (val >>> 18 &&& 0x3F), encodeChar (val >>> 12 &&& 0x3F), 61, 61]
  | [] => []

/-- The 6-bit digits of a byte sequence, without padding. -/
def sextets : List Nat → List Nat
  | b0 :: b1 :: b2 :: rest =>
    b0 / 4 :: (b0 % 4 * 16 + b1 / 16) :: (b1 % 16 * 4 + b2 / 64) :: b2 % 64 :: sextets rest
  | [b0, b1] => [b0 / 4, b0 % 4 * 16 + b1 / 16, b1 % 16 * 4]
  | [b0] => [b0 / 4, b0 % 4 * 16]
  | [] => []

/-- The procedure that skips both batch loops of `DecodeBase64` and only repeats
`decodeQuantum` from `si = 0` until the source is exhausted or an error occurs. -/
def decodeQuantumOnly (dst src : List Nat) : Option (Nat × Err × List Nat) :=
  loopQuantum src (src.length + 1) 0 0 dst

/-- The frame of the destination from offset `n` on: the length is kept, and a
byte at an index `i >= n` keeps its value or, at one of the two indices `n` and
`n + 1`, has become 0. -/
def FrameAt (n : Nat) (dst dst' : List Nat) : Prop :=
  dst'.length = dst.length ∧
    ∀ i, n ≤ i → dst'[i]? = dst[i]? ∨ (i < n + 2 ∧ dst'[i]? = some 0)

/-! ## Verification -/

theorem decodeMap_of_alpha {c : Nat} (h : isAlphabet c = true) : decodeMap c < 64 := by
  simp only [isAlphabet, Bool.or_eq_true, Bool.and_eq_true, decide_eq_true_eq, beq_iff_eq] at h
  unfold decodeMap
  split_ifs <;> omega

theorem decodeMap_of_not_alpha {c : Nat} (h : isAlphabet c = false) : decodeMap c = 255 := by
  simp only [isAlphabet, Bool.or_eq_false_iff, Bool.and_eq_false_iff, decide_eq_false_iff_not, beq_eq_false_iff_ne] at h
  unfold decodeMap
  split_ifs <;> omega

theorem alpha_iff {c : Nat} : decodeMap c ≠ 255 ↔ isAlphabet c = true := by
  constructor
  · intro h
    by_contra h2
    exact h (decodeMap_of_not_alpha (by simpa using h2))
  · intro h
    have := decodeMap_of_alpha h
    omega

theorem or_eq_add (i a b : Nat) (h : b < 2 ^ i) : 2 ^ i * a ||| b = 2 ^ i * a + b :=
  (Nat.mul_add_lt_is_or h a).symm

theorem val_eq (v0 v1 v2 v3 : Nat) (h1 : v1 < 64) (h2 : v2 < 64) (h3 : v3 < 64) :
    v0 <<< 18 ||| v1 <<< 12 ||| v2 <<< 6 ||| v3 = v0 * 262144 + v1 * 4096 + v2 * 64 + v3 := by
  simp only [Nat.shiftLeft_eq]
  have e1 : v0 * 2 ^ 18 = 2 ^ 18 * v0 := by ring
  rw [e1, or_eq_add 18 v0 (v1 * 2 ^ 12) (by omega)]
  have e2 : 2 ^ 18 * v0 + v1 * 2 ^ 12 = 2 ^ 12 * (v0 * 64 + v1) := by ring
  rw [e2, or_eq_add 12 _ (v2 * 2 ^ 6) (by omega)]
  have e3 : 2 ^ 12 * (v0 * 64 + v1) + v2 * 2 ^ 6 = 2 ^ 6 * (v0 * 4096 + v1 * 64 + v2) := by ring
  rw [e3, or_eq_add 6 _ v3 (by omega)]
  ring

theorem decodeMap_entry (c : Nat) : IsEntry (decodeMap c) := by
  unfold IsEntry decodeMap
  split_ifs <;> omega

set_option maxRecDepth 100000 in
theorem or_255_right : ∀ a < 256, a ||| 255 = 255 := by decide

set_option maxRecDepth 100000 in
theorem or_255_left : ∀ a < 256, 255 ||| a = 255 := by decide

theorem or_entry {a b : Nat} (ha : IsEntry a) (hb : IsEntry b) :
    IsEntry (a ||| b) ∧ (a ||| b = 255 ↔ a = 255 ∨ b = 255) := by
  rcases ha with ha | ha <;> rcases hb with hb | hb
  · have : a ||| b < 2 ^ 6 := Nat.or_lt_two_pow (by omega) (by omega)
    exact ⟨Or.inl (by omega), by omega⟩
  · subst hb
    have := or_255_right a (by omega)
    exact ⟨Or.inr this, by omega⟩
  · subst ha
    have := or_255_left b (by omega)
    exact ⟨Or.inr this, by omega⟩
  · subst ha; subst hb
    exact ⟨Or.inr (by decide), by decide⟩

theorem assemble32_ok {n1 n2 n3 n4 : Nat} (h1 : n1 < 64) (h2 : n2 < 64) (h3 : n3 < 64)
    (h4 : n4 < 64) :
    assemble32 n1 n2 n3 n4 = ((n1 * 262144 + n2 * 4096 + n3 * 64 + n4) * 256, true) := by
  have e1 := or_entry (Or.inl h1) (Or.inl h2)
  have e2 := or_entry e1.1 (Or.inl h3)
  have e3 := or_entry e2.1 (Or.inl h4)
  have hne : ¬ (n1 ||| n2 ||| n3 ||| n4 = 255) := by
    rw [e3.2, e2.2, e1.2]; omega
  unfold assemble32
  rw [if_neg hne]
  simp only [Nat.shiftLeft_eq]
  rw [Nat.mod_eq_of_lt (by omega), Nat.mod_eq_of_lt (by omega), Nat.mod_eq_of_lt (by omega),
    Nat.mod_eq_of_lt (by omega)]
  have a1 : n1 * 2 ^ 26 = 2 ^ 26 * n1 := by ring
  rw [a1, or_eq_add 26 n1 (n2 * 2 ^ 20) (by omega)]
  have a2 : 2 ^ 26 * n1 + n2 * 2 ^ 20 = 2 ^ 20 * (n1 * 64 + n2) := by ring
  rw [a2, or_eq_add 20 _ (n3 * 2 ^ 14) (by omega)]
  have a3 : 2 ^ 20 * (n1 * 64 + n2) + n3 * 2 ^ 14 = 2 ^ 14 * (n1 * 4096 + n2 * 64 + n3) := by
    ring
  rw [a3, or_eq_add 14 _ (n4 * 2 ^ 8) (by omega)]
  congr 1
  ring

theorem assemble32_bad {n1 n2 n3 n4 : Nat} (h1 : IsEntry n1) (h2 : IsEntry n2)
    (h3 : IsEntry n3) (h4 : IsEntry n4)
    (h : n1 = 255 ∨ n2 = 255 ∨ n3 = 255 ∨ n4 = 255) :
    assemble32 n1 n2 n3 n4 = (0, false) := by
  have e1 := or_entry h1 h2
  have e2 := or_entry e1.1 h3
  have e3 := or_entry e2.1 h4
  have he : n1 ||| n2 ||| n3 ||| n4 = 255 := by
    rw [e3.2, e2.2, e1.2]
    simpa only [or_assoc] using h
  unfold assemble32
  rw [if_pos he]

theorem assemble64_ok {n1 n2 n3 n4 n5 n6 n7 n8 : Nat} (h1 : n1 < 64) (h2 : n2 < 64)
    (h3 : n3 < 64) (h4 : n4 < 64) (h5 : n5 < 64) (h6 : n6 < 64) (h7 : n7 < 64)
    (h8 : n8 < 64) :
    assemble64 n1 n2 n3 n4 n5 n6 n7 n8 =
      (((n1 * 262144 + n2 * 4096 + n3 * 64 + n4) * 16777216 +
        (n5 * 262144 + n6 * 4096 + n7 * 64 + n8)) * 65536, true) := by
  have e1 := or_entry (Or.inl h1) (Or.inl h2)
  have e2 := or_entry e1.1 (Or.inl h3)
  have e3 := or_entry e2.1 (Or.inl h4)
  have e4 := or_entry e3.1 (Or.inl h5)
  have e5 := or_entry e4.1 (Or.inl h6)
  have e6 := or_entry e5.1 (Or.inl h7)
  have e7 := or_entry e6.1 (Or.inl h8)
  have hne : ¬ (n1 ||| n2 ||| n3 ||| n4 ||| n5 ||| n6 ||| n7 ||| n8 = 255) := by
    rw [e7.2, e6.2, e5.2, e4.2, e3.2, e2.2, e1.2]; omega
  unfold assemble64
  rw [if_neg hne]
  simp only [Nat.shiftLeft_eq]
  rw [Nat.mod_eq_of_lt (by omega), Nat.mod_eq_of_lt (by omega), Nat.mod_eq_of_lt (by omega),
    Nat.mod_eq_of_lt (by omega), Nat.mod_eq_of_lt (by omega), Nat.mod_eq_of_lt (by omega),
    Nat.mod_eq_of_lt (by omega), Nat.mod_eq_of_lt (by omega)]
  have a1 : n1 * 2 ^ 58 = 2 ^ 58 * n1 := by ring
  rw [a1, or_eq_add 58 n1 (n2 * 2 ^ 52) (by omega)]
  have a2 : 2 ^ 58 * n1 + n2 * 2 ^ 52 = 2 ^ 52 * (n1 * 64 + n2) := by ring
  rw [a2, or_eq_add 52 _ (n3 * 2 ^ 46) (by omega)]
  have a3 : 2 ^ 52 * (n1 * 64 + n2) + n3 * 2 ^ 46 = 2 ^ 46 * (n1 * 4096 + n2 * 64 + n3) := by
    ring
  rw [a3, or_eq_add 46 _ (n4 * 2 ^ 40) (by omega)]
  have a4 : 2 ^ 46 * (n1 * 4096 + n2 * 64 + n3) + n4 * 2 ^ 40 =
      2 ^ 40 * (n1 * 262144 + n2 * 4096 + n3 * 64 + n4) := by ring
  rw [a4, or_eq_add 40 _ (n5 * 2 ^ 34) (by omega)]
  have a5 : 2 ^ 40 * (n1 * 262144 + n2 * 4096 + n3 * 64 + n4) + n5 * 2 ^ 34 =
      2 ^ 34 * ((n1 * 262144 + n2 * 4096 + n3 * 64 + n4) * 64 + n5) := by ring
  rw [a5, or_eq_add 34 _ (n6 * 2 ^ 28) (by omega)]
  have a6 : 2 ^ 34 * ((n1 * 262144 + n2 * 4096 + n3 * 64 + n4) * 64 + n5) + n6 * 2 ^ 28 =
      2 ^ 28 * ((n1 * 262144 + n2 * 4096 + n3 * 64 + n4) * 4096 + n5 * 64 + n6) := by ring
  rw [a6, or_eq_add 28 _ (n7 * 2 ^ 22) (by omega)]
  have a7 : 2 ^ 28 * ((n1 * 262144 + n2 * 4096 + n3 * 64 + n4) * 4096 + n5 * 64 + n6) +
      n7 * 2 ^ 22 =
      2 ^ 22 * ((n1 * 262144 + n2 * 4096 + n3 * 64 + n4) * 262144 + n5 * 4096 + n6 * 64 + n7) := by
    ring
  rw [a7, or_eq_add 22 _ (n8 * 2 ^ 16) (by omega)]
  congr 1
  ring

theorem assemble64_bad {n1 n2 n3 n4 n5 n6 n7 n8 : Nat} (h1 : IsEntry n1) (h2 : IsEntry n2)
    (h3 : IsEntry n3) (h4 : IsEntry n4) (h5 : IsEntry n5) (h6 : IsEntry n6)
    (h7 : IsEntry n7) (h8 : IsEntry n8)
    (h : n1 = 255 ∨ n2 = 255 ∨ n3 = 255 ∨ n4 = 255 ∨ n5 = 255 ∨ n6 = 255 ∨ n7 = 255 ∨
      n8 = 255) :
    assemble64 n1 n2 n3 n4 n5 n6 n7 n8 = (0, false) := by
  have e1 := or_entry h1 h2
  have e2 := or_entry e1.1 h3
  have e3 := or_entry e2.1 h4
  have e4 := or_entry e3.1 h5
  have e5 := or_entry e4.1 h6
  have e6 := or_entry e5.1 h7
  have e7 := or_entry e6.1 h8
  have he : n1 ||| n2 ||| n3 ||| n4 ||| n5 ||| n6 ||| n7 ||| n8 = 255 := by
    rw [e7.2, e6.2, e5.2, e4.2, e3.2, e2.2, e1.2]
    simpa only [or_assoc] using h
  unfold assemble64
  rw [if_pos he]

theorem bytesOfCodes_four (v0 v1 v2 v3 : Nat) (rest : List Nat) :
    bytesOfCodes (v0 :: v1 :: v2 :: v3 :: rest) =
      [((v0 <<< 18 ||| v1 <<< 12 ||| v2 <<< 6 ||| v3) >>> 16) % 256,
        ((v0 <<< 18 ||| v1 <<< 12 ||| v2 <<< 6 ||| v3) >>> 8) % 256,
        (v0 <<< 18 ||| v1 <<< 12 ||| v2 <<< 6 ||| v3) % 256] ++ bytesOfCodes rest := by
  simp [bytesOfCodes]

theorem putUint32_spec {n1 n2 n3 n4 : Nat} (h1 : n1 < 64) (h2 : n2 < 64) (h3 : n3 < 64)
    (h4 : n4 < 64) (b : List Nat) (hb : 4 ≤ b.length) :
    putUint32 b (assemble32 n1 n2 n3 n4).1 =
      some (bytesOfCodes [n1, n2, n3, n4] ++ 0 :: b.drop 4) := by
  rw [assemble32_ok h1 h2 h3 h4, bytesOfCodes_four, val_eq n1 n2 n3 n4 h2 h3 h4]
  unfold putUint32
  rw [if_neg (by omega)]
  simp only [Nat.shiftRight_eq_div_pow, bytesOfCodes, List.append_nil, List.cons_append,
    List.nil_append, Option.some.injEq, List.cons.injEq, and_true]
  refine ⟨?_, ?_, ?_, ?_⟩ <;> omega

theorem putUint64_spec {n1 n2 n3 n4 n5 n6 n7 n8 : Nat} (h1 : n1 < 64) (h2 : n2 < 64)
    (h3 : n3 < 64) (h4 : n4 < 64) (h5 : n5 < 64) (h6 : n6 < 64) (h7 : n7 < 64)
    (h8 : n8 < 64) (b : List Nat) (hb : 8 ≤ b.length) :
    putUint64 b (assemble64 n1 n2 n3 n4 n5 n6 n7 n8).1 =
      some (bytesOfCodes [n1, n2, n3, n4, n5, n6, n7, n8] ++ 0 :: 0 :: b.drop 8) := by
  rw [assemble64_ok h1 h2 h3 h4 h5 h6 h7 h8, bytesOfCodes_four, bytesOfCodes_four,
    val_eq n1 n2 n3 n4 h2 h3 h4, val_eq n5 n6 n7 n8 h6 h7 h8]
  unfold putUint64
  rw [if_neg (by omega)]
  simp only [Nat.shiftRight_eq_div_pow, bytesOfCodes, List.append_nil, List.cons_append,
    List.nil_append, Option.some.injEq, List.cons.injEq, and_true]
  refine ⟨?_, ?_, ?_, ?_, ?_, ?_, ?_, ?_⟩ <;> omega

theorem writeQuantum_spec (dst : List Nat) (si : Nat) (acc : List Nat) (err : Err)
    (hl : acc.length ≤ 4) (hd : acc.length - 1 ≤ dst.length) :
    writeQuantum dst si acc.length (acc ++ List.replicate (4 - acc.length) 0) err =
      some (si, acc.length - 1, err, bytesOfCodes acc ++ dst.drop (acc.length - 1)) := by
  rcases acc with _ | ⟨a0, _ | ⟨a1, _ | ⟨a2, _ | ⟨a3, _ | ⟨a4, t⟩⟩⟩⟩⟩
  · simp [writeQuantum, bytesOfCodes]
  · simp [writeQuantum, bytesOfCodes]
  · rcases dst with _ | ⟨d0, dt⟩
    · simp at hd
    · simp [writeQuantum, bytesOfCodes, setIdx]
  · rcases dst with _ | ⟨d0, _ | ⟨d1, dt⟩⟩
    · simp at hd
    · simp at hd
    · simp [writeQuantum, bytesOfCodes, setIdx]
  · rcases dst with _ | ⟨d0, _ | ⟨d1, _ | ⟨d2, dt⟩⟩⟩
    · simp at hd
    · simp at hd
    · simp at hd
    · simp [writeQuantum, bytesOfCodes, setIdx]
  · simp at hl

theorem getElem?_mid (pre : List Nat) (c : Nat) (rest : List Nat) :
    (pre ++ c :: rest)[pre.length]? = some c := by
  rw [List.getElem?_append_right (le_refl _)]
  simp

theorem skipNewlines_spec (rest : List Nat) :
    ∀ (pre : List Nat) (fuel : Nat), rest.length < fuel →
      skipNewlines (pre ++ rest) fuel pre.length =
        some (pre.length + (rest.takeWhile isLineBreak).length) := by
  induction rest with
  | nil =>
    intro pre fuel h
    obtain ⟨f, rfl⟩ : ∃ f, fuel = f + 1 := ⟨fuel - 1, by omega⟩
    simp [skipNewlines]
  | cons c r ih =>
    intro pre fuel h
    obtain ⟨f, rfl⟩ : ∃ f, fuel = f + 1 := ⟨fuel - 1, by omega⟩
    have hlt : pre.length < (pre ++ c :: r).length := by simp
    unfold skipNewlines
    rw [if_pos hlt, getElem?_mid]
    by_cases hc : c = 10 ∨ c = 13
    · have hb : isLineBreak c = true := by
        simpa [isLineBreak] using hc
      have := ih (pre ++ [c]) f (by simpa using h)
      rw [List.append_assoc, List.singleton_append, List.length_append,
        List.length_singleton] at this
      simp only [hc, if_true, List.takeWhile_cons, hb]
      rw [this]
      simp only [List.length_cons, Option.some.injEq]
      omega
    · have hb : isLineBreak c = false := by
        have : ¬ isLineBreak c = true := by simpa [isLineBreak] using hc
        simpa using this
      simp [hc, List.takeWhile_cons, hb]

theorem takeWhile_length_add (rest : List Nat) :
    (rest.takeWhile isLineBreak).length + (rest.dropWhile isLineBreak).length = rest.length := by
  have := congrArg List.length (List.takeWhile_append_dropWhile isLineBreak rest)
  rw [List.length_append] at this
  exact this

theorem afterPad_spec (pre rest : List Nat) :
    (match skipNewlines (pre ++ rest) ((pre ++ rest).length + 1) pre.length with
      | none => none
      | some si => if si < (pre ++ rest).length then some (si, some si) else some (si, none)) =
      some (afterPad rest pre.length) := by
  rw [skipNewlines_spec rest pre _ (by simp; omega)]
  have hl := takeWhile_length_add rest
  unfold afterPad
  by_cases h : rest.dropWhile isLineBreak = []
  · rw [if_pos h]
    rw [h] at hl
    simp only [List.length_nil, add_zero] at hl
    simp [hl]
  · rw [if_neg h]
    have : 0 < (rest.dropWhile isLineBreak).length := List.length_pos.mpr h
    simp only [List.length_append]
    rw [if_pos (by omega)]

theorem afterPad_none {rest : List Nat} {si : Nat} (h : (afterPad rest si).2 = none) :
    (afterPad rest si).1 = si + rest.length := by
  have hl := takeWhile_length_add rest
  unfold afterPad at h ⊢
  by_cases h2 : rest.dropWhile isLineBreak = []
  · rw [if_pos h2]
    rw [h2] at hl
    simp only [List.length_nil, add_zero] at hl
    simp [hl]
  · rw [if_neg h2] at h
    simp at h

theorem handlePadding_spec (pre rest : List Nat) (j : Nat) :
    handlePadding (pre ++ rest) j pre.length = some (padResult j rest pre.length) := by
  unfold handlePadding padResult
  by_cases h01 : j = 0 ∨ j = 1
  · simp only [h01, if_true]
  · simp only [h01, if_false]
    by_cases h2 : j = 2
    · simp only [h2, if_true]
      rw [skipNewlines_spec rest pre _ (by simp; omega)]
      have hl := takeWhile_length_add rest
      have hsplit := List.takeWhile_append_dropWhile isLineBreak rest
      rcases hdw : rest.dropWhile isLineBreak with _ | ⟨d, r⟩
      · rw [hdw] at hl
        simp only [List.length_nil, add_zero] at hl
        simp [hl]
      · rw [hdw] at hl hsplit
        simp only [List.length_cons] at hl
        have hne : ¬ (pre.length + (rest.takeWhile isLineBreak).length = (pre ++ rest).length) := by
          simp only [List.length_append]; omega
        have hsrc : pre ++ rest = (pre ++ rest.takeWhile isLineBreak) ++ d :: r := by
          rw [List.append_assoc, hsplit]
        have hget : (pre ++ rest)[pre.length + (rest.takeWhile isLineBreak).length]? = some d := by
          rw [hsrc, ← List.length_append, getElem?_mid]
        simp only [hne, if_false, hget]
        by_cases hd : d = 61
        · subst hd
          have hsrc2 : pre ++ rest = (pre ++ rest.takeWhile isLineBreak ++ [61]) ++ r := by
            rw [hsrc]; simp
          have hlen2 : pre.length + (rest.takeWhile isLineBreak).length + 1 =
              (pre ++ rest.takeWhile isLineBreak ++ [61]).length := by
            simp only [List.length_append, List.length_singleton]
          simp only [padChar, ne_eq, not_true_eq_false, if_false]
          rw [hlen2]
          have := afterPad_spec (pre ++ rest.takeWhile isLineBreak ++ [61]) r
          rw [← hsrc2] at this
          exact this
        · simp [padChar, hd]
    · simp only [h2, if_false]
      exact afterPad_spec pre rest

theorem padResult_none {j : Nat} {rest : List Nat} {si : Nat}
    (h : (padResult j rest si).2 = none) : (padResult j rest si).1 = si + rest.length := by
  unfold padResult at h ⊢
  by_cases h01 : j = 0 ∨ j = 1
  · simp [h01] at h
  · simp only [h01, if_false] at h ⊢
    by_cases h2 : j = 2
    · simp only [h2, if_true] at h ⊢
      have hl := takeWhile_length_add rest
      rcases hdw : rest.dropWhile isLineBreak with _ | ⟨d, r⟩
      · rw [hdw] at h; simp at h
      · rw [hdw] at h hl
        simp only at h ⊢
        by_cases hd : d = 61
        · simp only [hd, ne_eq, not_true_eq_false, if_false] at h ⊢
          rw [afterPad_none h]
          simp only [List.length_cons] at hl
          omega
        · simp [hd] at h
    · simp only [h2, if_false] at h ⊢
      exact afterPad_none h

theorem dbufOf_set (acc : List Nat) (x : Nat) (h : acc.length < 4) :
    (dbufOf acc).set acc.length x = dbufOf (acc ++ [x]) := by
  unfold dbufOf
  rcases acc with _ | ⟨a0, _ | ⟨a1, _ | ⟨a2, _ | ⟨a3, t⟩⟩⟩⟩
  · rfl
  · rfl
  · rfl
  · rfl
  · simp only [List.length_cons] at h
    omega

theorem codes_cons_alpha {c : Nat} (v : List Nat) (h : isAlphabet c = true) :
    codes (c :: v) = decodeMap c :: codes v := by
  simp [codes, List.filter_cons, h]

theorem codes_cons_not_alpha {c : Nat} (v : List Nat) (h : isAlphabet c = false) :
    codes (c :: v) = codes v := by
  simp [codes, List.filter_cons, h]

theorem codes_append (u v : List Nat) : codes (u ++ v) = codes u ++ codes v := by
  simp [codes]

theorem quantumLoop_alpha (dst src : List Nat) (f j si : Nat) (dbuf : List Nat) {c : Nat}
    (hc : src[si]? = some c) (ha : isAlphabet c = true) (hj : j < 4) :
    quantumLoop dst src (f + 1) j si dbuf =
      quantumLoop dst src f (j + 1) (si + 1) (dbuf.set j (decodeMap c)) := by
  have hlen : ¬ src.length = si := by
    intro h
    rw [← h, List.getElem?_eq_none (le_refl _)] at hc
    exact absurd hc (by simp)
  have hd : decodeMap c ≠ 255 := alpha_iff.mpr ha
  rw [quantumLoop]
  simp only [hj, if_true, hlen, if_false, hc, ne_eq, hd, not_false_eq_true]

theorem quantumLoop_nl (dst src : List Nat) (f j si : Nat) (dbuf : List Nat) {c : Nat}
    (hc : src[si]? = some c) (ha : isAlphabet c = false) (hn : isLineBreak c = true)
    (hj : j < 4) :
    quantumLoop dst src (f + 1) j si dbuf = quantumLoop dst src f j (si + 1) dbuf := by
  have hlen : ¬ src.length = si := by
    intro h
    rw [← h, List.getElem?_eq_none (le_refl _)] at hc
    exact absurd hc (by simp)
  have hd : decodeMap c = 255 := decodeMap_of_not_alpha ha
  have hn2 : c = 10 ∨ c = 13 := by simpa [isLineBreak] using hn
  rw [quantumLoop]
  simp only [hj, if_true, hlen, if_false, hc, ne_eq, hd, not_true_eq_false, hn2]

theorem quantumLoop_bad (dst src : List Nat) (f j si : Nat) (dbuf : List Nat) {c : Nat}
    (hc : src[si]? = some c) (ha : isAlphabet c = false) (hn : isLineBreak c = false)
    (hp : c ≠ 61) (hj : j < 4) :
    quantumLoop dst src (f + 1) j si dbuf = writeQuantum dst (si + 1) j dbuf (some si) := by
  have hlen : ¬ src.length = si := by
    intro h
    rw [← h, List.getElem?_eq_none (le_refl _)] at hc
    exact absurd hc (by simp)
  have hd : decodeMap c = 255 := decodeMap_of_not_alpha ha
  have hn2 : ¬ (c = 10 ∨ c = 13) := by
    have : ¬ isLineBreak c = true := by simp [hn]
    simpa [isLineBreak] using this
  rw [quantumLoop]
  simp only [hj, if_true, hlen, if_false, hc, ne_eq, hd, not_true_eq_false, hn2, padChar, hp,
    not_false_eq_true, Nat.add_sub_cancel]

theorem quantumLoop_pad (dst src : List Nat) (f j si : Nat) (dbuf : List Nat)
    (hc : src[si]? = some 61) (hj : j < 4) :
    quantumLoop dst src (f + 1) j si dbuf =
      match handlePadding src j (si + 1) with
      | none => none
      | some (si, err) => writeQuantum dst si j dbuf err := by
  have hlen : ¬ src.length = si := by
    intro h
    rw [← h, List.getElem?_eq_none (le_refl _)] at hc
    exact absurd hc (by simp)
  have hd : decodeMap 61 = 255 := by decide
  rw [quantumLoop]
  simp only [hj, if_true, hlen, if_false, hc, ne_eq, hd, not_true_eq_false, padChar]
  rfl

theorem quantumLoop_end (dst src : List Nat) (f j : Nat) (dbuf : List Nat) (hj : j < 4) :
    quantumLoop dst src (f + 1) j src.length dbuf =
      if j = 0 then some (src.length, 0, none, dst)
      else writeQuantum dst src.length j dbuf none := by
  rw [quantumLoop]
  simp only [hj, if_true]

theorem quantumLoop_four (dst src : List Nat) (f si : Nat) (dbuf : List Nat) :
    quantumLoop dst src (f + 1) 4 si dbuf = writeQuantum dst si 4 dbuf none := by
  rw [quantumLoop]
  simp

theorem alphaNL_cons {c : Nat} {v : List Nat} (h : AlphaNL (c :: v)) :
    (isAlphabet c = true ∨ isLineBreak c = true) ∧ AlphaNL v :=
  ⟨h c (List.mem_cons_self _ _), fun x hx => h x (List.mem_cons_of_mem _ hx)⟩

theorem mid_assoc (pre : List Nat) (c : Nat) (v rest : List Nat) :
    pre ++ (c :: v ++ rest) = (pre ++ [c]) ++ (v ++ rest) := by simp

theorem getElem?_mid2 (pre : List Nat) (c : Nat) (v rest : List Nat) :
    (pre ++ (c :: v ++ rest))[pre.length]? = some c := by
  rw [List.cons_append]
  exact getElem?_mid pre c (v ++ rest)

/-- One run of the loop of `decodeQuantum` over a group that is complete: it
stops behind the fourth digit and writes three bytes. -/
theorem quantumLoop_full (v : List Nat) :
    ∀ (pre rest acc dst : List Nat) (fuel : Nat), AlphaNL v → acc.length ≤ 4 →
      4 ≤ acc.length + (codes v).length → 3 ≤ dst.length → v.length + 1 ≤ fuel →
      ∃ e, e ≤ v.length ∧ (acc.length < 4 → 0 < e) ∧
        (acc ++ codes (v.take e)).length = 4 ∧
        quantumLoop dst (pre ++ (v ++ rest)) fuel acc.length pre.length (dbufOf acc) =
          some (pre.length + e, 3, none,
            bytesOfCodes (acc ++ codes (v.take e)) ++ dst.drop 3) := by
  induction v with
  | nil =>
    intro pre rest acc dst fuel _ hacc h4 hdst hfuel
    obtain ⟨f, rfl⟩ : ∃ f, fuel = f + 1 := ⟨fuel - 1, by omega⟩
    have h4' : acc.length = 4 := by simp [codes] at h4; omega
    refine ⟨0, le_refl _, by omega, by simp [codes, h4'], ?_⟩
    rw [h4', quantumLoop_four]
    have := writeQuantum_spec dst pre.length acc none hacc (by omega)
    rw [h4'] at this
    unfold dbufOf
    rw [h4', this]
    simp [codes]
  | cons c v ih =>
    intro pre rest acc dst fuel hv hacc h4 hdst hfuel
    obtain ⟨f, rfl⟩ : ∃ f, fuel = f + 1 := ⟨fuel - 1, by omega⟩
    by_cases hfull : acc.length = 4
    · refine ⟨0, Nat.zero_le _, by omega, by simp [codes, hfull], ?_⟩
      rw [hfull, quantumLoop_four]
      have := writeQuantum_spec dst pre.length acc none hacc (by omega)
      rw [hfull] at this
      unfold dbufOf
      rw [hfull, this]
      simp [codes]
    · have hj : acc.length < 4 := by omega
      obtain ⟨hc, hv'⟩ := alphaNL_cons hv
      have hget := getElem?_mid2 pre c v rest
      simp only [List.length_cons] at hfuel
      by_cases ha : isAlphabet c = true
      · rw [codes_cons_alpha v ha] at h4
        simp only [List.length_cons] at h4
        obtain ⟨e, he1, _, he3, he4⟩ := ih (pre ++ [c]) rest (acc ++ [decodeMap c]) dst f hv'
          (by simp; omega) (by simp; omega) hdst (by omega)
        refine ⟨e + 1, by simp; omega, fun _ => Nat.succ_pos _, ?_, ?_⟩
        · rw [List.take_succ_cons, codes_cons_alpha _ ha]
          simpa using he3
        · rw [quantumLoop_alpha _ _ _ _ _ _ hget ha hj, dbufOf_set acc _ hj, mid_assoc]
          have e1 : pre.length + 1 = (pre ++ [c]).length := by simp
          have e2 : acc.length + 1 = (acc ++ [decodeMap c]).length := by simp
          rw [e1, e2, he4, List.take_succ_cons, codes_cons_alpha _ ha]
          simp only [List.length_append, List.length_singleton, List.append_assoc,
            List.singleton_append, Option.some.injEq, Prod.mk.injEq, and_true]
          omega
      · have ha' : isAlphabet c = false := by simpa using ha
        have hn : isLineBreak c = true := by
          rcases hc with h | h
          · exact absurd h ha
          · exact h
        rw [codes_cons_not_alpha v ha'] at h4
        obtain ⟨e, he1, _, he3, he4⟩ := ih (pre ++ [c]) rest acc dst f hv' hacc h4 hdst
          (by omega)
        refine ⟨e + 1, by simp; omega, fun _ => Nat.succ_pos _, ?_, ?_⟩
        · rw [List.take_succ_cons, codes_cons_not_alpha _ ha']
          exact he3
        · rw [quantumLoop_nl _ _ _ _ _ _ hget ha' hn hj, mid_assoc]
          have e1 : pre.length + 1 = (pre ++ [c]).length := by simp
          rw [e1, he4, List.take_succ_cons, codes_cons_not_alpha _ ha']
          simp only [List.length_append, List.length_singleton, Option.some.injEq,
            Prod.mk.injEq, and_true]
          omega

theorem terminal_head {c : Nat} {rest : List Nat} (h : Terminal (c :: rest)) :
    isAlphabet c = false ∧ isLineBreak c = false :=
  h c (by simp)

/-- One run of the loop of `decodeQuantum` over the last, incomplete group. -/
theorem quantumLoop_last (v : List Nat) :
    ∀ (pre tail acc dst : List Nat) (fuel : Nat), AlphaNL v → Terminal tail →
      acc.length + (codes v).length < 4 →
      acc.length + (codes v).length - 1 ≤ dst.length → v.length + 1 ≤ fuel →
      ∃ si, quantumLoop dst (pre ++ (v ++ tail)) fuel acc.length pre.length (dbufOf acc) =
          some (si, acc.length + (codes v).length - 1,
            tailErr (acc.length + (codes v).length) (pre.length + v.length) tail,
            bytesOfCodes (acc ++ codes v) ++
              dst.drop (acc.length + (codes v).length - 1)) ∧
        (tailErr (acc.length + (codes v).length) (pre.length + v.length) tail = none →
          si = (pre ++ (v ++ tail)).length) := by
  induction v with
  | nil =>
    intro pre tail acc dst fuel _ ht hlt hdst hfuel
    obtain ⟨f, rfl⟩ : ∃ f, fuel = f + 1 := ⟨fuel - 1, by omega⟩
    have hcodes : codes [] = [] := rfl
    simp only [hcodes, List.length_nil, add_zero, List.nil_append, List.append_nil] at hlt hdst ⊢
    have hw := fun si err => writeQuantum_spec dst si acc err (by omega) hdst
    rcases tail with _ | ⟨c, rest⟩
    · refine ⟨pre.length, ?_, fun _ => by simp⟩
      have := quantumLoop_end dst (pre ++ []) f acc.length (dbufOf acc) hlt
      rw [List.append_nil] at this ⊢
      rw [this]
      by_cases h0 : acc.length = 0
      · have : acc = [] := List.length_eq_zero.mp h0
        subst this
        simp [tailErr, bytesOfCodes]
      · rw [if_neg h0]
        exact hw _ _
    · obtain ⟨hna, hnn⟩ := terminal_head ht
      have hget := getElem?_mid pre c rest
      by_cases hp : c = 61
      · subst hp
        have hsrc : pre ++ 61 :: rest = (pre ++ [61]) ++ rest := by simp
        have hlen : pre.length + 1 = (pre ++ [61]).length := by simp
        have hpad := handlePadding_spec (pre ++ [61]) rest acc.length
        rw [← hsrc, ← hlen] at hpad
        refine ⟨(padResult acc.length rest (pre.length + 1)).1, ?_, ?_⟩
        · rw [quantumLoop_pad _ _ _ _ _ _ hget hlt, hpad]
          simp only [tailErr, ne_eq, not_true_eq_false, if_false]
          exact hw _ _
        · intro h
          simp only [tailErr, ne_eq, not_true_eq_false, if_false] at h
          rw [padResult_none h]
          simp only [List.length_append, List.length_cons]
          omega
      · refine ⟨pre.length + 1, ?_, ?_⟩
        · rw [quantumLoop_bad _ _ _ _ _ _ hget hna hnn hp hlt]
          simp only [tailErr, ne_eq, hp, not_false_eq_true, if_true]
          exact hw _ _
        · intro h
          simp [tailErr, hp] at h
  | cons c v ih =>
    intro pre tail acc dst fuel hv ht hlt hdst hfuel
    obtain ⟨f, rfl⟩ : ∃ f, fuel = f + 1 := ⟨fuel - 1, by omega⟩
    obtain ⟨hc, hv'⟩ := alphaNL_cons hv
    have hget := getElem?_mid2 pre c v tail
    simp only [List.length_cons] at hfuel
    have e1 : pre.length + 1 = (pre ++ [c]).length := by simp
    have e3 : pre.length + (v.length + 1) = (pre ++ [c]).length + v.length := by
      simp only [List.length_append, List.length_singleton]; omega
    by_cases ha : isAlphabet c = true
    · rw [codes_cons_alpha v ha] at hlt hdst ⊢
      simp only [List.length_cons] at hlt hdst ⊢
      have hj : acc.length < 4 := by omega
      have e2 : acc.length + 1 = (acc ++ [decodeMap c]).length := by simp
      have e4 : acc.length + ((codes v).length + 1) =
          (acc ++ [decodeMap c]).length + (codes v).length := by
        simp only [List.length_append, List.length_singleton]; omega
      have e5 : acc ++ decodeMap c :: codes v = (acc ++ [decodeMap c]) ++ codes v := by simp
      obtain ⟨si, h1, h2⟩ := ih (pre ++ [c]) tail (acc ++ [decodeMap c]) dst f hv' ht
        (by rw [← e4]; exact hlt) (by rw [← e4]; exact hdst) (by omega)
      refine ⟨si, ?_, ?_⟩
      · rw [quantumLoop_alpha _ _ _ _ _ _ hget ha hj, dbufOf_set acc _ hj, mid_assoc, e1, e2,
          h1, e3, e4, e5]
      · rw [mid_assoc, e3, e4]
        exact h2
    · have ha' : isAlphabet c = false := by simpa using ha
      have hn : isLineBreak c = true := by
        rcases hc with h | h
        · exact absurd h ha
        · exact h
      rw [codes_cons_not_alpha v ha'] at hlt hdst ⊢
      simp only [List.length_cons]
      have hj : acc.length < 4 := by omega
      obtain ⟨si, h1, h2⟩ := ih (pre ++ [c]) tail acc dst f hv' ht hlt hdst (by omega)
      refine ⟨si, ?_, ?_⟩
      · rw [quantumLoop_nl _ _ _ _ _ _ hget ha' hn hj, mid_assoc, e1, h1, e3]
      · rw [mid_assoc, e3]
        exact h2

theorem bytesOfCodes_length_aux (k : Nat) :
    ∀ l : List Nat, l.length ≤ k → (bytesOfCodes l).length = 3 * l.length / 4 := by
  induction k using Nat.strong_induction_on with
  | _ k ih =>
    intro l hl
    rcases l with _ | ⟨a0, _ | ⟨a1, _ | ⟨a2, _ | ⟨a3, t⟩⟩⟩⟩
    · simp [bytesOfCodes]
    · simp [bytesOfCodes]
    · simp [bytesOfCodes]
    · simp [bytesOfCodes]
    · simp only [List.length_cons] at hl
      have := ih t.length (by omega) t (le_refl _)
      rw [bytesOfCodes_four]
      simp only [List.length_append, List.length_cons, List.length_nil, this]
      omega

theorem bytesOfCodes_length (l : List Nat) : (bytesOfCodes l).length = 3 * l.length / 4 :=
  bytesOfCodes_length_aux l.length l (le_refl _)

theorem bytesOfCodes_append_aux (k : Nat) :
    ∀ l1 l2 : List Nat, l1.length ≤ k → l1.length % 4 = 0 →
      bytesOfCodes (l1 ++ l2) = bytesOfCodes l1 ++ bytesOfCodes l2 := by
  induction k using Nat.strong_induction_on with
  | _ k ih =>
    intro l1 l2 hl hm
    rcases l1 with _ | ⟨a0, _ | ⟨a1, _ | ⟨a2, _ | ⟨a3, t⟩⟩⟩⟩
    · rfl
    · simp at hm
    · simp at hm
    · simp at hm
    · simp only [List.length_cons] at hl hm
      have := ih t.length (by omega) t l2 (le_refl _) (by omega)
      simp only [List.cons_append]
      rw [bytesOfCodes_four, bytesOfCodes_four, this]
      simp

theorem bytesOfCodes_append (l1 l2 : List Nat) (h : l1.length % 4 = 0) :
    bytesOfCodes (l1 ++ l2) = bytesOfCodes l1 ++ bytesOfCodes l2 :=
  bytesOfCodes_append_aux l1.length l1 l2 (le_refl _) h

theorem codes_length_le (p : List Nat) : (codes p).length ≤ p.length := by
  unfold codes
  rw [List.length_map]
  exact List.length_filter_le _ _

theorem take_stitch (dst : List Nat) (n : Nat) (b rest : List Nat) (hn : n ≤ dst.length) :
    (dst.take n ++ (b ++ rest)).take (n + b.length) = dst.take n ++ b := by
  rw [← List.append_assoc]
  apply List.take_left'
  simp [List.length_take, hn]

/-- A call of `decodeQuantum` from the loops, on a group that is complete. -/
theorem quantumStep_full (dst0 u v tail : List Nat) (n : Nat) (dst : List Nat)
    (hv : AlphaNL v) (hcap : 3 * (codes (u ++ v)).length / 4 ≤ dst0.length)
    (hinv : Inv dst0 u n dst) (h4 : 4 ≤ (codes v).length) :
    ∃ e dst', 0 < e ∧ e ≤ v.length ∧
      quantumStep dst (u ++ (v ++ tail)) u.length n = some (u.length + e, n + 3, none, dst') ∧
      Inv dst0 (u ++ v.take e) (n + 3) dst' := by
  obtain ⟨hm, hn, htake, hlen⟩ := hinv
  have hcv := codes_length_le v
  have hcu := codes_length_le u
  rw [codes_append, List.length_append] at hcap
  have hb : n + 3 ≤ dst.length := by omega
  obtain ⟨e, he1, he2, he3, he4⟩ := quantumLoop_full v u tail [] (dst.drop n)
    ((u ++ (v ++ tail)).length + 1) hv (by simp) (by simpa using h4)
    (by simp only [List.length_drop]; omega) (by simp only [List.length_append]; omega)
  simp only [List.nil_append, List.length_nil] at he2 he3 he4
  refine ⟨e, dst.take n ++ (bytesOfCodes (codes (v.take e)) ++ (dst.drop n).drop 3),
    he2 (by omega), he1, ?_, ?_⟩
  · unfold quantumStep decodeQuantum
    rw [if_pos (by omega)]
    have : dbufOf [] = [0, 0, 0, 0] := rfl
    rw [← this, he4]
  · have hbl : (bytesOfCodes (codes (v.take e))).length = 3 := by
      rw [bytesOfCodes_length, he3]
    refine ⟨?_, ?_, ?_, ?_⟩
    · rw [codes_append, List.length_append, he3]; omega
    · rw [codes_append, List.length_append, he3]; omega
    · have := take_stitch dst n (bytesOfCodes (codes (v.take e))) ((dst.drop n).drop 3)
        (by omega)
      rw [hbl] at this
      rw [this, htake, codes_append, bytesOfCodes_append _ _ hm]
    · simp only [List.length_append, List.length_take, List.length_drop, hbl]
      omega

/-- A call of `decodeQuantum` from the loops, on the last, incomplete group. -/
theorem quantumStep_last (dst0 u v tail : List Nat) (n : Nat) (dst : List Nat)
    (hv : AlphaNL v) (ht : Terminal tail)
    (hcap : 3 * (codes (u ++ v)).length / 4 ≤ dst0.length)
    (hinv : Inv dst0 u n dst) (h4 : (codes v).length < 4) :
    ∃ si dst', quantumStep dst (u ++ (v ++ tail)) u.length n =
        some (si, 3 * (codes (u ++ v)).length / 4,
          tailErr ((codes (u ++ v)).length % 4) (u ++ v).length tail, dst') ∧
      dst'.take (3 * (codes (u ++ v)).length / 4) = bytesOfCodes (codes (u ++ v)) ∧
      dst'.length = dst0.length ∧
      (tailErr ((codes (u ++ v)).length % 4) (u ++ v).length tail = none →
        si = (u ++ (v ++ tail)).length) := by
  obtain ⟨hm, hn, htake, hlen⟩ := hinv
  have hcv := codes_length_le v
  have hcu := codes_length_le u
  rw [codes_append, List.length_append] at hcap
  have hb : n + ((codes v).length - 1) ≤ dst.length := by omega
  obtain ⟨si, h1, h2⟩ := quantumLoop_last v u tail [] (dst.drop n)
    ((u ++ (v ++ tail)).length + 1) hv ht (by simpa using h4)
    (by simp only [List.length_drop, List.length_nil]; omega)
    (by simp only [List.length_append]; omega)
  simp only [List.nil_append, List.length_nil, Nat.zero_add] at h1 h2
  have hK : (codes (u ++ v)).length % 4 = (codes v).length := by
    rw [codes_append, List.length_append]; omega
  have hN : 3 * (codes (u ++ v)).length / 4 = n + ((codes v).length - 1) := by
    rw [codes_append, List.length_append]; omega
  have hblen : (bytesOfCodes (codes v)).length = (codes v).length - 1 := by
    rw [bytesOfCodes_length]; omega
  rw [hK, hN, List.length_append]
  refine ⟨si, dst.take n ++ (bytesOfCodes (codes v) ++
    (dst.drop n).drop ((codes v).length - 1)), ?_, ?_, ?_, h2⟩
  · unfold quantumStep decodeQuantum
    rw [if_pos (by omega)]
    have : dbufOf [] = [0, 0, 0, 0] := rfl
    rw [← this, h1]
  · have := take_stitch dst n (bytesOfCodes (codes v)) ((dst.drop n).drop ((codes v).length - 1))
      (by omega)
    rw [hblen] at this
    rw [this, htake, codes_append, bytesOfCodes_append _ _ hm]
  · simp only [List.length_append, List.length_take, List.length_drop, hblen]
    omega

theorem loopQuantum_eq (src : List Nat) (f si n : Nat) (dst : List Nat) :
    loopQuantum src (f + 1) si n dst =
      if si < src.length then stepThen src dst si n (loopQuantum src f)
      else some (n, none, dst) := by
  rw [loopQuantum]
  rfl

theorem loopQuantum_exit (src : List Nat) (f n : Nat) (dst : List Nat) :
    loopQuantum src (f + 1) src.length n dst = some (n, none, dst) := by
  rw [loopQuantum_eq, if_neg (lt_irrefl _)]

theorem loop32_exit (src : List Nat) (f n : Nat) (dst : List Nat) :
    loop32 src (f + 1) src.length n dst = some (n, none, dst) := by
  rw [loop32, if_neg (by omega), loopQuantum_exit]

theorem loop64_exit (intSize : Nat) (src : List Nat) (f n : Nat) (dst : List Nat) :
    loop64 intSize src (f + 1) src.length n dst = some (n, none, dst) := by
  rw [loop64, if_neg (by omega), loop32_exit]

theorem split_take (u v tail : List Nat) (e : Nat) (he : e ≤ v.length) :
    (u ++ v.take e) ++ (v.drop e ++ tail) = u ++ (v ++ tail) ∧
      (u ++ v.take e).length = u.length + e ∧ (u ++ v.take e) ++ v.drop e = u ++ v := by
  refine ⟨?_, ?_, ?_⟩
  · rw [List.append_assoc, ← List.append_assoc (v.take e), List.take_append_drop]
  · rw [List.length_append, List.length_take, Nat.min_eq_left he]
  · rw [List.append_assoc, List.take_append_drop]

theorem alphaNL_drop {v : List Nat} (h : AlphaNL v) (e : Nat) : AlphaNL (v.drop e) :=
  fun c hc => h c (List.mem_of_mem_drop hc)

/-- The shared block keeps the result of the whole decoding, provided the next
iteration does. -/
theorem stepThen_post (dst0 u v tail : List Nat) (n : Nat) (dst : List Nat)
    (cont : Nat → Nat → List Nat → Option (Nat × Err × List Nat))
    (hv : AlphaNL v) (ht : Terminal tail)
    (hcap : 3 * (codes (u ++ v)).length / 4 ≤ dst0.length) (hinv : Inv dst0 u n dst)
    (hcont : ∀ e n' dst', 0 < e → e ≤ v.length → Inv dst0 (u ++ v.take e) n' dst' →
      Post (u ++ v) tail dst0 (cont (u.length + e) n' dst'))
    (hexit : ∀ n' dst', cont (u ++ (v ++ tail)).length n' dst' = some (n', none, dst')) :
    Post (u ++ v) tail dst0 (stepThen (u ++ (v ++ tail)) dst u.length n cont) := by
  by_cases h4 : 4 ≤ (codes v).length
  · obtain ⟨e, dst', he0, hel, hq, hinv'⟩ := quantumStep_full dst0 u v tail n dst hv hcap hinv h4
    unfold stepThen
    rw [hq]
    exact hcont e (n + 3) dst' he0 hel hinv'
  · obtain ⟨si, dst', hq, htk, hlen, hsi⟩ :=
      quantumStep_last dst0 u v tail n dst hv ht hcap hinv (by omega)
    unfold stepThen
    rw [hq]
    rcases herr : tailErr ((codes (u ++ v)).length % 4) (u ++ v).length tail with _ | k
    · rw [herr] at hsi
      rw [hsi rfl]
      simp only
      rw [hexit]
      exact ⟨dst', by rw [herr], htk, hlen⟩
    · simp only
      exact ⟨dst', by rw [herr], htk, hlen⟩

theorem inv_done (dst0 u : List Nat) (n : Nat) (dst : List Nat) (hinv : Inv dst0 u n dst) :
    Post (u ++ []) [] dst0 (some (n, none, dst)) := by
  obtain ⟨hm, hn, htake, hlen⟩ := hinv
  have hN : 3 * (codes u).length / 4 = n := by omega
  rw [List.append_nil]
  refine ⟨dst, ?_, ?_, hlen⟩
  · rw [hN]; rfl
  · rw [hN]; exact htake

/-- The third loop of `DecodeBase64` completes the decoding. -/
theorem loopQuantum_post (dst0 tail : List Nat) (ht : Terminal tail) (fuel : Nat) :
    ∀ (u v : List Nat) (n : Nat) (dst : List Nat), AlphaNL v →
      3 * (codes (u ++ v)).length / 4 ≤ dst0.length → Inv dst0 u n dst →
      v.length + tail.length + 1 ≤ fuel →
      Post (u ++ v) tail dst0 (loopQuantum (u ++ (v ++ tail)) fuel u.length n dst) := by
  induction fuel with
  | zero => intro u v n dst _ _ _ h; omega
  | succ f ih =>
    intro u v n dst hv hcap hinv hfuel
    rw [loopQuantum_eq]
    by_cases hlt : u.length < (u ++ (v ++ tail)).length
    · rw [if_pos hlt]
      simp only [List.length_append] at hlt
      apply stepThen_post dst0 u v tail n dst _ hv ht hcap hinv
      · intro e n' dst' he0 hel hinv'
        obtain ⟨h1, h2, h3⟩ := split_take u v tail e hel
        have := ih (u ++ v.take e) (v.drop e) n' dst' (alphaNL_drop hv e)
          (by rw [h3]; exact hcap) hinv' (by simp only [List.length_drop]; omega)
        rw [h1, h2, h3] at this
        exact this
      · intro n' dst'
        obtain ⟨f', rfl⟩ : ∃ f', f = f' + 1 := ⟨f - 1, by omega⟩
        exact loopQuantum_exit _ _ _ _
    · rw [if_neg hlt]
      simp only [List.length_append] at hlt
      have hv0 : v = [] := List.length_eq_zero.mp (by omega)
      have ht0 : tail = [] := List.length_eq_zero.mp (by omega)
      subst hv0; subst ht0
      exact inv_done dst0 u n dst hinv

theorem getElem?_append_add (u w : List Nat) (i : Nat) :
    (u ++ w)[u.length + i]? = w[i]? := by
  rw [List.getElem?_append_right (by omega)]
  congr 1
  omega

theorem alpha_head_split (l : List Nat) :
    ∀ (v tail w : List Nat), (∀ c ∈ l, isAlphabet c = true) → Terminal tail →
      v ++ tail = l ++ w → ∃ v', v = l ++ v' ∧ w = v' ++ tail := by
  induction l with
  | nil => intro v tail w _ _ h; exact ⟨v, rfl, by simpa using h.symm⟩
  | cons c l ih =>
    intro v tail w hl ht h
    have hc : isAlphabet c = true := hl c (List.mem_cons_self _ _)
    rcases v with _ | ⟨d, v⟩
    · simp only [List.nil_append] at h
      subst h
      have := (terminal_head ht).1
      rw [hc] at this
      exact absurd this (by simp)
    · simp only [List.cons_append, List.cons.injEq] at h
      obtain ⟨hd, h⟩ := h
      obtain ⟨v', h1, h2⟩ := ih v tail w (fun x hx => hl x (List.mem_cons_of_mem _ hx)) ht h
      exact ⟨v', by rw [hd, h1]; rfl, h2⟩

theorem loop32_fast_eq (src : List Nat) (f si n : Nat) (dst : List Nat) (c0 c1 c2 c3 : Nat)
    (h0 : src[si]? = some c0) (h1 : src[si + 1]? = some c1) (h2 : src[si + 2]? = some c2)
    (h3 : src[si + 3]? = some c3) (hcond : src.length - si ≥ 4 ∧ dst.length - n ≥ 4)
    (dn : Nat)
    (hA : assemble32 (decodeMap c0) (decodeMap c1) (decodeMap c2) (decodeMap c3) = (dn, true))
    (d : List Nat) (hput : putUint32 (dst.drop n) dn = some d) (hn : n ≤ dst.length) :
    loop32 src (f + 1) si n dst = loop32 src f (si + 4) (n + 3) (dst.take n ++ d) := by
  rw [loop32, if_pos hcond]
  simp only [h0, h1, h2, h3, hA, hput, hn, if_true]

theorem loop32_slow_eq (src : List Nat) (f si n : Nat) (dst : List Nat) (c0 c1 c2 c3 : Nat)
    (h0 : src[si]? = some c0) (h1 : src[si + 1]? = some c1) (h2 : src[si + 2]? = some c2)
    (h3 : src[si + 3]? = some c3) (hcond : src.length - si ≥ 4 ∧ dst.length - n ≥ 4)
    (hA : assemble32 (decodeMap c0) (decodeMap c1) (decodeMap c2) (decodeMap c3) = (0, false)) :
    loop32 src (f + 1) si n dst = stepThen src dst si n (loop32 src f) := by
  rw [loop32, if_pos hcond]
  simp only [h0, h1, h2, h3, hA]
  rfl

theorem loop32_done_eq (src : List Nat) (f si n : Nat) (dst : List Nat)
    (hcond : ¬ (src.length - si ≥ 4 ∧ dst.length - n ≥ 4)) :
    loop32 src (f + 1) si n dst = loopQuantum src (src.length + 1) si n dst := by
  rw [loop32, if_neg hcond]

theorem exists_prefix4 (w : List Nat) (h : 4 ≤ w.length) :
    ∃ c0 c1 c2 c3 w', w = c0 :: c1 :: c2 :: c3 :: w' := by
  rcases w with _ | ⟨c0, _ | ⟨c1, _ | ⟨c2, _ | ⟨c3, w'⟩⟩⟩⟩
  · simp at h
  · simp at h
  · simp at h
  · simp at h
  · exact ⟨c0, c1, c2, c3, w', rfl⟩

/-- The invariant after a batch of complete groups has been written by a batch
loop, followed by `k` bytes that are not part of the result. -/
theorem inv_batch (dst0 u l : List Nat) (n : Nat) (dst junk : List Nat) (k m : Nat)
    (hinv : Inv dst0 u n dst) (hl : ∀ c ∈ l, isAlphabet c = true) (hlen : l.length = 4 * m)
    (hjunk : junk.length = k) (hroom : n + (3 * m + k) ≤ dst.length) :
    Inv dst0 (u ++ l) (n + 3 * m)
      (dst.take n ++ (bytesOfCodes (l.map decodeMap) ++ junk ++ (dst.drop n).drop (3 * m + k))) := by
  obtain ⟨hm, hn, htake, hdl⟩ := hinv
  have hcl : codes l = l.map decodeMap := by
    unfold codes
    rw [List.filter_eq_self.mpr hl]
  have hbl : (bytesOfCodes (l.map decodeMap)).length = 3 * m := by
    rw [bytesOfCodes_length, List.length_map, hlen]; omega
  refine ⟨?_, ?_, ?_, ?_⟩
  · rw [codes_append, List.length_append, hcl, List.length_map, hlen]; omega
  · rw [codes_append, List.length_append, hcl, List.length_map, hlen]; omega
  · have := take_stitch dst n (bytesOfCodes (l.map decodeMap)) (junk ++ (dst.drop n).drop (3 * m + k))
      (by omega)
    rw [hbl] at this
    rw [List.append_assoc, this, htake, codes_append, bytesOfCodes_append _ _ hm, hcl]
  · simp only [List.length_append, List.length_take, List.length_drop, hbl, hjunk]
    omega

/-- The second loop of `DecodeBase64` completes the decoding. -/
theorem loop32_post (dst0 tail : List Nat) (ht : Terminal tail) (fuel : Nat) :
    ∀ (u v : List Nat) (n : Nat) (dst : List Nat), AlphaNL v →
      3 * (codes (u ++ v)).length / 4 ≤ dst0.length → Inv dst0 u n dst →
      v.length + tail.length + 1 ≤ fuel →
      Post (u ++ v) tail dst0 (loop32 (u ++ (v ++ tail)) fuel u.length n dst) := by
  induction fuel with
  | zero => intro u v n dst _ _ _ h; omega
  | succ f ih =>
    intro u v n dst hv hcap hinv hfuel
    by_cases hcond : (u ++ (v ++ tail)).length - u.length ≥ 4 ∧ dst.length - n ≥ 4
    · have hw : 4 ≤ (v ++ tail).length := by
        have := hcond.1
        simp only [List.length_append] at this ⊢
        omega
      obtain ⟨c0, c1, c2, c3, w', hw'⟩ := exists_prefix4 _ hw
      have g0 : (u ++ (v ++ tail))[u.length]? = some c0 := by
        have := getElem?_append_add u (v ++ tail) 0
        rw [hw'] at this ⊢
        simpa using this
      have g1 : (u ++ (v ++ tail))[u.length + 1]? = some c1 := by
        rw [getElem?_append_add, hw']; simp
      have g2 : (u ++ (v ++ tail))[u.length + 2]? = some c2 := by
        rw [getElem?_append_add, hw']; simp
      have g3 : (u ++ (v ++ tail))[u.length + 3]? = some c3 := by
        rw [getElem?_append_add, hw']; simp
      by_cases hall : isAlphabet c0 = true ∧ isAlphabet c1 = true ∧ isAlphabet c2 = true ∧
          isAlphabet c3 = true
      · obtain ⟨a0, a1, a2, a3⟩ := hall
        have hl : ∀ c ∈ [c0, c1, c2, c3], isAlphabet c = true := by
          intro c hc
          simp only [List.mem_cons, List.mem_singleton, List.not_mem_nil, or_false] at hc
          rcases hc with rfl | rfl | rfl | rfl <;> assumption
        obtain ⟨v', hv1, hv2⟩ := alpha_head_split [c0, c1, c2, c3] v tail w' hl ht hw'
        have hA := assemble32_ok (decodeMap_of_alpha a0) (decodeMap_of_alpha a1)
          (decodeMap_of_alpha a2) (decodeMap_of_alpha a3)
        have hput := putUint32_spec (decodeMap_of_alpha a0) (decodeMap_of_alpha a1)
          (decodeMap_of_alpha a2) (decodeMap_of_alpha a3) (dst.drop n)
          (by rw [List.length_drop]; exact hcond.2)
        have hn : n ≤ dst.length := by omega
        rw [hA] at hput
        rw [loop32_fast_eq _ f _ _ _ c0 c1 c2 c3 g0 g1 g2 g3 hcond _ hA _ hput hn]
        have hinv' := inv_batch dst0 u [c0, c1, c2, c3] n dst [0] 1 1 hinv hl rfl rfl
          (by omega)
        have hvlen : v.length = v'.length + 4 := by rw [hv1]; simp
        have hv'a : AlphaNL v' := by
          intro c hc
          exact hv c (by rw [hv1]; exact List.mem_append_right _ hc)
        have hsrc : u ++ (v ++ tail) = (u ++ [c0, c1, c2, c3]) ++ (v' ++ tail) := by
          rw [hv1]; simp
        have hp : u ++ [c0, c1, c2, c3] ++ v' = u ++ v := by rw [hv1]; simp
        have := ih (u ++ [c0, c1, c2, c3]) v' (n + 3 * 1)
          (dst.take n ++ (bytesOfCodes ([c0, c1, c2, c3].map decodeMap) ++ [0] ++
            (dst.drop n).drop (3 * 1 + 1))) hv'a (by rw [hp]; exact hcap) hinv' (by omega)
        rw [← hsrc] at this
        rw [hp] at this
        simpa using this
      · have hbad : decodeMap c0 = 255 ∨ decodeMap c1 = 255 ∨ decodeMap c2 = 255 ∨
            decodeMap c3 = 255 := by
          by_contra hcon
          simp only [not_or] at hcon
          exact hall ⟨alpha_iff.mp hcon.1, alpha_iff.mp hcon.2.1, alpha_iff.mp hcon.2.2.1,
            alpha_iff.mp hcon.2.2.2⟩
        have hA := assemble32_bad (decodeMap_entry c0) (decodeMap_entry c1) (decodeMap_entry c2)
          (decodeMap_entry c3) hbad
        rw [loop32_slow_eq _ f _ _ _ c0 c1 c2 c3 g0 g1 g2 g3 hcond hA]
        apply stepThen_post dst0 u v tail n dst _ hv ht hcap hinv
        · intro e n' dst' he0 hel hinv'
          obtain ⟨h1, h2, h3⟩ := split_take u v tail e hel
          have := ih (u ++ v.take e) (v.drop e) n' dst' (alphaNL_drop hv e)
            (by rw [h3]; exact hcap) hinv' (by simp only [List.length_drop]; omega)
          rw [h1, h2, h3] at this
          exact this
        · intro n' dst'
          have : 4 ≤ v.length + tail.length := by simpa using hw
          obtain ⟨f', rfl⟩ : ∃ f', f = f' + 1 := ⟨f - 1, by omega⟩
          exact loop32_exit _ _ _ _
    · rw [loop32_done_eq _ _ _ _ _ hcond]
      exact loopQuantum_post dst0 tail ht _ u v n dst hv hcap hinv
        (by simp only [List.length_append]; omega)

theorem loop64_fast_eq (intSize : Nat) (src : List Nat) (f si n : Nat) (dst : List Nat)
    (c0 c1 c2 c3 c4 c5 c6 c7 : Nat)
    (h0 : src[si]? = some c0) (h1 : src[si + 1]? = some c1) (h2 : src[si + 2]? = some c2)
    (h3 : src[si + 3]? = some c3) (h4 : src[si + 4]? = some c4) (h5 : src[si + 5]? = some c5)
    (h6 : src[si + 6]? = some c6) (h7 : src[si + 7]? = some c7)
    (hcond : intSize ≥ 64 ∧ src.length - si ≥ 8 ∧ dst.length - n ≥ 8) (dn : Nat)
    (hA : assemble64 (decodeMap c0) (decodeMap c1) (decodeMap c2) (decodeMap c3)
      (decodeMap c4) (decodeMap c5) (decodeMap c6) (decodeMap c7) = (dn, true))
    (d : List Nat) (hput : putUint64 (dst.drop n) dn = some d) (hn : n ≤ dst.length) :
    loop64 intSize src (f + 1) si n dst =
      loop64 intSize src f (si + 8) (n + 6) (dst.take n ++ d) := by
  rw [loop64, if_pos hcond]
  simp only [h0, h1, h2, h3, h4, h5, h6, h7, hA, hput, hn, if_true]

theorem loop64_slow_eq (intSize : Nat) (src : List Nat) (f si n : Nat) (dst : List Nat)
    (c0 c1 c2 c3 c4 c5 c6 c7 : Nat)
    (h0 : src[si]? = some c0) (h1 : src[si + 1]? = some c1) (h2 : src[si + 2]? = some c2)
    (h3 : src[si + 3]? = some c3) (h4 : src[si + 4]? = some c4) (h5 : src[si + 5]? = some c5)
    (h6 : src[si + 6]? = some c6) (h7 : src[si + 7]? = some c7)
    (hcond : intSize ≥ 64 ∧ src.length - si ≥ 8 ∧ dst.length - n ≥ 8)
    (hA : assemble64 (decodeMap c0) (decodeMap c1) (decodeMap c2) (decodeMap c3)
      (decodeMap c4) (decodeMap c5) (decodeMap c6) (decodeMap c7) = (0, false)) :
    loop64 intSize src (f + 1) si n dst = stepThen src dst si n (loop64 intSize src f) := by
  rw [loop64, if_pos hcond]
  simp only [h0, h1, h2, h3, h4, h5, h6, h7, hA]
  rfl

theorem loop64_done_eq (intSize : Nat) (src : List Nat) (f si n : Nat) (dst : List Nat)
    (hcond : ¬ (intSize ≥ 64 ∧ src.length - si ≥ 8 ∧ dst.length - n ≥ 8)) :
    loop64 intSize src (f + 1) si n dst = loop32 src (src.length + 1) si n dst := by
  rw [loop64, if_neg hcond]

theorem exists_prefix8 (w : List Nat) (h : 8 ≤ w.length) :
    ∃ c0 c1 c2 c3 c4 c5 c6 c7 w', w = c0 :: c1 :: c2 :: c3 :: c4 :: c5 :: c6 :: c7 :: w' := by
  obtain ⟨c0, c1, c2, c3, w1, rfl⟩ := exists_prefix4 w (by omega)
  obtain ⟨c4, c5, c6, c7, w2, rfl⟩ := exists_prefix4 w1 (by simp at h; omega)
  exact ⟨c0, c1, c2, c3, c4, c5, c6, c7, w2, rfl⟩

/-- The first loop of `DecodeBase64` completes the decoding. -/
theorem loop64_post (intSize : Nat) (dst0 tail : List Nat) (ht : Terminal tail) (fuel : Nat) :
    ∀ (u v : List Nat) (n : Nat) (dst : List Nat), AlphaNL v →
      3 * (codes (u ++ v)).length / 4 ≤ dst0.length → Inv dst0 u n dst →
      v.length + tail.length + 1 ≤ fuel →
      Post (u ++ v) tail dst0 (loop64 intSize (u ++ (v ++ tail)) fuel u.length n dst) := by
  induction fuel with
  | zero => intro u v n dst _ _ _ h; omega
  | succ f ih =>
    intro u v n dst hv hcap hinv hfuel
    by_cases hcond : intSize ≥ 64 ∧ (u ++ (v ++ tail)).length - u.length ≥ 8 ∧
        dst.length - n ≥ 8
    · have hw : 8 ≤ (v ++ tail).length := by
        have := hcond.2.1
        simp only [List.length_append] at this ⊢
        omega
      obtain ⟨c0, c1, c2, c3, c4, c5, c6, c7, w', hw'⟩ := exists_prefix8 _ hw
      have g0 : (u ++ (v ++ tail))[u.length]? = some c0 := by
        have := getElem?_append_add u (v ++ tail) 0
        rw [hw'] at this ⊢
        simpa using this
      have g1 : (u ++ (v ++ tail))[u.length + 1]? = some c1 := by
        rw [getElem?_append_add, hw']; simp
      have g2 : (u ++ (v ++ tail))[u.length + 2]? = some c2 := by
        rw [getElem?_append_add, hw']; simp
      have g3 : (u ++ (v ++ tail))[u.length + 3]? = some c3 := by
        rw [getElem?_append_add, hw']; simp
      have g4 : (u ++ (v ++ tail))[u.length + 4]? = some c4 := by
        rw [getElem?_append_add, hw']; simp
      have g5 : (u ++ (v ++ tail))[u.length + 5]? = some c5 := by
        rw [getElem?_append_add, hw']; simp
      have g6 : (u ++ (v ++ tail))[u.length + 6]? = some c6 := by
        rw [getElem?_append_add, hw']; simp
      have g7 : (u ++ (v ++ tail))[u.length + 7]? = some c7 := by
        rw [getElem?_append_add, hw']; simp
      by_cases hall : ∀ c ∈ [c0, c1, c2, c3, c4, c5, c6, c7], isAlphabet c = true
      · have a0 := decodeMap_of_alpha (hall c0 (by simp))
        have a1 := decodeMap_of_alpha (hall c1 (by simp))
        have a2 := decodeMap_of_alpha (hall c2 (by simp))
        have a3 := decodeMap_of_alpha (hall c3 (by simp))
        have a4 := decodeMap_of_alpha (hall c4 (by simp))
        have a5 := decodeMap_of_alpha (hall c5 (by simp))
        have a6 := decodeMap_of_alpha (hall c6 (by simp))
        have a7 := decodeMap_of_alpha (hall c7 (by simp))
        obtain ⟨v', hv1, hv2⟩ := alpha_head_split [c0, c1, c2, c3, c4, c5, c6, c7] v tail w' hall ht hw'
        have hA := assemble64_ok a0 a1 a2 a3 a4 a5 a6 a7
        have hput := putUint64_spec a0 a1 a2 a3 a4 a5 a6 a7 (dst.drop n)
          (by rw [List.length_drop]; exact hcond.2.2)
        have hn : n ≤ dst.length := by omega
        rw [hA] at hput
        rw [loop64_fast_eq _ _ f _ _ _ c0 c1 c2 c3 c4 c5 c6 c7 g0 g1 g2 g3 g4 g5 g6 g7 hcond _ hA
          _ hput hn]
        have hinv' := inv_batch dst0 u [c0, c1, c2, c3, c4, c5, c6, c7] n dst [0, 0] 2 2 hinv
          hall rfl rfl (by omega)
        have hvlen : v.length = v'.length + 8 := by rw [hv1]; simp
        have hv'a : AlphaNL v' := by
          intro c hc
          exact hv c (by rw [hv1]; exact List.mem_append_right _ hc)
        have hsrc : u ++ (v ++ tail) = (u ++ [c0, c1, c2, c3, c4, c5, c6, c7]) ++ (v' ++ tail) := by
          rw [hv1]; simp
        have hp : u ++ [c0, c1, c2, c3, c4, c5, c6, c7] ++ v' = u ++ v := by rw [hv1]; simp
        have := ih (u ++ [c0, c1, c2, c3, c4, c5, c6, c7]) v' (n + 3 * 2)
          (dst.take n ++ (bytesOfCodes ([c0, c1, c2, c3, c4, c5, c6, c7].map decodeMap) ++ [0, 0] ++
            (dst.drop n).drop (3 * 2 + 2))) hv'a (by rw [hp]; exact hcap) hinv' (by omega)
        rw [← hsrc] at this
        rw [hp] at this
        simpa using this
      · have hbad : decodeMap c0 = 255 ∨ decodeMap c1 = 255 ∨ decodeMap c2 = 255 ∨
            decodeMap c3 = 255 ∨ decodeMap c4 = 255 ∨ decodeMap c5 = 255 ∨ decodeMap c6 = 255 ∨
            decodeMap c7 = 255 := by
          by_contra hcon
          simp only [not_or] at hcon
          apply hall
          intro c hc
          simp only [List.mem_cons, List.mem_singleton, List.not_mem_nil, or_false] at hc
          rcases hc with rfl | rfl | rfl | rfl | rfl | rfl | rfl | rfl
          · exact alpha_iff.mp hcon.1
          · exact alpha_iff.mp hcon.2.1
          · exact alpha_iff.mp hcon.2.2.1
          · exact alpha_iff.mp hcon.2.2.2.1
          · exact alpha_iff.mp hcon.2.2.2.2.1
          · exact alpha_iff.mp hcon.2.2.2.2.2.1
          · exact alpha_iff.mp hcon.2.2.2.2.2.2.1
          · exact alpha_iff.mp hcon.2.2.2.2.2.2.2
        have hA := assemble64_bad (decodeMap_entry c0) (decodeMap_entry c1) (decodeMap_entry c2)
          (decodeMap_entry c3) (decodeMap_entry c4) (decodeMap_entry c5) (decodeMap_entry c6)
          (decodeMap_entry c7) hbad
        rw [loop64_slow_eq _ _ f _ _ _ c0 c1 c2 c3 c4 c5 c6 c7 g0 g1 g2 g3 g4 g5 g6 g7 hcond hA]
        apply stepThen_post dst0 u v tail n dst _ hv ht hcap hinv
        · intro e n' dst' he0 hel hinv'
          obtain ⟨h1, h2, h3⟩ := split_take u v tail e hel
          have := ih (u ++ v.take e) (v.drop e) n' dst' (alphaNL_drop hv e)
            (by rw [h3]; exact hcap) hinv' (by simp only [List.length_drop]; omega)
          rw [h1, h2, h3] at this
          exact this
        · intro n' dst'
          have : 8 ≤ v.length + tail.length := by simpa using hw
          obtain ⟨f', rfl⟩ : ∃ f', f = f' + 1 := ⟨f - 1, by omega⟩
          exact loop64_exit _ _ _ _ _
    · rw [loop64_done_eq _ _ _ _ _ _ hcond]
      exact loop32_post dst0 tail ht _ u v n dst hv hcap hinv
        (by simp only [List.length_append]; omega)

/-- The result of `DecodeBase64` on every source, written as a text `p` of
alphabet characters and line breaks followed by a remainder `tail` that is empty
or begins with another byte, and every destination of sufficient capacity. -/
theorem decode_post (intSize : Nat) (dst p tail : List Nat) (hp : AlphaNL p)
    (ht : Terminal tail) (hcap : 3 * (codes p).length / 4 ≤ dst.length) :
    Post p tail dst (DecodeBase64 intSize dst (p ++ tail)) := by
  unfold DecodeBase64
  by_cases h0 : (p ++ tail).length = 0
  · rw [if_pos h0]
    simp only [List.length_append] at h0
    have hp0 : p = [] := List.length_eq_zero.mp (by omega)
    have ht0 : tail = [] := List.length_eq_zero.mp (by omega)
    subst hp0; subst ht0
    exact ⟨dst, rfl, rfl, rfl⟩
  · rw [if_neg h0]
    have hinv : Inv dst [] 0 dst := ⟨rfl, rfl, rfl, rfl⟩
    have := loop64_post intSize dst tail ht ((p ++ tail).length + 1) [] p 0 dst hp
      (by simpa using hcap) hinv (by simp only [List.length_append]; omega)
    simpa using this

theorem decode_split (intSize : Nat) (dst p tail : List Nat) (hp : AlphaNL p)
    (ht : Terminal tail) (hcap : 3 * (p ++ tail).length / 4 ≤ dst.length) :
    DecodesTo intSize dst (p ++ tail) (3 * (codes p).length / 4)
      (tailErr ((codes p).length % 4) p.length tail) (bytesOfCodes (codes p)) := by
  have hc := codes_length_le p
  simp only [List.length_append] at hcap
  obtain ⟨d, h1, h2, _⟩ := decode_post intSize dst p tail hp ht (by omega)
  exact ⟨d, h1, h2⟩

theorem exists_split (src : List Nat) :
    ∃ p tail, src = p ++ tail ∧ AlphaNL p ∧ Terminal tail := by
  refine ⟨src.takeWhile (fun c => isAlphabet c || isLineBreak c),
    src.dropWhile (fun c => isAlphabet c || isLineBreak c),
    (List.takeWhile_append_dropWhile _ _).symm, ?_, ?_⟩
  · intro c hc
    have := List.mem_takeWhile_imp hc
    simpa using this
  · intro c hc
    have := List.head?_dropWhile_not (fun c => isAlphabet c || isLineBreak c) src
    rw [Option.mem_def.mp hc] at this
    simpa using this

theorem terminal_cons {c : Nat} (rest : List Nat) (ha : isAlphabet c = false)
    (hn : isLineBreak c = false) : Terminal (c :: rest) := by
  intro x hx
  simp only [List.head?_cons, Option.mem_def, Option.some.injEq] at hx
  subst hx
  exact ⟨ha, hn⟩

theorem terminal_nil : Terminal [] := by
  intro x hx
  simp at hx

theorem alphaNL_of_alpha {s : List Nat} (hs : ∀ c ∈ s, isAlphabet c = true) : AlphaNL s :=
  fun c hc => Or.inl (hs c hc)

theorem codes_of_alpha {s : List Nat} (hs : ∀ c ∈ s, isAlphabet c = true) :
    codes s = s.map decodeMap := by
  unfold codes
  rw [List.filter_eq_self.mpr hs]

/-- The text alone decodes without an error. -/
theorem decode_text (intSize : Nat) (dst p : List Nat) (hp : AlphaNL p)
    (hcap : 3 * p.length / 4 ≤ dst.length) :
    DecodesTo intSize dst p (3 * (codes p).length / 4) none (bytesOfCodes (codes p)) := by
  have := decode_split intSize dst p [] hp terminal_nil (by simpa using hcap)
  simpa [tailErr] using this

/-- A text of alphabet characters alone decodes to the reference decoding of its
codes. -/
theorem decode_alphabet (intSize : Nat) (dst src : List Nat)
    (hs : ∀ c ∈ src, isAlphabet c = true) (hcap : 3 * src.length / 4 ≤ dst.length) :
    DecodesTo intSize dst src (3 * src.length / 4) none
      (bytesOfCodes (src.map decodeMap)) := by
  have := decode_text intSize dst src (alphaNL_of_alpha hs) hcap
  rw [codes_of_alpha hs, List.length_map] at this
  exact this

/-- C2. No out-of-bounds access: for every source and every destination with
`len(dst) >= floor(3*len(src)/4)`, `DecodeBase64(dst, src)` returns a result; no
index of `src` or `dst`, no re-slicing `dst[n:]` and no `PutUint64`/`PutUint32`
leaves its slice, and the loops terminate. -/
theorem no_out_of_bounds (intSize : Nat) (dst src : List Nat)
    (hcap : 3 * src.length / 4 ≤ dst.length) :
    ∃ n err d, DecodeBase64 intSize dst src = some (n, err, d) := by
  obtain ⟨p, tail, rfl, hp, ht⟩ := exists_split src
  obtain ⟨d, h, _⟩ := decode_split intSize dst p tail hp ht hcap
  exact ⟨_, _, d, h⟩

theorem no_out_of_bounds_witness :
    3 * [90, 57, 67, 65, 45, 119, 61, 10, 61].length / 4 ≤ [7, 7, 7, 7, 7, 7].length ∧
      ∃ n err d, DecodeBase64 64 [7, 7, 7, 7, 7, 7] [90, 57, 67, 65, 45, 119, 61, 10, 61] =
        some (n, err, d) :=
  ⟨by decide, no_out_of_bounds 64 _ _ (by decide)⟩

/-- C3. Reference decoding of unpadded input: for a source of `k` alphabet
characters and a destination with `len(dst) >= floor(3*k/4)`, `DecodeBase64`
returns `err = nil` and `n = floor(3*k/4)`, and `dst[0..n)` holds the reference
decoding of the 6-bit codes of the characters. -/
theorem unpadded_reference (intSize : Nat) (dst src : List Nat)
    (hs : ∀ c ∈ src, isAlphabet c = true) (hcap : 3 * src.length / 4 ≤ dst.length) :
    DecodesTo intSize dst src (3 * src.length / 4) none
      (bytesOfCodes (src.map decodeMap)) :=
  decode_alphabet intSize dst src hs hcap

theorem unpadded_reference_witness :
    ((∀ c ∈ [90, 57, 67, 65, 45, 119], isAlphabet c = true) ∧
      3 * [90, 57, 67, 65, 45, 119].length / 4 ≤ [0, 0, 0, 0].length) ∧
      DecodesTo 64 [0, 0, 0, 0] [90, 57, 67, 65, 45, 119] 4 none [103, 208, 128, 251] :=
  ⟨⟨by decide, by decide⟩, unpadded_reference 64 [0, 0, 0, 0] [90, 57, 67, 65, 45, 119]
    (by decide) (by decide)⟩

theorem not_alpha_pad : isAlphabet 61 = false := by decide

theorem not_nl_pad : isLineBreak 61 = false := by decide

theorem bytesOfCodes_short {l : List Nat} (h : l.length ≤ 1) : bytesOfCodes l = [] := by
  rcases l with _ | ⟨a, _ | ⟨b, t⟩⟩
  · rfl
  · rfl
  · simp at h

theorem bytesOfCodes_complete (l : List Nat) (h : l.length % 4 ≤ 1) :
    bytesOfCodes (l.take (4 * (l.length / 4))) = bytesOfCodes l := by
  have hsplit := List.take_append_drop (4 * (l.length / 4)) l
  have hlen : (l.take (4 * (l.length / 4))).length = 4 * (l.length / 4) := by
    rw [List.length_take]; omega
  have hd : (l.drop (4 * (l.length / 4))).length ≤ 1 := by
    rw [List.length_drop]; omega
  conv_rhs => rw [← hsplit]
  rw [bytesOfCodes_append _ _ (by rw [hlen]; omega), bytesOfCodes_short hd, List.append_nil]

/-- C8. Invalid character offset: on a source `p ++ [c] ++ rest`, where `p` holds
alphabet characters and line breaks, `k` of them alphabet characters, and `c` is
neither an alphabet character nor `=` nor a line break, `DecodeBase64` returns
`CorruptInputError(len(p))` and `n = floor(3*k/4)`, and `dst[0..n)` is the
decoding of `p`: the reference decoding of its codes, which is also what
`DecodeBase64` returns for `p` alone. -/
theorem invalid_character_offset (intSize : Nat) (dst p : List Nat) (c : Nat)
    (rest : List Nat) (hp : AlphaNL p) (ha : isAlphabet c = false) (hpad : c ≠ 61)
    (hn : isLineBreak c = false) (hcap : 3 * (p ++ [c] ++ rest).length / 4 ≤ dst.length) :
    DecodesTo intSize dst (p ++ [c] ++ rest) (3 * (codes p).length / 4) (some p.length)
        (bytesOfCodes (codes p)) ∧
      DecodesTo intSize dst p (3 * (codes p).length / 4) none (bytesOfCodes (codes p)) := by
  have hsrc : p ++ [c] ++ rest = p ++ c :: rest := by simp
  rw [hsrc] at hcap ⊢
  constructor
  · have := decode_split intSize dst p (c :: rest) hp (terminal_cons rest ha hn) hcap
    simpa [tailErr, hpad] using this
  · apply decode_text intSize dst p hp
    simp only [List.length_append, List.length_cons] at hcap
    omega

theorem invalid_character_offset_witness :
    (AlphaNL [90, 57, 67, 65, 45, 119] ∧ isAlphabet 63 = false ∧ 63 ≠ 61 ∧
      isLineBreak 63 = false ∧
      3 * ([90, 57, 67, 65, 45, 119] ++ [63] ++ [63, 63]).length / 4 ≤
        [0, 0, 0, 0, 0, 0].length) ∧
      (DecodesTo 64 [0, 0, 0, 0, 0, 0] ([90, 57, 67, 65, 45, 119] ++ [63] ++ [63, 63]) 4
          (some 6) [103, 208, 128, 251] ∧
        DecodesTo 64 [0, 0, 0, 0, 0, 0] [90, 57, 67, 65, 45, 119] 4 none
          [103, 208, 128, 251]) :=
  ⟨⟨by decide, by decide, by decide, by decide, by decide⟩,
    invalid_character_offset 64 [0, 0, 0, 0, 0, 0] [90, 57, 67, 65, 45, 119] 63 [63, 63]
      (by decide) (by decide) (by decide) (by decide) (by decide)⟩

/-- C9. Padding too early: on a source `p ++ "=" ++ rest`, where `p` holds
alphabet characters and line breaks and the number `k` of its alphabet
characters is 0 or 1 modulo 4, `DecodeBase64` returns `CorruptInputError(len(p))`
and `n = 3*floor(k/4)`, and `dst[0..n)` is the decoding of the complete groups
of `p`. -/
theorem padding_too_early (intSize : Nat) (dst p rest : List Nat) (hp : AlphaNL p)
    (hk : (codes p).length % 4 = 0 ∨ (codes p).length % 4 = 1)
    (hcap : 3 * (p ++ [61] ++ rest).length / 4 ≤ dst.length) :
    DecodesTo intSize dst (p ++ [61] ++ rest) (3 * ((codes p).length / 4)) (some p.length)
      (bytesOfCodes ((codes p).take (4 * ((codes p).length / 4)))) := by
  have hsrc : p ++ [61] ++ rest = p ++ 61 :: rest := by simp
  rw [hsrc] at hcap ⊢
  have := decode_split intSize dst p (61 :: rest) hp
    (terminal_cons rest not_alpha_pad not_nl_pad) hcap
  have hN : 3 * (codes p).length / 4 = 3 * ((codes p).length / 4) := by omega
  have hE : tailErr ((codes p).length % 4) p.length (61 :: rest) = some p.length := by
    have h01 : (codes p).length % 4 = 0 ∨ (codes p).length % 4 = 1 := hk
    simp [tailErr, padResult, h01]
  rw [hN, hE] at this
  rw [bytesOfCodes_complete _ (by omega)]
  exact this

theorem padding_too_early_witness :
    (AlphaNL [90, 57, 67, 65] ∧
      ((codes [90, 57, 67, 65]).length % 4 = 0 ∨ (codes [90, 57, 67, 65]).length % 4 = 1) ∧
      3 * ([90, 57, 67, 65] ++ [61] ++ [61, 61, 61]).length / 4 ≤ [7, 7, 7, 7, 7, 7].length) ∧
      DecodesTo 64 [7, 7, 7, 7, 7, 7] ([90, 57, 67, 65] ++ [61] ++ [61, 61, 61]) 3 (some 4)
        [103, 208, 128] :=
  ⟨⟨by decide, by decide, by decide⟩,
    padding_too_early 64 [7, 7, 7, 7, 7, 7] [90, 57, 67, 65] [61, 61, 61] (by decide)
      (by decide) (by decide)⟩

/-- C10. Not enough padding, immediate case: on a source `p ++ "=" ++ rest`, where
`p` holds alphabet characters and line breaks, the number `k` of its alphabet
characters is 2 modulo 4, and `rest` is empty or begins with a byte that is none
of `=`, `\n`, `\r`, `DecodeBase64` returns `CorruptInputError(len(p))` and
`n = floor(3*k/4)`, and `dst[0..n)` is the decoding of `p`, the byte of the final
group of two characters included. -/
theorem not_enough_padding (intSize : Nat) (dst p rest : List Nat) (hp : AlphaNL p)
    (hk : (codes p).length % 4 = 2)
    (hrest : rest = [] ∨ ∃ c r, rest = c :: r ∧ c ≠ 61 ∧ isLineBreak c = false)
    (hcap : 3 * (p ++ [61] ++ rest).length / 4 ≤ dst.length) :
    DecodesTo intSize dst (p ++ [61] ++ rest) (3 * (codes p).length / 4) (some p.length)
        (bytesOfCodes (codes p)) ∧
      DecodesTo intSize dst p (3 * (codes p).length / 4) none (bytesOfCodes (codes p)) := by
  have hsrc : p ++ [61] ++ rest = p ++ 61 :: rest := by simp
  rw [hsrc] at hcap ⊢
  constructor
  · have := decode_split intSize dst p (61 :: rest) hp
      (terminal_cons rest not_alpha_pad not_nl_pad) hcap
    have hE : tailErr ((codes p).length % 4) p.length (61 :: rest) = some p.length := by
      rw [hk]
      rcases hrest with rfl | ⟨c, r, rfl, hc, hn⟩
      · simp [tailErr, padResult]
      · simp [tailErr, padResult, List.dropWhile_cons, List.takeWhile_cons, hn, hc]
    rw [hE] at this
    exact this
  · apply decode_text intSize dst p hp
    simp only [List.length_append, List.length_cons] at hcap
    omega

theorem not_enough_padding_witness :
    (AlphaNL [90, 57, 67, 65, 45, 119] ∧ (codes [90, 57, 67, 65, 45, 119]).length % 4 = 2 ∧
      ([63, 63, 63] = [] ∨
        ∃ c r, [63, 63, 63] = c :: r ∧ c ≠ 61 ∧ isLineBreak c = false) ∧
      3 * ([90, 57, 67, 65, 45, 119] ++ [61] ++ [63, 63, 63]).length / 4 ≤
        [0, 0, 0, 0, 0, 0, 0].length) ∧
      (DecodesTo 64 [0, 0, 0, 0, 0, 0, 0] ([90, 57, 67, 65, 45, 119] ++ [61] ++ [63, 63, 63]) 4
          (some 6) [103, 208, 128, 251] ∧
        DecodesTo 64 [0, 0, 0, 0, 0, 0, 0] [90, 57, 67, 65, 45, 119] 4 none
          [103, 208, 128, 251]) :=
  ⟨⟨by decide, by decide, Or.inr ⟨63, [63, 63], rfl, by decide, by decide⟩, by decide⟩,
    not_enough_padding 64 [0, 0, 0, 0, 0, 0, 0] [90, 57, 67, 65, 45, 119] [63, 63, 63]
      (by decide) (by decide) (Or.inr ⟨63, [63, 63], rfl, by decide, by decide⟩) (by decide)⟩

theorem takeWhile_run (w : List Nat) (c : Nat) (rest : List Nat)
    (hw : ∀ x ∈ w, isLineBreak x = true) (hc : isLineBreak c = false) :
    (w ++ c :: rest).takeWhile isLineBreak = w ∧
      (w ++ c :: rest).dropWhile isLineBreak = c :: rest := by
  constructor
  · rw [List.takeWhile_append_of_pos hw, List.takeWhile_cons_of_neg (by simp [hc]),
      List.append_nil]
  · rw [List.dropWhile_append_of_pos hw, List.dropWhile_cons_of_neg (by simp [hc])]

theorem afterPad_garbage (w : List Nat) (c : Nat) (rest : List Nat) (si : Nat)
    (hw : ∀ x ∈ w, isLineBreak x = true) (hc : isLineBreak c = false) :
    afterPad (w ++ c :: rest) si = (si + w.length, some (si + w.length)) := by
  obtain ⟨h1, h2⟩ := takeWhile_run w c rest hw hc
  unfold afterPad
  rw [h1, h2, if_neg (by simp)]

theorem afterPad_clean (w : List Nat) (si : Nat) (hw : ∀ x ∈ w, isLineBreak x = true) :
    afterPad w si = (si + w.length, none) := by
  have h1 : w.takeWhile isLineBreak = w := List.takeWhile_eq_self_iff.mpr hw
  have h2 : w.dropWhile isLineBreak = [] := List.dropWhile_eq_nil_iff.mpr hw
  unfold afterPad
  rw [h1, h2, if_pos rfl]

/-- C6. Padding tolerance: for a text `s` of `k` alphabet characters with
`k mod 4 = 2` (resp. 3), decoding `s ++ "=="` (resp. `s ++ "="`) and decoding `s`
alone both return `err = nil`, the same `n = floor(3*k/4)` and the same bytes
`dst[0..n)`. -/
theorem padding_tolerance (intSize : Nat) (dst1 dst2 s : List Nat)
    (hs : ∀ c ∈ s, isAlphabet c = true) (hk : s.length % 4 = 2 ∨ s.length % 4 = 3)
    (hcap1 : 3 * (s ++ correctPadding s.length).length / 4 ≤ dst1.length)
    (hcap2 : 3 * s.length / 4 ≤ dst2.length) :
    DecodesTo intSize dst1 (s ++ correctPadding s.length) (3 * s.length / 4) none
        (bytesOfCodes (s.map decodeMap)) ∧
      DecodesTo intSize dst2 s (3 * s.length / 4) none (bytesOfCodes (s.map decodeMap)) := by
  refine ⟨?_, decode_alphabet intSize dst2 s hs hcap2⟩
  have hc := codes_of_alpha hs
  have hl : (codes s).length = s.length := by rw [hc, List.length_map]
  rcases hk with hk | hk
  · have hpad : correctPadding s.length = 61 :: [61] := by simp [correctPadding, hk]
    rw [hpad] at hcap1 ⊢
    have := decode_split intSize dst1 s (61 :: [61]) (alphaNL_of_alpha hs)
      (terminal_cons _ not_alpha_pad not_nl_pad) hcap1
    rw [hl, hk, hc] at this
    have hE : tailErr 2 s.length (61 :: [61]) = none := by
      simp [tailErr, padResult, afterPad, List.dropWhile_cons, List.takeWhile_cons,
        not_nl_pad]
    rw [hE] at this
    exact this
  · have hpad : correctPadding s.length = [61] := by simp [correctPadding, hk]
    rw [hpad] at hcap1 ⊢
    have := decode_split intSize dst1 s [61] (alphaNL_of_alpha hs)
      (terminal_cons _ not_alpha_pad not_nl_pad) hcap1
    rw [hl, hk, hc] at this
    have hE : tailErr 3 s.length [61] = none := by
      simp [tailErr, padResult, afterPad]
    rw [hE] at this
    exact this

theorem padding_tolerance_witness :
    ((∀ c ∈ [90, 57, 67, 65, 45, 119], isAlphabet c = true) ∧
      ([90, 57, 67, 65, 45, 119].length % 4 = 2 ∨ [90, 57, 67, 65, 45, 119].length % 4 = 3) ∧
      3 * ([90, 57, 67, 65, 45, 119] ++ correctPadding [90, 57, 67, 65, 45, 119].length).length /
        4 ≤ [0, 0, 0, 0, 0, 0].length ∧
      3 * [90, 57, 67, 65, 45, 119].length / 4 ≤ [0, 0, 0, 0].length) ∧
      (DecodesTo 64 [0, 0, 0, 0, 0, 0] ([90, 57, 67, 65, 45, 119] ++ [61, 61]) 4 none
          [103, 208, 128, 251] ∧
        DecodesTo 64 [0, 0, 0, 0] [90, 57, 67, 65, 45, 119] 4 none [103, 208, 128, 251]) :=
  ⟨⟨by decide, by decide, by decide, by decide⟩,
    padding_tolerance 64 [0, 0, 0, 0, 0, 0] [0, 0, 0, 0] [90, 57, 67, 65, 45, 119]
      (by decide) (by decide) (by decide) (by decide)⟩

/-- C7. Trailing data after correct padding: on a source
`p ++ pad ++ w ++ [c] ++ rest`, where `p` holds alphabet characters and line
breaks, `k` of them alphabet characters, `pad` is the correct padding (two `=`
with line breaks allowed between them when `k mod 4 = 2`, one `=` when
`k mod 4 = 3`), `w` is a run of line breaks and `c` is not a line break,
`DecodeBase64` returns `CorruptInputError(i)` with `i` the index of `c`, and
`n = floor(3*k/4)` with `dst[0..n)` the decoding of `p`. -/
theorem trailing_data_after_padding (intSize : Nat) (dst p pad w : List Nat) (c : Nat)
    (rest : List Nat) (hp : AlphaNL p)
    (hpad : ((codes p).length % 4 = 2 ∧
        ∃ w0, (∀ x ∈ w0, isLineBreak x = true) ∧ pad = 61 :: w0 ++ [61]) ∨
      ((codes p).length % 4 = 3 ∧ pad = [61]))
    (hw : ∀ x ∈ w, isLineBreak x = true) (hc : isLineBreak c = false)
    (hcap : 3 * (p ++ pad ++ w ++ [c] ++ rest).length / 4 ≤ dst.length) :
    DecodesTo intSize dst (p ++ pad ++ w ++ [c] ++ rest) (3 * (codes p).length / 4)
        (some (p ++ pad ++ w).length) (bytesOfCodes (codes p)) ∧
      DecodesTo intSize dst p (3 * (codes p).length / 4) none (bytesOfCodes (codes p)) := by
  constructor
  · rcases hpad with ⟨hk, w0, hw0, rfl⟩ | ⟨hk, rfl⟩
    · have hsrc : p ++ (61 :: w0 ++ [61]) ++ w ++ [c] ++ rest =
          p ++ 61 :: (w0 ++ 61 :: (w ++ c :: rest)) := by simp
      rw [hsrc] at hcap ⊢
      have := decode_split intSize dst p _ hp
        (terminal_cons (w0 ++ 61 :: (w ++ c :: rest)) not_alpha_pad not_nl_pad) hcap
      have hE : tailErr ((codes p).length % 4) p.length
          (61 :: (w0 ++ 61 :: (w ++ c :: rest))) =
          some (p ++ (61 :: w0 ++ [61]) ++ w).length := by
        obtain ⟨h1, h2⟩ := takeWhile_run w0 61 (w ++ c :: rest) hw0 not_nl_pad
        rw [hk]
        simp only [tailErr, ne_eq, not_true_eq_false, if_false, padResult, OfNat.ofNat_ne_zero,
          OfNat.ofNat_ne_one, or_self, h1, h2, afterPad_garbage w c rest _ hw hc, if_true,
          List.length_append, List.length_cons, List.length_nil, Option.some.injEq]
        omega
      rw [hE] at this
      exact this
    · have hsrc : p ++ [61] ++ w ++ [c] ++ rest = p ++ 61 :: (w ++ c :: rest) := by simp
      rw [hsrc] at hcap ⊢
      have := decode_split intSize dst p _ hp
        (terminal_cons (w ++ c :: rest) not_alpha_pad not_nl_pad) hcap
      have hE : tailErr ((codes p).length % 4) p.length (61 :: (w ++ c :: rest)) =
          some (p ++ [61] ++ w).length := by
        rw [hk]
        simp only [tailErr, ne_eq, not_true_eq_false, if_false, padResult, OfNat.ofNat_ne_zero,
          OfNat.ofNat_ne_one, or_self, afterPad_garbage w c rest _ hw hc,
          List.length_append, List.length_cons, List.length_nil, Option.some.injEq]
        simp
      rw [hE] at this
      exact this
  · apply decode_text intSize dst p hp
    simp only [List.length_append, List.length_cons] at hcap
    omega

theorem trailing_data_after_padding_witness :
    (AlphaNL [90, 57, 67, 65, 43, 119, 90, 57, 67, 65, 45, 119, 119, 119] ∧
      (((codes [90, 57, 67, 65, 43, 119, 90, 57, 67, 65, 45, 119, 119, 119]).length % 4 = 2 ∧
          ∃ w0, (∀ x ∈ w0, isLineBreak x = true) ∧ [61, 61] = 61 :: w0 ++ [61]) ∨
        ((codes [90, 57, 67, 65, 43, 119, 90, 57, 67, 65, 45, 119, 119, 119]).length % 4 = 3 ∧
          [61, 61] = [61])) ∧
      (∀ x ∈ [10], isLineBreak x = true) ∧ isLineBreak 63 = false ∧
      3 * ([90, 57, 67, 65, 43, 119, 90, 57, 67, 65, 45, 119, 119, 119] ++ [61, 61] ++ [10] ++
        [63] ++ []).length / 4 ≤ (List.replicate 13 0).length) ∧
      (DecodesTo 64 (List.replicate 13 0)
          ([90, 57, 67, 65, 43, 119, 90, 57, 67, 65, 45, 119, 119, 119] ++ [61, 61] ++ [10] ++
            [63] ++ []) 10 (some 17) [103, 208, 128, 251, 6, 125, 8, 15, 176, 195] ∧
        DecodesTo 64 (List.replicate 13 0)
          [90, 57, 67, 65, 43, 119, 90, 57, 67, 65, 45, 119, 119, 119] 10 none
          [103, 208, 128, 251, 6, 125, 8, 15, 176, 195]) :=
  ⟨⟨by decide, Or.inl ⟨by decide, [], by decide, rfl⟩, by decide, by decide, by decide⟩,
    trailing_data_after_padding 64 (List.replicate 13 0)
      [90, 57, 67, 65, 43, 119, 90, 57, 67, 65, 45, 119, 119, 119] [61, 61] [10] 63 []
      (by decide) (Or.inl ⟨by decide, [], by decide, rfl⟩) (by decide) (by decide)
      (by decide)⟩

theorem canon_decodeMap (c : Nat) : decodeMap (canon c) = decodeMap c := by
  unfold canon
  split_ifs with h1 h2
  · subst h1; decide
  · subst h2; decide
  · rfl

theorem canon_isAlphabet (c : Nat) : isAlphabet (canon c) = isAlphabet c := by
  unfold canon
  split_ifs with h1 h2
  · subst h1; decide
  · subst h2; decide
  · rfl

theorem canon_isLineBreak (c : Nat) : isLineBreak (canon c) = isLineBreak c := by
  unfold canon
  split_ifs with h1 h2
  · subst h1; decide
  · subst h2; decide
  · rfl

theorem canon_pad (c : Nat) : canon c = 61 ↔ c = 61 := by
  unfold canon
  split_ifs <;> omega

theorem canon_of_interchange {a b : Nat} (h : Interchange a b) : canon a = canon b := by
  rcases h with rfl | ⟨rfl, rfl⟩ | ⟨rfl, rfl⟩ | ⟨rfl, rfl⟩ | ⟨rfl, rfl⟩
  · rfl
  · decide
  · decide
  · decide
  · decide

theorem map_canon_of_interchange {src src2 : List Nat}
    (h : List.Forall₂ Interchange src src2) : src.map canon = src2.map canon := by
  induction h with
  | nil => rfl
  | cons hab _ ih => simp only [List.map_cons, canon_of_interchange hab, ih]

theorem lineBreak_comp_canon : isLineBreak ∘ canon = isLineBreak :=
  funext canon_isLineBreak

theorem codes_map_canon (p : List Nat) : codes (p.map canon) = codes p := by
  induction p with
  | nil => rfl
  | cons c p ih =>
    rw [List.map_cons]
    by_cases ha : isAlphabet c = true
    · rw [codes_cons_alpha _ ha, codes_cons_alpha _ (by rw [canon_isAlphabet]; exact ha), ih,
        canon_decodeMap]
    · have ha' : isAlphabet c = false := by simpa using ha
      rw [codes_cons_not_alpha _ ha', codes_cons_not_alpha _ (by rw [canon_isAlphabet]; exact ha'),
        ih]

theorem afterPad_map_canon (l : List Nat) (si : Nat) :
    afterPad (l.map canon) si = afterPad l si := by
  unfold afterPad
  rw [List.dropWhile_map, List.takeWhile_map, lineBreak_comp_canon, List.length_map]
  simp only [List.map_eq_nil_iff]

theorem padResult_map_canon (j : Nat) (rest : List Nat) (si : Nat) :
    padResult j (rest.map canon) si = padResult j rest si := by
  unfold padResult
  rw [List.dropWhile_map, List.takeWhile_map, lineBreak_comp_canon, List.length_map,
    afterPad_map_canon]
  rcases hdw : rest.dropWhile isLineBreak with _ | ⟨d, r⟩
  · simp
  · have hd : (canon d = 61) = (d = 61) := propext (canon_pad d)
    simp only [List.map_cons, ne_eq, hd, afterPad_map_canon]

theorem tailErr_map_canon (j o : Nat) (tail : List Nat) :
    tailErr j o (tail.map canon) = tailErr j o tail := by
  rcases tail with _ | ⟨c, rest⟩
  · rfl
  · have hc : (canon c = 61) = (c = 61) := propext (canon_pad c)
    simp only [List.map_cons, tailErr, ne_eq, hc, padResult_map_canon]

theorem alphaNL_map_canon {p : List Nat} (hp : AlphaNL p) : AlphaNL (p.map canon) := by
  intro c hc
  obtain ⟨x, hx, rfl⟩ := List.mem_map.mp hc
  rw [canon_isAlphabet, canon_isLineBreak]
  exact hp x hx

theorem terminal_map_canon {tail : List Nat} (ht : Terminal tail) :
    Terminal (tail.map canon) := by
  rcases tail with _ | ⟨c, rest⟩
  · exact terminal_nil
  · obtain ⟨h1, h2⟩ := terminal_head ht
    exact terminal_cons _ (by rw [canon_isAlphabet]; exact h1)
      (by rw [canon_isLineBreak]; exact h2)

/-- Decoding a source and decoding its standard-alphabet form give the same
result. -/
theorem decode_canon (intSize : Nat) (dst src : List Nat)
    (hcap : 3 * src.length / 4 ≤ dst.length) :
    ∃ n err out, DecodesTo intSize dst src n err out ∧
      DecodesTo intSize dst (src.map canon) n err out := by
  obtain ⟨p, tail, rfl, hp, ht⟩ := exists_split src
  have h1 := decode_split intSize dst p tail hp ht hcap
  have h2 := decode_split intSize dst (p.map canon) (tail.map canon) (alphaNL_map_canon hp)
    (terminal_map_canon ht) (by simpa using hcap)
  rw [codes_map_canon, List.length_map, tailErr_map_canon] at h2
  rw [List.map_append]
  exact ⟨_, _, _, h1, h2⟩

theorem decodesTo_unique {intSize : Nat} {dst src : List Nat} {n n2 : Nat} {e e2 : Err}
    {out out2 : List Nat} (h1 : DecodesTo intSize dst src n e out)
    (h2 : DecodesTo intSize dst src n2 e2 out2) : n = n2 ∧ e = e2 ∧ out = out2 := by
  obtain ⟨d, hd, ho⟩ := h1
  obtain ⟨d2, hd2, ho2⟩ := h2
  rw [hd] at hd2
  simp only [Option.some.injEq, Prod.mk.injEq] at hd2
  obtain ⟨rfl, rfl, rfl⟩ := hd2
  exact ⟨rfl, rfl, ho.symm.trans ho2⟩

/-- C5. Alphabet interchangeability: when `src2` arises from `src` by replacing,
at any set of positions, `+` by `-`, `-` by `+`, `/` by `_` or `_` by `/`, then for
the same destination of sufficient capacity `DecodeBase64` returns the same `n`,
the same error (offset included) and the same bytes `dst[0..n)` for both. -/
theorem alphabet_interchangeable (intSize : Nat) (dst src src2 : List Nat)
    (hrel : List.Forall₂ Interchange src src2) (hcap : 3 * src.length / 4 ≤ dst.length) :
    ∃ n err out, DecodesTo intSize dst src n err out ∧
      DecodesTo intSize dst src2 n err out := by
  have hlen := hrel.length_eq
  obtain ⟨n, e, out, a1, a2⟩ := decode_canon intSize dst src hcap
  obtain ⟨n2, e2, out2, b1, b2⟩ := decode_canon intSize dst src2 (by rw [← hlen]; exact hcap)
  rw [← map_canon_of_interchange hrel] at b2
  obtain ⟨rfl, rfl, rfl⟩ := decodesTo_unique a2 b2
  exact ⟨n, e, out, a1, b1⟩

theorem alphabet_interchangeable_witness :
    (List.Forall₂ Interchange [90, 57, 67, 65, 45, 119, 61, 61]
        [90, 57, 67, 65, 43, 119, 61, 61] ∧
      3 * [90, 57, 67, 65, 45, 119, 61, 61].length / 4 ≤ [0, 0, 0, 0, 0, 0].length) ∧
      ∃ n err out, DecodesTo 64 [0, 0, 0, 0, 0, 0] [90, 57, 67, 65, 45, 119, 61, 61] n err out ∧
        DecodesTo 64 [0, 0, 0, 0, 0, 0] [90, 57, 67, 65, 43, 119, 61, 61] n err out :=
  have h : List.Forall₂ Interchange [90, 57, 67, 65, 45, 119, 61, 61]
      [90, 57, 67, 65, 43, 119, 61, 61] :=
    .cons (.inl rfl) (.cons (.inl rfl) (.cons (.inl rfl) (.cons (.inl rfl)
      (.cons (.inr (.inr (.inl ⟨rfl, rfl⟩))) (.cons (.inl rfl) (.cons (.inl rfl)
        (.cons (.inl rfl) .nil)))))))
  ⟨⟨h, by decide⟩, alphabet_interchangeable 64 _ _ _ h (by decide)⟩

theorem strip_cons_nl {c : Nat} (l : List Nat) (h : isLineBreak c = true) :
    stripLineBreaks (c :: l) = stripLineBreaks l := by
  simp [stripLineBreaks, List.filter_cons, h]

theorem strip_cons_not_nl {c : Nat} (l : List Nat) (h : isLineBreak c = false) :
    stripLineBreaks (c :: l) = c :: stripLineBreaks l := by
  simp [stripLineBreaks, List.filter_cons, h]

theorem strip_append (a b : List Nat) :
    stripLineBreaks (a ++ b) = stripLineBreaks a ++ stripLineBreaks b := by
  simp [stripLineBreaks]

theorem strip_idem (l : List Nat) : stripLineBreaks (stripLineBreaks l) = stripLineBreaks l := by
  simp [stripLineBreaks]

theorem strip_eq_nil_iff (l : List Nat) :
    stripLineBreaks l = [] ↔ ∀ x ∈ l, isLineBreak x = true := by
  simp [stripLineBreaks]

theorem alpha_not_nl {c : Nat} (h : isAlphabet c = true) : isLineBreak c = false := by
  simp only [isAlphabet, Bool.or_eq_true, Bool.and_eq_true, decide_eq_true_eq,
    beq_iff_eq] at h
  simp only [isLineBreak, Bool.or_eq_false_iff, beq_eq_false_iff_ne]
  omega

theorem codes_strip (p : List Nat) : codes (stripLineBreaks p) = codes p := by
  induction p with
  | nil => rfl
  | cons c p ih =>
    by_cases ha : isAlphabet c = true
    · rw [strip_cons_not_nl _ (alpha_not_nl ha), codes_cons_alpha _ ha, codes_cons_alpha _ ha, ih]
    · have ha' : isAlphabet c = false := by simpa using ha
      by_cases hn : isLineBreak c = true
      · rw [strip_cons_nl _ hn, codes_cons_not_alpha _ ha', ih]
      · have hn' : isLineBreak c = false := by simpa using hn
        rw [strip_cons_not_nl _ hn', codes_cons_not_alpha _ ha', codes_cons_not_alpha _ ha', ih]

theorem alphaNL_strip {p : List Nat} (hp : AlphaNL p) : AlphaNL (stripLineBreaks p) :=
  fun c hc => hp c (List.mem_of_mem_filter hc)

theorem terminal_strip {tail : List Nat} (ht : Terminal tail) :
    Terminal (stripLineBreaks tail) := by
  rcases tail with _ | ⟨c, rest⟩
  · exact terminal_nil
  · obtain ⟨h1, h2⟩ := terminal_head ht
    rw [strip_cons_not_nl _ h2]
    exact terminal_cons _ h1 h2

theorem afterPad_none_iff (l : List Nat) (si : Nat) :
    (afterPad l si).2 = none ↔ stripLineBreaks l = [] := by
  rw [strip_eq_nil_iff]
  unfold afterPad
  by_cases h : l.dropWhile isLineBreak = []
  · rw [if_pos h]
    simp only [true_iff]
    exact List.dropWhile_eq_nil_iff.mp h
  · rw [if_neg h]
    simp only [false_iff, reduceCtorEq]
    intro hall
    exact h (List.dropWhile_eq_nil_iff.mpr hall)

theorem strip_dropWhile (l : List Nat) :
    stripLineBreaks (l.dropWhile isLineBreak) = stripLineBreaks l := by
  induction l with
  | nil => rfl
  | cons c l ih =>
    by_cases hn : isLineBreak c = true
    · rw [List.dropWhile_cons_of_pos hn, strip_cons_nl _ hn, ih]
    · rw [List.dropWhile_cons_of_neg hn]

theorem dropWhile_head_not_nl {l : List Nat} {d : Nat} {r : List Nat}
    (h : l.dropWhile isLineBreak = d :: r) : isLineBreak d = false := by
  have := List.head?_dropWhile_not isLineBreak l
  rw [h] at this
  simpa using this

/-- The padding check succeeds exactly when, line breaks apart, the text behind
the first padding character is the rest of a correct padding. -/
theorem padResult_none_iff (j : Nat) (rest : List Nat) (si : Nat) :
    (padResult j rest si).2 = none ↔
      (j = 2 ∧ stripLineBreaks rest = [61]) ∨ (3 ≤ j ∧ stripLineBreaks rest = []) := by
  unfold padResult
  by_cases h01 : j = 0 ∨ j = 1
  · rw [if_pos h01]
    simp only [reduceCtorEq, false_iff]
    omega
  · rw [if_neg h01]
    by_cases h2 : j = 2
    · rw [if_pos h2]
      have hs := strip_dropWhile rest
      rcases hdw : rest.dropWhile isLineBreak with _ | ⟨d, r⟩
      · rw [hdw] at hs
        simp only [reduceCtorEq, false_iff]
        rw [← hs]
        simp [stripLineBreaks, h2]
      · rw [hdw, strip_cons_not_nl _ (dropWhile_head_not_nl hdw)] at hs
        by_cases hd : d = 61
        · subst hd
          simp only [ne_eq, not_true_eq_false, if_false, afterPad_none_iff]
          rw [← hs]
          simp [h2]
        · simp only [ne_eq, hd, not_false_eq_true, if_true, reduceCtorEq, false_iff]
          rw [← hs]
          simp [h2, hd]
    · rw [if_neg h2, afterPad_none_iff]
      constructor
      · intro h
        exact Or.inr ⟨by omega, h⟩
      · rintro (⟨h, _⟩ | ⟨_, h⟩)
        · exact absurd h h2
        · exact h

theorem tailErr_none_iff (j o : Nat) (tail : List Nat) (ht : Terminal tail) :
    tailErr j o tail = none ↔
      stripLineBreaks tail = [] ∨ (j = 2 ∧ stripLineBreaks tail = [61, 61]) ∨
        (3 ≤ j ∧ stripLineBreaks tail = [61]) := by
  rcases tail with _ | ⟨c, rest⟩
  · simp [tailErr, stripLineBreaks]
  · obtain ⟨_, hn⟩ := terminal_head ht
    rw [strip_cons_not_nl _ hn]
    by_cases hc : c = 61
    · subst hc
      simp only [tailErr, ne_eq, not_true_eq_false, if_false, padResult_none_iff]
      simp
    · simp [tailErr, hc]

/-- C4. Line-break transparency: for every source `src` and the source
`stripLineBreaks src` with every `\n` and `\r` deleted, and destinations of
sufficient capacity for each, `DecodeBase64` returns the same `n` and the same
bytes `dst[0..n)`, and one error is `nil` exactly when the other is. -/
theorem line_break_transparent (intSize : Nat) (dst dst2 src : List Nat)
    (hcap : 3 * src.length / 4 ≤ dst.length)
    (hcap2 : 3 * (stripLineBreaks src).length / 4 ≤ dst2.length) :
    ∃ n err err2 out, DecodesTo intSize dst src n err out ∧
      DecodesTo intSize dst2 (stripLineBreaks src) n err2 out ∧
      (err = none ↔ err2 = none) := by
  obtain ⟨p, tail, rfl, hp, ht⟩ := exists_split src
  rw [strip_append] at hcap2 ⊢
  have h1 := decode_split intSize dst p tail hp ht hcap
  have h2 := decode_split intSize dst2 (stripLineBreaks p) (stripLineBreaks tail)
    (alphaNL_strip hp) (terminal_strip ht) hcap2
  rw [codes_strip] at h2
  refine ⟨_, _, _, _, h1, h2, ?_⟩
  rw [tailErr_none_iff _ _ _ ht, tailErr_none_iff _ _ _ (terminal_strip ht), strip_idem]

theorem line_break_transparent_witness :
    (3 * [90, 57, 67, 65, 45, 119, 61, 10, 61, 13].length / 4 ≤ (List.replicate 7 0).length ∧
      3 * (stripLineBreaks [90, 57, 67, 65, 45, 119, 61, 10, 61, 13]).length / 4 ≤
        (List.replicate 6 1).length) ∧
      ∃ n err err2 out,
        DecodesTo 64 (List.replicate 7 0) [90, 57, 67, 65, 45, 119, 61, 10, 61, 13] n err out ∧
        DecodesTo 64 (List.replicate 6 1)
          (stripLineBreaks [90, 57, 67, 65, 45, 119, 61, 10, 61, 13]) n err2 out ∧
        (err = none ↔ err2 = none) :=
  ⟨⟨by decide, by decide⟩, line_break_transparent 64 _ _ _ (by decide) (by decide)⟩

set_option maxRecDepth 100000 in
theorem encodeChar_spec :
    ∀ v < 64, isAlphabet (encodeChar v) = true ∧ decodeMap (encodeChar v) = v := by
  decide

theorem and_63 (x : Nat) : x &&& 63 = x % 64 :=
  Nat.and_pow_two_sub_one_eq_mod x 6

theorem enc_val_eq (b0 b1 b2 : Nat) (h1 : b1 < 256) (h2 : b2 < 256) :
    b0 <<< 16 ||| b1 <<< 8 ||| b2 = b0 * 65536 + b1 * 256 + b2 := by
  simp only [Nat.shiftLeft_eq]
  have e1 : b0 * 2 ^ 16 = 2 ^ 16 * b0 := by ring
  rw [e1, or_eq_add 16 b0 (b1 * 2 ^ 8) (by omega)]
  have e2 : 2 ^ 16 * b0 + b1 * 2 ^ 8 = 2 ^ 8 * (b0 * 256 + b1) := by ring
  rw [e2, or_eq_add 8 _ b2 (by omega)]
  ring

theorem correctPadding_add_four (k : Nat) : correctPadding (k + 4) = correctPadding k := by
  unfold correctPadding
  rw [Nat.add_mod_right]

theorem encodeStd_eq_aux (k : Nat) :
    ∀ b : List Nat, b.length ≤ k → (∀ x ∈ b, x < 256) →
      encodeStd b = (sextets b).map encodeChar ++ correctPadding (sextets b).length := by
  induction k using Nat.strong_induction_on with
  | _ k ih =>
    intro b hk hb
    rcases b with _ | ⟨b0, _ | ⟨b1, _ | ⟨b2, rest⟩⟩⟩
    · rfl
    · have h0 : b0 < 256 := hb b0 (by simp)
      have e' : b0 <<< 16 = b0 * 65536 := by
        rw [Nat.shiftLeft_eq]
      simp only [encodeStd, sextets, e', and_63, Nat.shiftRight_eq_div_pow, List.map_cons,
        List.map_nil, List.length_cons, List.length_nil, correctPadding]
      have a1 : b0 * 65536 / 2 ^ 18 % 64 = b0 / 4 := by omega
      have a2 : b0 * 65536 / 2 ^ 12 % 64 = b0 % 4 * 16 := by omega
      rw [a1, a2]
      rfl
    · have h0 : b0 < 256 := hb b0 (by simp)
      have h1 : b1 < 256 := hb b1 (by simp)
      have e : b0 <<< 16 ||| b1 <<< 8 = b0 * 65536 + b1 * 256 := by
        have := enc_val_eq b0 b1 0 h1 (by omega)
        rw [Nat.or_zero] at this
        omega
      simp only [encodeStd, sextets, e, and_63, Nat.shiftRight_eq_div_pow, List.map_cons,
        List.map_nil, List.length_cons, List.length_nil, correctPadding]
      have a1 : (b0 * 65536 + b1 * 256) / 2 ^ 18 % 64 = b0 / 4 := by omega
      have a2 : (b0 * 65536 + b1 * 256) / 2 ^ 12 % 64 = b0 % 4 * 16 + b1 / 16 := by omega
      have a3 : (b0 * 65536 + b1 * 256) / 2 ^ 6 % 64 = b1 % 16 * 4 := by omega
      rw [a1, a2, a3]
      rfl
    · have h0 : b0 < 256 := hb b0 (by simp)
      have h1 : b1 < 256 := hb b1 (by simp)
      have h2 : b2 < 256 := hb b2 (by simp)
      simp only [List.length_cons] at hk
      have hrest := ih rest.length (by omega) rest (le_refl _)
        (fun x hx => hb x (by simp [hx]))
      have e := enc_val_eq b0 b1 b2 h1 h2
      simp only [encodeStd, sextets, e, and_63, Nat.shiftRight_eq_div_pow, List.map_cons,
        List.length_cons, correctPadding_add_four, List.cons_append]
      have a1 : (b0 * 65536 + b1 * 256 + b2) / 2 ^ 18 % 64 = b0 / 4 := by omega
      have a2 : (b0 * 65536 + b1 * 256 + b2) / 2 ^ 12 % 64 = b0 % 4 * 16 + b1 / 16 := by omega
      have a3 : (b0 * 65536 + b1 * 256 + b2) / 2 ^ 6 % 64 = b1 % 16 * 4 + b2 / 64 := by omega
      have a4 : (b0 * 65536 + b1 * 256 + b2) % 64 = b2 % 64 := by omega
      rw [a1, a2, a3, a4, hrest]

theorem sextets_spec_aux (k : Nat) :
    ∀ b : List Nat, b.length ≤ k → (∀ x ∈ b, x < 256) →
      (∀ v ∈ sextets b, v < 64) ∧ (sextets b).length = (4 * b.length + 2) / 3 ∧
        bytesOfCodes (sextets b) = b := by
  induction k using Nat.strong_induction_on with
  | _ k ih =>
    intro b hk hb
    rcases b with _ | ⟨b0, _ | ⟨b1, _ | ⟨b2, rest⟩⟩⟩
    · exact ⟨by simp [sextets], rfl, rfl⟩
    · have h0 : b0 < 256 := hb b0 (by simp)
      refine ⟨?_, by simp [sextets], ?_⟩
      · intro v hv
        simp only [sextets, List.mem_cons, List.mem_singleton, List.not_mem_nil, or_false] at hv
        rcases hv with rfl | rfl <;> omega
      · have e := val_eq (b0 / 4) (b0 % 4 * 16) 0 0 (by omega) (by omega) (by omega)
        simp only [Nat.zero_shiftLeft, Nat.or_zero] at e
        simp only [sextets, bytesOfCodes, e, Nat.shiftRight_eq_div_pow, List.cons.injEq, and_true]
        omega
    · have h0 : b0 < 256 := hb b0 (by simp)
      have h1 : b1 < 256 := hb b1 (by simp)
      refine ⟨?_, by simp [sextets], ?_⟩
      · intro v hv
        simp only [sextets, List.mem_cons, List.mem_singleton, List.not_mem_nil, or_false] at hv
        rcases hv with rfl | rfl | rfl <;> omega
      · have e := val_eq (b0 / 4) (b0 % 4 * 16 + b1 / 16) (b1 % 16 * 4) 0 (by omega) (by omega)
          (by omega)
        simp only [Nat.or_zero] at e
        simp only [sextets, bytesOfCodes, e, Nat.shiftRight_eq_div_pow, List.cons.injEq, and_true]
        constructor <;> omega
    · have h0 : b0 < 256 := hb b0 (by simp)
      have h1 : b1 < 256 := hb b1 (by simp)
      have h2 : b2 < 256 := hb b2 (by simp)
      simp only [List.length_cons] at hk
      obtain ⟨r1, r2, r3⟩ := ih rest.length (by omega) rest (le_refl _)
        (fun x hx => hb x (by simp [hx]))
      refine ⟨?_, ?_, ?_⟩
      · intro v hv
        simp only [sextets, List.mem_cons] at hv
        rcases hv with rfl | rfl | rfl | rfl | hv
        · omega
        · omega
        · omega
        · omega
        · exact r1 v hv
      · simp only [sextets, List.length_cons, r2]
        omega
      · have e := val_eq (b0 / 4) (b0 % 4 * 16 + b1 / 16) (b1 % 16 * 4 + b2 / 64) (b2 % 64)
          (by omega) (by omega) (by omega)
        simp only [sextets]
        rw [bytesOfCodes_four, e, r3]
        simp only [Nat.shiftRight_eq_div_pow, List.cons_append, List.nil_append, List.cons.injEq,
          and_true]
        refine ⟨?_, ?_, ?_⟩ <;> omega

theorem tailErr_correctPadding (k o : Nat) :
    tailErr (k % 4) o (correctPadding k) = none := by
  unfold correctPadding
  by_cases h2 : k % 4 = 2
  · rw [if_pos h2, h2]
    simp [tailErr, padResult, afterPad, List.dropWhile_cons, List.takeWhile_cons, not_nl_pad]
  · rw [if_neg h2]
    by_cases h3 : k % 4 = 3
    · rw [if_pos h3, h3]
      simp [tailErr, padResult, afterPad]
    · rw [if_neg h3]
      rfl

theorem terminal_correctPadding (k : Nat) : Terminal (correctPadding k) := by
  unfold correctPadding
  split_ifs
  · exact terminal_cons _ not_alpha_pad not_nl_pad
  · exact terminal_cons _ not_alpha_pad not_nl_pad
  · exact terminal_nil

/-- C1. Round trip: for every byte sequence `b`, decoding its standard padded
encoding into a buffer of length exactly `len(b)` returns `n = len(b)` and
`err = nil`, and the buffer then holds `b`. -/
theorem round_trip (intSize : Nat) (b dst : List Nat) (hb : ∀ x ∈ b, x < 256)
    (hlen : dst.length = b.length) :
    DecodeBase64 intSize dst (encodeStd b) = some (b.length, none, b) := by
  obtain ⟨s1, s2, s3⟩ := sextets_spec_aux b.length b (le_refl _) hb
  have hp : ∀ c ∈ (sextets b).map encodeChar, isAlphabet c = true := by
    intro c hc
    obtain ⟨v, hv, rfl⟩ := List.mem_map.mp hc
    exact (encodeChar_spec v (s1 v hv)).1
  have hcodes : codes ((sextets b).map encodeChar) = sextets b := by
    rw [codes_of_alpha hp, List.map_map]
    conv_rhs => rw [← List.map_id (sextets b)]
    apply List.map_congr_left
    intro v hv
    exact (encodeChar_spec v (s1 v hv)).2
  have hN : 3 * (sextets b).length / 4 = b.length := by omega
  rw [encodeStd_eq_aux b.length b (le_refl _) hb]
  obtain ⟨d, h1, h2, h3⟩ := decode_post intSize dst ((sextets b).map encodeChar)
    (correctPadding (sextets b).length) (alphaNL_of_alpha hp) (terminal_correctPadding _)
    (by rw [hcodes, hN, hlen])
  rw [hcodes, hN, s3] at h2
  rw [hcodes, hN, tailErr_correctPadding] at h1
  have hd : d = b := by
    rw [← h2]
    exact (List.take_of_length_le (by omega)).symm
  rw [h1, hd]

theorem round_trip_witness :
    ((∀ x ∈ [20, 251, 156, 3, 217], x < 256) ∧
      [0, 0, 0, 0, 0].length = [20, 251, 156, 3, 217].length) ∧
      DecodeBase64 64 [0, 0, 0, 0, 0] (encodeStd [20, 251, 156, 3, 217]) =
        some (5, none, [20, 251, 156, 3, 217]) :=
  ⟨⟨by decide, by decide⟩, round_trip 64 [20, 251, 156, 3, 217] [0, 0, 0, 0, 0] (by decide)
    (by decide)⟩

theorem afterPad_some_lt {rest : List Nat} {si k : Nat} (h : (afterPad rest si).2 = some k) :
    si ≤ k ∧ k < si + rest.length := by
  have hl := takeWhile_length_add rest
  unfold afterPad at h
  by_cases h2 : rest.dropWhile isLineBreak = []
  · rw [if_pos h2] at h
    simp at h
  · rw [if_neg h2] at h
    have : 0 < (rest.dropWhile isLineBreak).length := List.length_pos.mpr h2
    simp only [Option.some.injEq] at h
    omega

theorem padResult_some_lt {j : Nat} {rest : List Nat} {si k : Nat} (hsi : 0 < si)
    (h : (padResult j rest si).2 = some k) : si - 1 ≤ k ∧ k < si + rest.length := by
  have hl := takeWhile_length_add rest
  unfold padResult at h
  by_cases h01 : j = 0 ∨ j = 1
  · rw [if_pos h01] at h
    simp only [Option.some.injEq] at h
    omega
  · rw [if_neg h01] at h
    by_cases h2 : j = 2
    · rw [if_pos h2] at h
      rcases hdw : rest.dropWhile isLineBreak with _ | ⟨d, r⟩
      · rw [hdw] at h hl
        simp only [Option.some.injEq, List.length_nil] at h hl
        omega
      · rw [hdw] at h hl
        simp only [List.length_cons] at hl
        by_cases hd : d = 61
        · simp only [hd, ne_eq, not_true_eq_false, if_false] at h
          have := afterPad_some_lt h
          omega
        · simp only [ne_eq, hd, not_false_eq_true, if_true, Option.some.injEq] at h
          omega
    · rw [if_neg h2] at h
      have := afterPad_some_lt h
      omega

theorem tailErr_some_lt {j o k : Nat} {tail : List Nat} (h : tailErr j o tail = some k) :
    o ≤ k ∧ k < o + tail.length := by
  rcases tail with _ | ⟨c, rest⟩
  · simp [tailErr] at h
  · by_cases hc : c = 61
    · simp only [tailErr, hc, ne_eq, not_true_eq_false, if_false] at h
      have := padResult_some_lt (Nat.succ_pos o) h
      simp only [List.length_cons]
      omega
    · simp only [tailErr, ne_eq, hc, not_false_eq_true, if_true, Option.some.injEq] at h
      simp only [List.length_cons]
      omega

/-- C14. Bound on the reported length: for every source and every destination
with `len(dst) >= floor(3*len(src)/4)`, the count `n` returned by `DecodeBase64`
satisfies `0 <= n <= floor(3*len(src)/4)`, with or without an error. -/
theorem reported_length_bound (intSize : Nat) (dst src : List Nat)
    (hcap : 3 * src.length / 4 ≤ dst.length) :
    ∃ n err d, DecodeBase64 intSize dst src = some (n, err, d) ∧ 0 ≤ n ∧
      n ≤ 3 * src.length / 4 := by
  obtain ⟨p, tail, rfl, hp, ht⟩ := exists_split src
  obtain ⟨d, h, _⟩ := decode_split intSize dst p tail hp ht hcap
  have hc := codes_length_le p
  refine ⟨_, _, d, h, Nat.zero_le _, ?_⟩
  simp only [List.length_append]
  omega

theorem reported_length_bound_witness :
    3 * [90, 57, 67, 65, 45, 119, 63, 63, 63].length / 4 ≤ (List.replicate 6 0).length ∧
      ∃ n err d, DecodeBase64 64 (List.replicate 6 0) [90, 57, 67, 65, 45, 119, 63, 63, 63] =
        some (n, err, d) ∧ 0 ≤ n ∧ n ≤ 3 * [90, 57, 67, 65, 45, 119, 63, 63, 63].length / 4 :=
  ⟨by decide, reported_length_bound 64 _ _ (by decide)⟩

/-- C20. Error offsets are in range: for every source and every destination with
`len(dst) >= floor(3*len(src)/4)`, an error returned by `DecodeBase64` is a
`CorruptInputError(k)` with `0 <= k < len(src)`. -/
theorem error_offset_in_range (intSize : Nat) (dst src : List Nat)
    (hcap : 3 * src.length / 4 ≤ dst.length) :
    ∃ n err d, DecodeBase64 intSize dst src = some (n, err, d) ∧
      ∀ k, err = some k → 0 ≤ k ∧ k < src.length := by
  obtain ⟨p, tail, rfl, hp, ht⟩ := exists_split src
  obtain ⟨d, h, _⟩ := decode_split intSize dst p tail hp ht hcap
  refine ⟨_, _, d, h, ?_⟩
  intro k hk
  have := tailErr_some_lt hk
  simp only [List.length_append]
  omega

theorem error_offset_in_range_witness :
    3 * [90, 57, 67, 65, 45, 119, 61, 10].length / 4 ≤ (List.replicate 6 0).length ∧
      ∃ n err d, DecodeBase64 64 (List.replicate 6 0) [90, 57, 67, 65, 45, 119, 61, 10] =
        some (n, err, d) ∧
        ∀ k, err = some k → 0 ≤ k ∧ k < [90, 57, 67, 65, 45, 119, 61, 10].length :=
  ⟨by decide, error_offset_in_range 64 _ _ (by decide)⟩

/-- The quantum decoder alone gives the result of the whole decoding. -/
theorem decodeQuantumOnly_post (dst p tail : List Nat) (hp : AlphaNL p) (ht : Terminal tail)
    (hcap : 3 * (codes p).length / 4 ≤ dst.length) :
    Post p tail dst (decodeQuantumOnly dst (p ++ tail)) := by
  unfold decodeQuantumOnly
  have hinv : Inv dst [] 0 dst := ⟨rfl, rfl, rfl, rfl⟩
  have := loopQuantum_post dst tail ht ((p ++ tail).length + 1) [] p 0 dst hp
    (by simpa using hcap) hinv (by simp only [List.length_append]; omega)
  simpa using this

/-- C17. Fast path equals slow path: for every source and destinations `dst`,
`dst2` with at least `floor(3*len(src)/4)` bytes, `DecodeBase64` on `dst` and the
procedure that only repeats `decodeQuantum` on `dst2` return the same `n`, the
same error and the same bytes `dst[0..n)`; in particular the result does not
depend on the size of the destination. -/
theorem fast_path_equals_slow_path (intSize : Nat) (dst dst2 src : List Nat)
    (hcap : 3 * src.length / 4 ≤ dst.length) (hcap2 : 3 * src.length / 4 ≤ dst2.length) :
    ∃ n err d d2, DecodeBase64 intSize dst src = some (n, err, d) ∧
      decodeQuantumOnly dst2 src = some (n, err, d2) ∧ d.take n = d2.take n := by
  obtain ⟨p, tail, rfl, hp, ht⟩ := exists_split src
  have hc := codes_length_le p
  simp only [List.length_append] at hcap hcap2
  obtain ⟨d, h1, h2, _⟩ := decode_post intSize dst p tail hp ht (by omega)
  obtain ⟨d2, g1, g2, _⟩ := decodeQuantumOnly_post dst2 p tail hp ht (by omega)
  exact ⟨_, _, d, d2, h1, g1, h2.trans g2.symm⟩

theorem fast_path_equals_slow_path_witness :
    (3 * [90, 57, 67, 65, 43, 119, 90, 57, 67, 65, 45, 119, 10].length / 4 ≤
        (List.replicate 20 7).length ∧
      3 * [90, 57, 67, 65, 43, 119, 90, 57, 67, 65, 45, 119, 10].length / 4 ≤
        (List.replicate 9 0).length) ∧
      ∃ n err d d2,
        DecodeBase64 64 (List.replicate 20 7)
          [90, 57, 67, 65, 43, 119, 90, 57, 67, 65, 45, 119, 10] = some (n, err, d) ∧
        decodeQuantumOnly (List.replicate 9 0)
          [90, 57, 67, 65, 43, 119, 90, 57, 67, 65, 45, 119, 10] = some (n, err, d2) ∧
        d.take n = d2.take n :=
  ⟨⟨by decide, by decide⟩, fast_path_equals_slow_path 64 _ _ _ (by decide) (by decide)⟩

theorem or4_sentinel {n1 n2 n3 n4 : Nat} (h1 : IsEntry n1) (h2 : IsEntry n2)
    (h3 : IsEntry n3) (h4 : IsEntry n4) :
    IsEntry (n1 ||| n2 ||| n3 ||| n4) ∧
      (n1 ||| n2 ||| n3 ||| n4 = 255 ↔ n1 = 255 ∨ n2 = 255 ∨ n3 = 255 ∨ n4 = 255) := by
  have e1 := or_entry h1 h2
  have e2 := or_entry e1.1 h3
  have e3 := or_entry e2.1 h4
  refine ⟨e3.1, ?_⟩
  rw [e3.2, e2.2, e1.2]
  simp only [or_assoc]

theorem or8_sentinel {n1 n2 n3 n4 n5 n6 n7 n8 : Nat} (h1 : IsEntry n1) (h2 : IsEntry n2)
    (h3 : IsEntry n3) (h4 : IsEntry n4) (h5 : IsEntry n5) (h6 : IsEntry n6)
    (h7 : IsEntry n7) (h8 : IsEntry n8) :
    n1 ||| n2 ||| n3 ||| n4 ||| n5 ||| n6 ||| n7 ||| n8 = 255 ↔
      n1 = 255 ∨ n2 = 255 ∨ n3 = 255 ∨ n4 = 255 ∨ n5 = 255 ∨ n6 = 255 ∨ n7 = 255 ∨
        n8 = 255 := by
  have e4 := or4_sentinel h1 h2 h3 h4
  have e5 := or_entry e4.1 h5
  have e6 := or_entry e5.1 h6
  have e7 := or_entry e6.1 h7
  have e8 := or_entry e7.1 h8
  rw [e8.2, e7.2, e6.2, e5.2, e4.2]
  simp only [or_assoc]

theorem entry_lt_of_ne {x : Nat} (h : IsEntry x) (hx : x ≠ 255) : x < 64 := by
  rcases h with h | h
  · exact h
  · exact absurd h hx

/-- C18. Sentinel validity check: for table entries `n1..n4` (resp. `n1..n8`), each
a code `<= 63` or the sentinel `0xff`, `assemble32` (resp. `assemble64`) returns
`dn = 0` and `ok = false` exactly when some argument is `0xff`; the bitwise OR of
the arguments is `0xff` exactly when some argument is `0xff`, and otherwise `ok`
is `true`. -/
theorem sentinel_validity (n1 n2 n3 n4 n5 n6 n7 n8 : Nat) (h1 : IsEntry n1)
    (h2 : IsEntry n2) (h3 : IsEntry n3) (h4 : IsEntry n4) (h5 : IsEntry n5)
    (h6 : IsEntry n6) (h7 : IsEntry n7) (h8 : IsEntry n8) :
    (assemble32 n1 n2 n3 n4 = (0, false) ↔ n1 = 255 ∨ n2 = 255 ∨ n3 = 255 ∨ n4 = 255) ∧
      ((assemble32 n1 n2 n3 n4).2 = false ↔ n1 = 255 ∨ n2 = 255 ∨ n3 = 255 ∨ n4 = 255) ∧
      (n1 ||| n2 ||| n3 ||| n4 = 255 ↔ n1 = 255 ∨ n2 = 255 ∨ n3 = 255 ∨ n4 = 255) ∧
      (assemble64 n1 n2 n3 n4 n5 n6 n7 n8 = (0, false) ↔
        n1 = 255 ∨ n2 = 255 ∨ n3 = 255 ∨ n4 = 255 ∨ n5 = 255 ∨ n6 = 255 ∨ n7 = 255 ∨
          n8 = 255) ∧
      ((assemble64 n1 n2 n3 n4 n5 n6 n7 n8).2 = false ↔
        n1 = 255 ∨ n2 = 255 ∨ n3 = 255 ∨ n4 = 255 ∨ n5 = 255 ∨ n6 = 255 ∨ n7 = 255 ∨
          n8 = 255) ∧
      (n1 ||| n2 ||| n3 ||| n4 ||| n5 ||| n6 ||| n7 ||| n8 = 255 ↔
        n1 = 255 ∨ n2 = 255 ∨ n3 = 255 ∨ n4 = 255 ∨ n5 = 255 ∨ n6 = 255 ∨ n7 = 255 ∨
          n8 = 255) := by
  have o4 := (or4_sentinel h1 h2 h3 h4).2
  have o8 := or8_sentinel h1 h2 h3 h4 h5 h6 h7 h8
  have a32 : (assemble32 n1 n2 n3 n4).2 = false ↔
      n1 = 255 ∨ n2 = 255 ∨ n3 = 255 ∨ n4 = 255 := by
    rw [← o4]
    unfold assemble32
    by_cases h : n1 ||| n2 ||| n3 ||| n4 = 255
    · simp [h]
    · simp [h]
  have a64 : (assemble64 n1 n2 n3 n4 n5 n6 n7 n8).2 = false ↔
      n1 = 255 ∨ n2 = 255 ∨ n3 = 255 ∨ n4 = 255 ∨ n5 = 255 ∨ n6 = 255 ∨ n7 = 255 ∨
        n8 = 255 := by
    rw [← o8]
    unfold assemble64
    by_cases h : n1 ||| n2 ||| n3 ||| n4 ||| n5 ||| n6 ||| n7 ||| n8 = 255
    · simp [h]
    · simp [h]
  refine ⟨⟨fun h => a32.mp (by rw [h]), fun h => assemble32_bad h1 h2 h3 h4 h⟩, a32, o4,
    ⟨fun h => a64.mp (by rw [h]), fun h => assemble64_bad h1 h2 h3 h4 h5 h6 h7 h8 h⟩, a64, o8⟩

theorem sentinel_validity_witness :
    (IsEntry 25 ∧ IsEntry 61 ∧ IsEntry 2 ∧ IsEntry 0 ∧ IsEntry 62 ∧ IsEntry 255 ∧ IsEntry 63 ∧
      IsEntry 63) ∧
      ((assemble32 25 61 2 0 = (0, false) ↔ 25 = 255 ∨ 61 = 255 ∨ 2 = 255 ∨ 0 = 255) ∧
        ((assemble32 25 61 2 0).2 = false ↔ 25 = 255 ∨ 61 = 255 ∨ 2 = 255 ∨ 0 = 255) ∧
        (25 ||| 61 ||| 2 ||| 0 = 255 ↔ 25 = 255 ∨ 61 = 255 ∨ 2 = 255 ∨ 0 = 255) ∧
        (assemble64 25 61 2 0 62 255 63 63 = (0, false) ↔
          25 = 255 ∨ 61 = 255 ∨ 2 = 255 ∨ 0 = 255 ∨ 62 = 255 ∨ 255 = 255 ∨ 63 = 255 ∨
            63 = 255) ∧
        ((assemble64 25 61 2 0 62 255 63 63).2 = false ↔
          25 = 255 ∨ 61 = 255 ∨ 2 = 255 ∨ 0 = 255 ∨ 62 = 255 ∨ 255 = 255 ∨ 63 = 255 ∨
            63 = 255) ∧
        (25 ||| 61 ||| 2 ||| 0 ||| 62 ||| 255 ||| 63 ||| 63 = 255 ↔
          25 = 255 ∨ 61 = 255 ∨ 2 = 255 ∨ 0 = 255 ∨ 62 = 255 ∨ 255 = 255 ∨ 63 = 255 ∨
            63 = 255)) :=
  ⟨⟨Or.inl (by decide), Or.inl (by decide), Or.inl (by decide), Or.inl (by decide),
      Or.inl (by decide), Or.inr rfl, Or.inl (by decide), Or.inl (by decide)⟩,
    sentinel_validity 25 61 2 0 62 255 63 63 (Or.inl (by decide)) (Or.inl (by decide))
      (Or.inl (by decide)) (Or.inl (by decide)) (Or.inl (by decide)) (Or.inr rfl)
      (Or.inl (by decide)) (Or.inl (by decide))⟩

theorem assemble32_raw {n1 n2 n3 n4 : Nat} (h1 : n1 < 64) (h2 : n2 < 64) (h3 : n3 < 64)
    (h4 : n4 < 64) :
    (assemble32 n1 n2 n3 n4).1 = n1 <<< 26 ||| n2 <<< 20 ||| n3 <<< 14 ||| n4 <<< 8 := by
  have hne : ¬ (n1 ||| n2 ||| n3 ||| n4 = 255) := by
    rw [(or4_sentinel (Or.inl h1) (Or.inl h2) (Or.inl h3) (Or.inl h4)).2]; omega
  unfold assemble32
  rw [if_neg hne]
  simp only [Nat.shiftLeft_eq]
  rw [Nat.mod_eq_of_lt (by omega), Nat.mod_eq_of_lt (by omega), Nat.mod_eq_of_lt (by omega),
    Nat.mod_eq_of_lt (by omega)]

theorem assemble64_raw {n1 n2 n3 n4 n5 n6 n7 n8 : Nat} (h1 : n1 < 64) (h2 : n2 < 64)
    (h3 : n3 < 64) (h4 : n4 < 64) (h5 : n5 < 64) (h6 : n6 < 64) (h7 : n7 < 64)
    (h8 : n8 < 64) :
    (assemble64 n1 n2 n3 n4 n5 n6 n7 n8).1 =
      n1 <<< 58 ||| n2 <<< 52 ||| n3 <<< 46 ||| n4 <<< 40 ||| n5 <<< 34 ||| n6 <<< 28 |||
        n7 <<< 22 ||| n8 <<< 16 := by
  have hne : ¬ (n1 ||| n2 ||| n3 ||| n4 ||| n5 ||| n6 ||| n7 ||| n8 = 255) := by
    rw [or8_sentinel (Or.inl h1) (Or.inl h2) (Or.inl h3) (Or.inl h4) (Or.inl h5) (Or.inl h6)
      (Or.inl h7) (Or.inl h8)]
    omega
  unfold assemble64
  rw [if_neg hne]
  simp only [Nat.shiftLeft_eq]
  rw [Nat.mod_eq_of_lt (by omega), Nat.mod_eq_of_lt (by omega), Nat.mod_eq_of_lt (by omega),
    Nat.mod_eq_of_lt (by omega), Nat.mod_eq_of_lt (by omega), Nat.mod_eq_of_lt (by omega),
    Nat.mod_eq_of_lt (by omega), Nat.mod_eq_of_lt (by omega)]

/-- The three bytes, bits 23-16, 15-8 and 7-0, of `v0<<18 | v1<<12 | v2<<6 | v3`. -/
theorem bytesOfCodes_group (v0 v1 v2 v3 : Nat) :
    bytesOfCodes [v0, v1, v2, v3] =
      [((v0 <<< 18 ||| v1 <<< 12 ||| v2 <<< 6 ||| v3) >>> 16) % 256,
        ((v0 <<< 18 ||| v1 <<< 12 ||| v2 <<< 6 ||| v3) >>> 8) % 256,
        (v0 <<< 18 ||| v1 <<< 12 ||| v2 <<< 6 ||| v3) % 256] := by
  rw [bytesOfCodes_four]
  rfl

theorem writeQuantum_four (dst : List Nat) (si : Nat) (n1 n2 n3 n4 : Nat) (err : Err)
    (hd : 3 ≤ dst.length) :
    writeQuantum dst si 4 [n1, n2, n3, n4] err =
      some (si, 3, err, bytesOfCodes [n1, n2, n3, n4] ++ dst.drop 3) := by
  have := writeQuantum_spec dst si [n1, n2, n3, n4] err (by simp) (by simpa using hd)
  simpa using this

/-- C19. Batch packing: for codes `n1..n4 <= 63`, `assemble32` returns `ok = true`
and the word `n1<<26 | n2<<20 | n3<<14 | n4<<8`, which fits 32 bits, and
`PutUint32` stores it as the three bytes that `decodeQuantum` writes for the
same four codes (bits 23-16, 15-8, 7-0 of `n1<<18 | n2<<12 | n3<<6 | n4`)
followed by one zero byte; for codes `n1..n8 <= 63`, `assemble64` returns
`ok = true` and a word that fits 64 bits and is stored by `PutUint64` as the three
bytes for `n1..n4`, the three bytes for `n5..n8` and two zero bytes. -/
theorem batch_packing (n1 n2 n3 n4 n5 n6 n7 n8 : Nat) (h1 : n1 ≤ 63) (h2 : n2 ≤ 63)
    (h3 : n3 ≤ 63) (h4 : n4 ≤ 63) (h5 : n5 ≤ 63) (h6 : n6 ≤ 63) (h7 : n7 ≤ 63)
    (h8 : n8 ≤ 63) :
    ((assemble32 n1 n2 n3 n4).2 = true ∧
        (assemble32 n1 n2 n3 n4).1 = n1 <<< 26 ||| n2 <<< 20 ||| n3 <<< 14 ||| n4 <<< 8 ∧
        (assemble32 n1 n2 n3 n4).1 < 2 ^ 32 ∧
        (∀ b : List Nat, 4 ≤ b.length →
          putUint32 b (assemble32 n1 n2 n3 n4).1 =
            some ([((n1 <<< 18 ||| n2 <<< 12 ||| n3 <<< 6 ||| n4) >>> 16) % 256,
              ((n1 <<< 18 ||| n2 <<< 12 ||| n3 <<< 6 ||| n4) >>> 8) % 256,
              (n1 <<< 18 ||| n2 <<< 12 ||| n3 <<< 6 ||| n4) % 256, 0] ++ b.drop 4)) ∧
        (∀ (dst : List Nat) (si : Nat) (err : Err), 3 ≤ dst.length →
          writeQuantum dst si 4 [n1, n2, n3, n4] err =
            some (si, 3, err,
              [((n1 <<< 18 ||| n2 <<< 12 ||| n3 <<< 6 ||| n4) >>> 16) % 256,
                ((n1 <<< 18 ||| n2 <<< 12 ||| n3 <<< 6 ||| n4) >>> 8) % 256,
                (n1 <<< 18 ||| n2 <<< 12 ||| n3 <<< 6 ||| n4) % 256] ++ dst.drop 3))) ∧
      ((assemble64 n1 n2 n3 n4 n5 n6 n7 n8).2 = true ∧
        (assemble64 n1 n2 n3 n4 n5 n6 n7 n8).1 =
          n1 <<< 58 ||| n2 <<< 52 ||| n3 <<< 46 ||| n4 <<< 40 ||| n5 <<< 34 ||| n6 <<< 28 |||
            n7 <<< 22 ||| n8 <<< 16 ∧
        (assemble64 n1 n2 n3 n4 n5 n6 n7 n8).1 < 2 ^ 64 ∧
        (∀ b : List Nat, 8 ≤ b.length →
          putUint64 b (assemble64 n1 n2 n3 n4 n5 n6 n7 n8).1 =
            some ([((n1 <<< 18 ||| n2 <<< 12 ||| n3 <<< 6 ||| n4) >>> 16) % 256,
              ((n1 <<< 18 ||| n2 <<< 12 ||| n3 <<< 6 ||| n4) >>> 8) % 256,
              (n1 <<< 18 ||| n2 <<< 12 ||| n3 <<< 6 ||| n4) % 256,
              ((n5 <<< 18 ||| n6 <<< 12 ||| n7 <<< 6 ||| n8) >>> 16) % 256,
              ((n5 <<< 18 ||| n6 <<< 12 ||| n7 <<< 6 ||| n8) >>> 8) % 256,
              (n5 <<< 18 ||| n6 <<< 12 ||| n7 <<< 6 ||| n8) % 256, 0, 0] ++ b.drop 8))) := by
  have l1 : n1 < 64 := by omega
  have l2 : n2 < 64 := by omega
  have l3 : n3 < 64 := by omega
  have l4 : n4 < 64 := by omega
  have l5 : n5 < 64 := by omega
  have l6 : n6 < 64 := by omega
  have l7 : n7 < 64 := by omega
  have l8 : n8 < 64 := by omega
  have a32 := assemble32_ok l1 l2 l3 l4
  have a64 := assemble64_ok l1 l2 l3 l4 l5 l6 l7 l8
  refine ⟨⟨by rw [a32], assemble32_raw l1 l2 l3 l4, by rw [a32]; simp only; omega, ?_, ?_⟩,
    ⟨by rw [a64], assemble64_raw l1 l2 l3 l4 l5 l6 l7 l8, by rw [a64]; simp only; omega, ?_⟩⟩
  · intro b hb
    rw [putUint32_spec l1 l2 l3 l4 b hb, bytesOfCodes_group]
    rfl
  · intro dst si err hd
    rw [writeQuantum_four dst si n1 n2 n3 n4 err hd, bytesOfCodes_group]
  · intro b hb
    rw [putUint64_spec l1 l2 l3 l4 l5 l6 l7 l8 b hb, bytesOfCodes_four, bytesOfCodes_group]
    rfl

theorem batch_packing_witness :
    (25 ≤ 63 ∧ 61 ≤ 63 ∧ 2 ≤ 63 ∧ 0 ≤ 63 ∧ 62 ≤ 63 ∧ 48 ≤ 63 ∧ 63 ≤ 63 ∧ 1 ≤ 63) ∧
      (assemble32 25 61 2 0).2 = true ∧
      putUint32 [9, 9, 9, 9, 9] (assemble32 25 61 2 0).1 = some [103, 208, 128, 0, 9] ∧
      writeQuantum [9, 9, 9, 9, 9] 4 4 [25, 61, 2, 0] none =
        some (4, 3, none, [103, 208, 128, 9, 9]) ∧
      (assemble64 25 61 2 0 62 48 63 1).2 = true ∧
      putUint64 [9, 9, 9, 9, 9, 9, 9, 9, 9] (assemble64 25 61 2 0 62 48 63 1).1 =
        some [103, 208, 128, 251, 15, 193, 0, 0, 9] :=
  have h := batch_packing 25 61 2 0 62 48 63 1 (by decide) (by decide) (by decide) (by decide)
    (by decide) (by decide) (by decide) (by decide)
  ⟨⟨by decide, by decide, by decide, by decide, by decide, by decide, by decide, by decide⟩,
    h.1.1, h.1.2.2.2.1 [9, 9, 9, 9, 9] (by decide),
    h.1.2.2.2.2 [9, 9, 9, 9, 9] 4 none (by decide), h.2.1,
    h.2.2.2.2 [9, 9, 9, 9, 9, 9, 9, 9, 9] (by decide)⟩

theorem nl_not_alpha {c : Nat} (h : isLineBreak c = true) : isAlphabet c = false := by
  by_contra ha
  have := alpha_not_nl (by simpa using ha)
  rw [h] at this
  exact absurd this (by simp)

theorem decodeMap_of_nl {c : Nat} (h : isLineBreak c = true) : decodeMap c = 255 :=
  decodeMap_of_not_alpha (nl_not_alpha h)

theorem codes_of_nl {s : List Nat} (hs : ∀ c ∈ s, isLineBreak c = true) : codes s = [] := by
  unfold codes
  rw [List.map_eq_nil_iff, List.filter_eq_nil_iff]
  intro c hc
  rw [nl_not_alpha (hs c hc)]
  simp

/-- On a source of line breaks only, a call of `decodeQuantum` from the loops
reads the whole source and writes nothing. -/
theorem quantumStep_nl (dst s : List Nat) (hs : ∀ c ∈ s, isLineBreak c = true) :
    quantumStep dst s 0 0 = some (s.length, 0, none, dst) := by
  have hc := codes_of_nl hs
  obtain ⟨si, h1, h2⟩ := quantumLoop_last s [] [] [] dst (s.length + 1)
    (fun c hc => Or.inr (hs c hc)) terminal_nil (by rw [hc]; simp) (by rw [hc]; simp)
    (le_refl _)
  have hsi : si = s.length := by
    have := h2 rfl
    simpa using this
  rw [hc] at h1
  simp only [List.nil_append, List.append_nil, List.length_nil, Nat.zero_add] at h1
  unfold quantumStep decodeQuantum
  rw [if_pos (Nat.zero_le _)]
  have hd : dbufOf [] = [0, 0, 0, 0] := rfl
  rw [List.drop_zero, ← hd, h1, hsi]
  simp [tailErr, bytesOfCodes]

theorem stepThen_nl (dst s : List Nat) (hs : ∀ c ∈ s, isLineBreak c = true)
    (cont : Nat → Nat → List Nat → Option (Nat × Err × List Nat))
    (hexit : ∀ n d, cont s.length n d = some (n, none, d)) :
    stepThen s dst 0 0 cont = some (0, none, dst) := by
  unfold stepThen
  rw [quantumStep_nl dst s hs]
  simp only
  exact hexit 0 dst

/-- C16. Empty and line-break-only input: for every source that consists solely
of `\n` and `\r` bytes, the empty source included, and every destination,
`DecodeBase64` returns `n = 0` and `err = nil` and leaves `dst` unchanged. -/
theorem line_breaks_only (intSize : Nat) (dst src : List Nat)
    (hs : ∀ c ∈ src, isLineBreak c = true) :
    DecodeBase64 intSize dst src = some (0, none, dst) := by
  unfold DecodeBase64
  by_cases h0 : src.length = 0
  · rw [if_pos h0]
  · rw [if_neg h0]
    obtain ⟨f, hf⟩ : ∃ f, src.length = f + 1 := ⟨src.length - 1, by omega⟩
    by_cases hc64 : intSize ≥ 64 ∧ src.length - 0 ≥ 8 ∧ dst.length - 0 ≥ 8
    · obtain ⟨c0, c1, c2, c3, c4, c5, c6, c7, w, hw⟩ := exists_prefix8 src (by omega)
      have hA := assemble64_bad (decodeMap_entry c0) (decodeMap_entry c1) (decodeMap_entry c2)
        (decodeMap_entry c3) (decodeMap_entry c4) (decodeMap_entry c5) (decodeMap_entry c6)
        (decodeMap_entry c7) (Or.inl (decodeMap_of_nl (hs c0 (by rw [hw]; simp))))
      rw [loop64_slow_eq intSize src src.length 0 0 dst c0 c1 c2 c3 c4 c5 c6 c7
        (by rw [hw]; simp) (by rw [hw]; simp) (by rw [hw]; simp) (by rw [hw]; simp)
        (by rw [hw]; simp) (by rw [hw]; simp) (by rw [hw]; simp) (by rw [hw]; simp) hc64 hA]
      apply stepThen_nl dst src hs
      intro n d
      have := loop64_exit intSize src f n d
      rw [← hf] at this
      exact this
    · rw [loop64_done_eq _ _ _ _ _ _ hc64]
      by_cases hc32 : src.length - 0 ≥ 4 ∧ dst.length - 0 ≥ 4
      · obtain ⟨c0, c1, c2, c3, w, hw⟩ := exists_prefix4 src (by omega)
        have hA := assemble32_bad (decodeMap_entry c0) (decodeMap_entry c1)
          (decodeMap_entry c2) (decodeMap_entry c3)
          (Or.inl (decodeMap_of_nl (hs c0 (by rw [hw]; simp))))
        rw [loop32_slow_eq src src.length 0 0 dst c0 c1 c2 c3
          (by rw [hw]; simp) (by rw [hw]; simp) (by rw [hw]; simp) (by rw [hw]; simp) hc32 hA]
        apply stepThen_nl dst src hs
        intro n d
        have := loop32_exit src f n d
        rw [← hf] at this
        exact this
      · rw [loop32_done_eq _ _ _ _ _ hc32, loopQuantum_eq, if_pos (by omega)]
        apply stepThen_nl dst src hs
        intro n d
        have := loopQuantum_exit src f n d
        rw [← hf] at this
        exact this

theorem line_breaks_only_witness :
    (∀ c ∈ [13, 10, 10, 13, 10, 10, 10, 10, 13], isLineBreak c = true) ∧
      DecodeBase64 64 [1, 2, 3, 4, 5, 6, 7, 8, 9] [13, 10, 10, 13, 10, 10, 10, 10, 13] =
        some (0, none, [1, 2, 3, 4, 5, 6, 7, 8, 9]) :=
  ⟨by decide, line_breaks_only 64 _ _ (by decide)⟩

theorem frameAt_refl (n : Nat) (dst : List Nat) : FrameAt n dst dst :=
  ⟨rfl, fun _ _ => Or.inl rfl⟩

theorem frameAt_trans {n1 n2 : Nat} {d0 d1 d2 : List Nat} (h1 : FrameAt n1 d0 d1)
    (h2 : FrameAt n2 d1 d2) (hn : n1 ≤ n2) : FrameAt n2 d0 d2 := by
  refine ⟨h2.1.trans h1.1, ?_⟩
  intro i hi
  rcases h2.2 i hi with h | h
  · rcases h1.2 i (by omega) with g | g
    · exact Or.inl (h.trans g)
    · exact Or.inr ⟨by omega, h.trans g.2⟩
  · exact Or.inr h

theorem frameAt_of_exact {n : Nat} {d d' : List Nat} (hl : d'.length = d.length)
    (h : ∀ i, n ≤ i → d'[i]? = d[i]?) : FrameAt n d d' :=
  ⟨hl, fun i hi => Or.inl (h i hi)⟩

theorem setIdx_some {dst d : List Nat} {i v : Nat} (h : setIdx dst i v = some d) :
    d = dst.set i v := by
  unfold setIdx at h
  split_ifs at h
  simpa using h.symm

/-- The writes of `decodeQuantum` stay within the `n` bytes that it reports. -/
theorem writeQuantum_frame {dst : List Nat} {si dlen : Nat} {dbuf : List Nat} {err : Err}
    {si' ninc : Nat} {e : Err} {d : List Nat}
    (h : writeQuantum dst si dlen dbuf err = some (si', ninc, e, d)) :
    d.length = dst.length ∧ ∀ i, ninc ≤ i → d[i]? = dst[i]? := by
  unfold writeQuantum at h
  by_cases h0 : dlen = 0
  · rw [if_pos h0] at h
    simp only [Option.some.injEq, Prod.mk.injEq] at h
    obtain ⟨_, rfl, _, rfl⟩ := h
    exact ⟨rfl, fun _ _ => rfl⟩
  · rw [if_neg h0] at h
    simp only [Option.map_eq_some'] at h
    obtain ⟨d1, hw, hd⟩ := h
    simp only [Prod.mk.injEq] at hd
    obtain ⟨_, rfl, _, rfl⟩ := hd
    by_cases h4 : dlen = 4
    · rw [if_pos h4] at hw
      simp only [Option.bind_eq_some] at hw
      obtain ⟨a, ha, b, hb, hc⟩ := hw
      rw [setIdx_some hc, setIdx_some hb, setIdx_some ha]
      refine ⟨by simp, ?_⟩
      intro i hi
      rw [List.getElem?_set_ne (by omega), List.getElem?_set_ne (by omega),
        List.getElem?_set_ne (by omega)]
    · rw [if_neg h4] at hw
      by_cases h3 : dlen = 3
      · rw [if_pos h3] at hw
        simp only [Option.bind_eq_some] at hw
        obtain ⟨a, ha, hb⟩ := hw
        rw [setIdx_some hb, setIdx_some ha]
        refine ⟨by simp, ?_⟩
        intro i hi
        rw [List.getElem?_set_ne (by omega), List.getElem?_set_ne (by omega)]
      · rw [if_neg h3] at hw
        by_cases h2 : dlen = 2
        · rw [if_pos h2] at hw
          rw [setIdx_some hw]
          refine ⟨by simp, ?_⟩
          intro i hi
          rw [List.getElem?_set_ne (by omega)]
        · rw [if_neg h2] at hw
          simp only [Option.some.injEq] at hw
          subst hw
          exact ⟨rfl, fun _ _ => rfl⟩

theorem quantumLoop_frame (dst src : List Nat) (fuel : Nat) :
    ∀ (j si : Nat) (dbuf : List Nat) (si' ninc : Nat) (e : Err) (d : List Nat),
      quantumLoop dst src fuel j si dbuf = some (si', ninc, e, d) →
      d.length = dst.length ∧ ∀ i, ninc ≤ i → d[i]? = dst[i]? := by
  induction fuel with
  | zero =>
    intro j si dbuf si' ninc e d h
    simp [quantumLoop] at h
  | succ f ih =>
    intro j si dbuf si' ninc e d h
    rw [quantumLoop] at h
    split_ifs at h with hj hlen hj0
    · simp only [Option.some.injEq, Prod.mk.injEq] at h
      obtain ⟨_, rfl, _, rfl⟩ := h
      exact ⟨rfl, fun _ _ => rfl⟩
    · exact writeQuantum_frame h
    · rcases hc : src[si]? with _ | c
      · rw [hc] at h
        simp at h
      · rw [hc] at h
        simp only at h
        split_ifs at h with h1 h2 h3
        · exact ih _ _ _ _ _ _ _ h
        · exact ih _ _ _ _ _ _ _ h
        · exact writeQuantum_frame h
        · rcases hp : handlePadding src j (si + 1) with _ | ⟨si2, err2⟩
          · rw [hp] at h
            simp at h
          · rw [hp] at h
            exact writeQuantum_frame h
    · exact writeQuantum_frame h

/-- A call of `decodeQuantum` from the loops changes no byte at or behind the new
offset `n`. -/
theorem quantumStep_frame {dst src : List Nat} {si n si' n' : Nat} {e : Err} {d : List Nat}
    (h : quantumStep dst src si n = some (si', n', e, d)) :
    n ≤ n' ∧ d.length = dst.length ∧ ∀ i, n' ≤ i → d[i]? = dst[i]? := by
  unfold quantumStep at h
  split_ifs at h with hn
  rcases hq : decodeQuantum (dst.drop n) src si with _ | ⟨si2, ninc, e2, d1⟩
  · rw [hq] at h
    simp at h
  · rw [hq] at h
    simp only [Option.some.injEq, Prod.mk.injEq] at h
    obtain ⟨_, rfl, _, rfl⟩ := h
    obtain ⟨hl, hf⟩ := quantumLoop_frame _ _ _ _ _ _ _ _ _ _ hq
    rw [List.length_drop] at hl
    refine ⟨by omega, ?_, ?_⟩
    · rw [List.length_append, List.length_take, hl]
      omega
    · intro i hi
      have hlt : (dst.take n).length ≤ i := by
        rw [List.length_take]; omega
      rw [List.getElem?_append_right hlt, List.length_take, Nat.min_eq_left hn,
        hf (i - n) (by omega), List.getElem?_drop]
      congr 1
      omega

theorem getElem?_some_of_lt (l : List Nat) (i : Nat) (h : i < l.length) :
    ∃ c, l[i]? = some c :=
  ⟨l[i], List.getElem?_eq_getElem h⟩

/-- The frame after a batch write of `k` decoded bytes followed by zero bytes up to
`k + 2` at most. -/
theorem frameAt_batch (dst : List Nat) (n k : Nat) (b z : List Nat) (hb : b.length = k)
    (hz : ∀ x ∈ z, x = 0) (hzl : z.length ≤ 2) (hroom : n + (k + z.length) ≤ dst.length) :
    FrameAt (n + k) dst (dst.take n ++ (b ++ z ++ (dst.drop n).drop (k + z.length))) := by
  constructor
  · simp only [List.length_append, List.length_take, List.length_drop, hb]
    omega
  · intro i hi
    have hn : (dst.take n).length = n := by rw [List.length_take]; omega
    rw [List.getElem?_append_right (by omega), hn, List.append_assoc,
      List.getElem?_append_right (by omega), hb]
    by_cases hiz : i - n - k < z.length
    · right
      refine ⟨by omega, ?_⟩
      rw [List.getElem?_append_left hiz, List.getElem?_eq_getElem hiz]
      exact congrArg some (hz _ (List.getElem_mem _))
    · left
      rw [List.getElem?_append_right (by omega), List.getElem?_drop, List.getElem?_drop]
      congr 1
      omega

theorem stepThen_frame (dst0 src dst : List Nat) (si n : Nat)
    (cont : Nat → Nat → List Nat → Option (Nat × Err × List Nat))
    (hinv : FrameAt n dst0 dst)
    (hcont : ∀ si2 n2 d2 n' e d, n ≤ n2 → FrameAt n2 dst0 d2 →
      cont si2 n2 d2 = some (n', e, d) → FrameAt n' dst0 d)
    {n' : Nat} {e : Err} {d : List Nat}
    (h : stepThen src dst si n cont = some (n', e, d)) : FrameAt n' dst0 d := by
  unfold stepThen at h
  rcases hq : quantumStep dst src si n with _ | ⟨si2, n2, e2, d2⟩
  · rw [hq] at h
    simp at h
  · rw [hq] at h
    obtain ⟨hle, hl, hf⟩ := quantumStep_frame hq
    have hfr : FrameAt n2 dst0 d2 := frameAt_trans hinv (frameAt_of_exact hl hf) hle
    rcases e2 with _ | k
    · simp only at h
      exact hcont _ _ _ _ _ _ hle hfr h
    · simp only [Option.some.injEq, Prod.mk.injEq] at h
      obtain ⟨rfl, _, rfl⟩ := h
      exact hfr

theorem loopQuantum_frame (dst0 src : List Nat) (fuel : Nat) :
    ∀ (si n : Nat) (dst : List Nat) (n' : Nat) (e : Err) (d : List Nat),
      FrameAt n dst0 dst → loopQuantum src fuel si n dst = some (n', e, d) →
      FrameAt n' dst0 d := by
  induction fuel with
  | zero =>
    intro si n dst n' e d _ h
    simp [loopQuantum] at h
  | succ f ih =>
    intro si n dst n' e d hinv h
    rw [loopQuantum_eq] at h
    split_ifs at h with hlt
    · exact stepThen_frame dst0 src dst si n _ hinv
        (fun si2 n2 d2 n' e d _ hfr hc => ih si2 n2 d2 n' e d hfr hc) h
    · simp only [Option.some.injEq, Prod.mk.injEq] at h
      obtain ⟨rfl, _, rfl⟩ := h
      exact hinv

theorem loop32_frame (dst0 src : List Nat) (fuel : Nat) :
    ∀ (si n : Nat) (dst : List Nat) (n' : Nat) (e : Err) (d : List Nat),
      FrameAt n dst0 dst → loop32 src fuel si n dst = some (n', e, d) →
      FrameAt n' dst0 d := by
  induction fuel with
  | zero =>
    intro si n dst n' e d _ h
    simp [loop32] at h
  | succ f ih =>
    intro si n dst n' e d hinv h
    by_cases hcond : src.length - si ≥ 4 ∧ dst.length - n ≥ 4
    · obtain ⟨c0, g0⟩ := getElem?_some_of_lt src si (by omega)
      obtain ⟨c1, g1⟩ := getElem?_some_of_lt src (si + 1) (by omega)
      obtain ⟨c2, g2⟩ := getElem?_some_of_lt src (si + 2) (by omega)
      obtain ⟨c3, g3⟩ := getElem?_some_of_lt src (si + 3) (by omega)
      by_cases hbad : decodeMap c0 = 255 ∨ decodeMap c1 = 255 ∨ decodeMap c2 = 255 ∨
          decodeMap c3 = 255
      · have hA := assemble32_bad (decodeMap_entry c0) (decodeMap_entry c1)
          (decodeMap_entry c2) (decodeMap_entry c3) hbad
        rw [loop32_slow_eq src f si n dst c0 c1 c2 c3 g0 g1 g2 g3 hcond hA] at h
        exact stepThen_frame dst0 src dst si n _ hinv
          (fun si2 n2 d2 n' e d _ hfr hc => ih si2 n2 d2 n' e d hfr hc) h
      · simp only [not_or] at hbad
        have a0 := entry_lt_of_ne (decodeMap_entry c0) hbad.1
        have a1 := entry_lt_of_ne (decodeMap_entry c1) hbad.2.1
        have a2 := entry_lt_of_ne (decodeMap_entry c2) hbad.2.2.1
        have a3 := entry_lt_of_ne (decodeMap_entry c3) hbad.2.2.2
        have hA := assemble32_ok a0 a1 a2 a3
        have hput := putUint32_spec a0 a1 a2 a3 (dst.drop n)
          (by rw [List.length_drop]; exact hcond.2)
        rw [hA] at hput
        rw [loop32_fast_eq src f si n dst c0 c1 c2 c3 g0 g1 g2 g3 hcond _ hA _ hput
          (by omega)] at h
        have hfr := frameAt_batch dst n 3
          (bytesOfCodes [decodeMap c0, decodeMap c1, decodeMap c2, decodeMap c3]) [0]
          (by rw [bytesOfCodes_length]; simp) (by simp) (by simp) (by simp; omega)
        have hfr2 : FrameAt (n + 3) dst0 (dst.take n ++
            (bytesOfCodes [decodeMap c0, decodeMap c1, decodeMap c2, decodeMap c3] ++
              0 :: (dst.drop n).drop 4)) := by
          have := frameAt_trans hinv hfr (by omega)
          simpa using this
        exact ih _ _ _ _ _ _ hfr2 h
    · rw [loop32_done_eq _ _ _ _ _ hcond] at h
      exact loopQuantum_frame dst0 src _ _ _ _ _ _ _ hinv h

theorem loop64_frame (intSize : Nat) (dst0 src : List Nat) (fuel : Nat) :
    ∀ (si n : Nat) (dst : List Nat) (n' : Nat) (e : Err) (d : List Nat),
      FrameAt n dst0 dst → loop64 intSize src fuel si n dst = some (n', e, d) →
      FrameAt n' dst0 d := by
  induction fuel with
  | zero =>
    intro si n dst n' e d _ h
    simp [loop64] at h
  | succ f ih =>
    intro si n dst n' e d hinv h
    by_cases hcond : intSize ≥ 64 ∧ src.length - si ≥ 8 ∧ dst.length - n ≥ 8
    · obtain ⟨c0, g0⟩ := getElem?_some_of_lt src si (by omega)
      obtain ⟨c1, g1⟩ := getElem?_some_of_lt src (si + 1) (by omega)
      obtain ⟨c2, g2⟩ := getElem?_some_of_lt src (si + 2) (by omega)
      obtain ⟨c3, g3⟩ := getElem?_some_of_lt src (si + 3) (by omega)
      obtain ⟨c4, g4⟩ := getElem?_some_of_lt src (si + 4) (by omega)
      obtain ⟨c5, g5⟩ := getElem?_some_of_lt src (si + 5) (by omega)
      obtain ⟨c6, g6⟩ := getElem?_some_of_lt src (si + 6) (by omega)
      obtain ⟨c7, g7⟩ := getElem?_some_of_lt src (si + 7) (by omega)
      by_cases hbad : decodeMap c0 = 255 ∨ decodeMap c1 = 255 ∨ decodeMap c2 = 255 ∨
          decodeMap c3 = 255 ∨ decodeMap c4 = 255 ∨ decodeMap c5 = 255 ∨ decodeMap c6 = 255 ∨
          decodeMap c7 = 255
      · have hA := assemble64_bad (decodeMap_entry c0) (decodeMap_entry c1)
          (decodeMap_entry c2) (decodeMap_entry c3) (decodeMap_entry c4) (decodeMap_entry c5)
          (decodeMap_entry c6) (decodeMap_entry c7) hbad
        rw [loop64_slow_eq intSize src f si n dst c0 c1 c2 c3 c4 c5 c6 c7 g0 g1 g2 g3 g4 g5 g6
          g7 hcond hA] at h
        exact stepThen_frame dst0 src dst si n _ hinv
          (fun si2 n2 d2 n' e d _ hfr hc => ih si2 n2 d2 n' e d hfr hc) h
      · simp only [not_or] at hbad
        have a0 := entry_lt_of_ne (decodeMap_entry c0) hbad.1
        have a1 := entry_lt_of_ne (decodeMap_entry c1) hbad.2.1
        have a2 := entry_lt_of_ne (decodeMap_entry c2) hbad.2.2.1
        have a3 := entry_lt_of_ne (decodeMap_entry c3) hbad.2.2.2.1
        have a4 := entry_lt_of_ne (decodeMap_entry c4) hbad.2.2.2.2.1
        have a5 := entry_lt_of_ne (decodeMap_entry c5) hbad.2.2.2.2.2.1
        have a6 := entry_lt_of_ne (decodeMap_entry c6) hbad.2.2.2.2.2.2.1
        have a7 := entry_lt_of_ne (decodeMap_entry c7) hbad.2.2.2.2.2.2.2
        have hA := assemble64_ok a0 a1 a2 a3 a4 a5 a6 a7
        have hput := putUint64_spec a0 a1 a2 a3 a4 a5 a6 a7 (dst.drop n)
          (by rw [List.length_drop]; exact hcond.2.2)
        rw [hA] at hput
        rw [loop64_fast_eq intSize src f si n dst c0 c1 c2 c3 c4 c5 c6 c7 g0 g1 g2 g3 g4 g5 g6
          g7 hcond _ hA _ hput (by omega)] at h
        have hfr := frameAt_batch dst n 6
          (bytesOfCodes [decodeMap c0, decodeMap c1, decodeMap c2, decodeMap c3, decodeMap c4,
            decodeMap c5, decodeMap c6, decodeMap c7]) [0, 0]
          (by rw [bytesOfCodes_length]; simp) (by simp) (by simp) (by simp; omega)
        have hfr2 : FrameAt (n + 6) dst0 (dst.take n ++
            (bytesOfCodes [decodeMap c0, decodeMap c1, decodeMap c2, decodeMap c3, decodeMap c4,
              decodeMap c5, decodeMap c6, decodeMap c7] ++ 0 :: 0 :: (dst.drop n).drop 8)) := by
          have := frameAt_trans hinv hfr (by omega)
          simpa using this
        exact ih _ _ _ _ _ _ hfr2 h
    · rw [loop64_done_eq _ _ _ _ _ _ hcond] at h
      exact loop32_frame dst0 src _ _ _ _ _ _ _ hinv h

/-- Whatever `DecodeBase64` returns, it keeps the frame of the destination from
the reported `n` on, two possible zero bytes apart. -/
theorem decode_frame (intSize : Nat) (dst src : List Nat) {n : Nat} {e : Err} {d : List Nat}
    (h : DecodeBase64 intSize dst src = some (n, e, d)) : FrameAt n dst d := by
  unfold DecodeBase64 at h
  split_ifs at h with h0
  · simp only [Option.some.injEq, Prod.mk.injEq] at h
    obtain ⟨rfl, _, rfl⟩ := h
    exact frameAt_refl _ _
  · exact loop64_frame intSize dst src _ _ _ _ _ _ _ (frameAt_refl 0 dst) h

/-- C13, as the code has it. Frame of the destination: for every source and every
destination with `len(dst) >= floor(3*len(src)/4)`, after `DecodeBase64` returns
`n`, the length of `dst` is the same, every byte `dst[i]` with
`n + 2 <= i < len(dst)` has the value it had before the call, and each of
`dst[n]`, `dst[n+1]` has its old value or is 0: a batch writes its 6 or 3 decoded
bytes followed by 2 or 1 zero bytes. -/
theorem destination_frame (intSize : Nat) (dst src : List Nat)
    (hcap : 3 * src.length / 4 ≤ dst.length) :
    ∃ n err d, DecodeBase64 intSize dst src = some (n, err, d) ∧ d.length = dst.length ∧
      (∀ i, n + 2 ≤ i → d[i]? = dst[i]?) ∧
      (∀ i, n ≤ i → i < n + 2 → d[i]? = dst[i]? ∨ d[i]? = some 0) := by
  obtain ⟨p, tail, rfl, hp, ht⟩ := exists_split src
  obtain ⟨d, h, _⟩ := decode_split intSize dst p tail hp ht hcap
  obtain ⟨hl, hf⟩ := decode_frame intSize dst (p ++ tail) h
  refine ⟨_, _, d, h, hl, ?_, ?_⟩
  · intro i hi
    rcases hf i (by omega) with g | g
    · exact g
    · omega
  · intro i hi _
    rcases hf i hi with g | g
    · exact Or.inl g
    · exact Or.inr g.2

theorem destination_frame_witness :
    3 * [90, 57, 67, 65, 10, 10, 10, 10].length / 4 ≤ [7, 7, 7, 7, 7, 7].length ∧
      ∃ n err d, DecodeBase64 64 [7, 7, 7, 7, 7, 7] [90, 57, 67, 65, 10, 10, 10, 10] =
          some (n, err, d) ∧ d.length = [7, 7, 7, 7, 7, 7].length ∧
        (∀ i, n + 2 ≤ i → d[i]? = [7, 7, 7, 7, 7, 7][i]?) ∧
        (∀ i, n ≤ i → i < n + 2 → d[i]? = [7, 7, 7, 7, 7, 7][i]? ∨ d[i]? = some 0) :=
  ⟨by decide, destination_frame 64 _ _ (by decide)⟩

/-- C13, as stated, fails: on the source `"Z9CA\n\n\n\n"` and a destination of six
bytes 7 the call returns `n = 3` and no error, and the byte `dst[3]` behind the
three reported bytes has changed from 7 to 0. -/
theorem destination_frame_counterexample :
    3 * [90, 57, 67, 65, 10, 10, 10, 10].length / 4 ≤ [7, 7, 7, 7, 7, 7].length ∧
      DecodeBase64 64 [7, 7, 7, 7, 7, 7] [90, 57, 67, 65, 10, 10, 10, 10] =
        some (3, none, [103, 208, 128, 0, 7, 7]) ∧
      ([103, 208, 128, 0, 7, 7] : List Nat)[3]? ≠ ([7, 7, 7, 7, 7, 7] : List Nat)[3]? := by
  decide

/-- The offset that the code reports when the second padding character is
missing: on a source `p ++ "=" ++ w ++ rest`, where `p` holds alphabet characters
and line breaks, the number of its alphabet characters is 2 modulo 4, `w` is a run
of line breaks and `rest` is empty or begins with a byte that is neither `=` nor a
line break, the error offset is `len(p) + len(w)`, the offset of the last byte
read before the missing character, and not `len(p)`. -/
theorem missing_second_padding_offset (intSize : Nat) (dst p w rest : List Nat)
    (hp : AlphaNL p) (hk : (codes p).length % 4 = 2) (hw : ∀ x ∈ w, isLineBreak x = true)
    (hrest : rest = [] ∨ ∃ c r, rest = c :: r ∧ c ≠ 61 ∧ isLineBreak c = false)
    (hcap : 3 * (p ++ [61] ++ w ++ rest).length / 4 ≤ dst.length) :
    DecodesTo intSize dst (p ++ [61] ++ w ++ rest) (3 * (codes p).length / 4)
      (some (p.length + w.length)) (bytesOfCodes (codes p)) := by
  have hsrc : p ++ [61] ++ w ++ rest = p ++ 61 :: (w ++ rest) := by simp
  rw [hsrc] at hcap ⊢
  have := decode_split intSize dst p (61 :: (w ++ rest)) hp
    (terminal_cons _ not_alpha_pad not_nl_pad) hcap
  have hE : tailErr ((codes p).length % 4) p.length (61 :: (w ++ rest)) =
      some (p.length + w.length) := by
    rw [hk]
    rcases hrest with rfl | ⟨c, r, rfl, hc, hn⟩
    · have h1 : (w ++ []).takeWhile isLineBreak = w := by
        rw [List.append_nil]; exact List.takeWhile_eq_self_iff.mpr hw
      have h2 : (w ++ []).dropWhile isLineBreak = [] := by
        rw [List.append_nil]; exact List.dropWhile_eq_nil_iff.mpr hw
      simp only [tailErr, ne_eq, not_true_eq_false, if_false, padResult, OfNat.ofNat_ne_zero,
        OfNat.ofNat_ne_one, or_self, if_true, h1, h2, Option.some.injEq]
      omega
    · obtain ⟨h1, h2⟩ := takeWhile_run w c r hw hn
      simp only [tailErr, ne_eq, not_true_eq_false, if_false, padResult, OfNat.ofNat_ne_zero,
        OfNat.ofNat_ne_one, or_self, if_true, h1, h2, hc, not_false_eq_true,
        Option.some.injEq]
      omega
  rw [hE] at this
  exact this

/-- C11 at the failing input. On the source `"Z9CA-w=\n"` the first padding
character stands at offset 6 and is followed by one line break and the end of the
source; `DecodeBase64` returns `CorruptInputError(7)`, the offset of the line
break, where the claim and the doc comment of `DecodeBase64` name offset 6. -/
theorem missing_second_padding_divergence :
    DecodeBase64 64 [0, 0, 0, 0, 0, 0] [90, 57, 67, 65, 45, 119, 61, 10] =
        some (4, some 7, [103, 208, 128, 251, 0, 0]) ∧
      ([90, 57, 67, 65, 45, 119, 61, 10] : List Nat)[6]? = some 61 := by
  decide

/-- C12 at the failing inputs. On the source `"Z9CA-w==="` the final group has two
characters and is followed by three `=`, the first at offset 6; `DecodeBase64`
returns `CorruptInputError(8)`, the offset of the third `=`. On `"Z9CA-ww=="` the
final group has three characters and is followed by two `=`, the first at offset
7; `DecodeBase64` returns `CorruptInputError(8)`. The claim and the doc comment of
`DecodeBase64` name the offset of the first padding character. -/
theorem too_many_padding_divergence :
    DecodeBase64 64 [0, 0, 0, 0, 0, 0] [90, 57, 67, 65, 45, 119, 61, 61, 61] =
        some (4, some 8, [103, 208, 128, 251, 0, 0]) ∧
      DecodeBase64 64 [0, 0, 0, 0, 0, 0] [90, 57, 67, 65, 45, 119, 119, 61, 61] =
        some (5, some 8, [103, 208, 128, 251, 12, 0]) := by
  decide

/-- A group of at most one digit ends without an error exactly at the end of the
source. -/
theorem tailErr_low_none_iff {j : Nat} (o : Nat) (tail : List Nat) (hj : j ≤ 1) :
    tailErr j o tail = none ↔ tail = [] := by
  rcases tail with _ | ⟨c, rest⟩
  · simp [tailErr]
  · have h01 : j = 0 ∨ j = 1 := by omega
    by_cases hc : c = 61
    · simp [tailErr, hc, padResult, h01]
    · simp [tailErr, hc]

theorem terminal_alphaNL_nil {p tail : List Nat} (ht : Terminal tail)
    (h : AlphaNL (p ++ tail)) : tail = [] := by
  rcases tail with _ | ⟨c, rest⟩
  · rfl
  · obtain ⟨h1, h2⟩ := terminal_head ht
    rcases h c (by simp) with g | g
    · rw [h1] at g
      exact absurd g (by simp)
    · rw [h2] at g
      exact absurd g (by simp)

theorem strip_nil_of_terminal {tail : List Nat} (ht : Terminal tail)
    (h : stripLineBreaks tail = []) : tail = [] := by
  rcases tail with _ | ⟨c, rest⟩
  · rfl
  · rw [strip_cons_not_nl _ (terminal_head ht).2] at h
    exact absurd h (by simp)

/-- With a number of alphabet characters that is 1 modulo 4 in the whole source,
the error of the decoding is `nil` exactly when nothing follows the text. -/
theorem tailErr_leftover_none_iff (p tail : List Nat) (ht : Terminal tail)
    (h1 : (codes (p ++ tail)).length % 4 = 1) :
    tailErr ((codes p).length % 4) p.length tail = none ↔ tail = [] := by
  constructor
  · intro h
    have hc : (codes (p ++ tail)).length = (codes p).length + (codes (stripLineBreaks tail)).length := by
      rw [codes_append, List.length_append, codes_strip]
    rcases (tailErr_none_iff _ _ _ ht).mp h with g | ⟨hj, g⟩ | ⟨hj, g⟩
    · exact strip_nil_of_terminal ht g
    · rw [g] at hc
      have : (codes [61, 61]).length = 0 := by decide
      omega
    · rw [g] at hc
      have : (codes [61]).length = 0 := by decide
      omega
  · rintro rfl
    rfl

/-- C15, as the code has it. Single leftover digit: whenever `decodeQuantum`
collects at most one digit in a group (the text `v` of the group holds at most
one alphabet character before the end of the source or a byte that is neither an
alphabet character nor a line break) it writes 0 bytes, and it returns a non-nil
error unless the source is exhausted: at the end of the input the error is `nil`,
with no digit read (`j == 0`) and with one digit read (`j == 1`) alike.
Consequently, for every source whose number of alphabet characters is 1 modulo 4,
`DecodeBase64` returns a non-nil error exactly when the source holds a byte that
is neither an alphabet character nor a line break; a source of alphabet
characters and line breaks only, a single valid character for example, returns
`err = nil` and `n = 3*floor(k/4)`. -/
theorem single_leftover_digit (intSize : Nat) (dst pre v tail dst2 src : List Nat)
    (hv : AlphaNL v) (ht : Terminal tail) (hk : (codes v).length ≤ 1)
    (hsrc : (codes src).length % 4 = 1) (hcap : 3 * src.length / 4 ≤ dst2.length) :
    (∃ si err, decodeQuantum dst (pre ++ v ++ tail) pre.length = some (si, 0, err, dst) ∧
        (err = none ↔ tail = [])) ∧
      ∃ n err d, DecodeBase64 intSize dst2 src = some (n, err, d) ∧
        (err = none ↔ AlphaNL src) ∧ (err = none → n = 3 * ((codes src).length / 4)) := by
  constructor
  · obtain ⟨si, h1, _⟩ := quantumLoop_last v pre tail [] dst ((pre ++ v ++ tail).length + 1)
      hv ht (by simp only [List.length_nil]; omega) (by simp only [List.length_nil]; omega)
      (by simp only [List.length_append]; omega)
    have hd : dbufOf [] = [0, 0, 0, 0] := rfl
    have hz : (codes v).length - 1 = 0 := by omega
    simp only [List.length_nil, Nat.zero_add, List.nil_append] at h1
    rw [hz, bytesOfCodes_short hk, List.nil_append, List.drop_zero, ← List.append_assoc] at h1
    refine ⟨si, tailErr (codes v).length (pre.length + v.length) tail, ?_,
      tailErr_low_none_iff _ tail hk⟩
    unfold decodeQuantum
    rw [← hd, h1]
  · obtain ⟨p, tail2, rfl, hp, ht2⟩ := exists_split src
    obtain ⟨d, h, _⟩ := decode_split intSize dst2 p tail2 hp ht2 hcap
    have hiff := tailErr_leftover_none_iff p tail2 ht2 hsrc
    refine ⟨_, _, d, h, ?_, ?_⟩
    · rw [hiff]
      constructor
      · rintro rfl
        rw [List.append_nil]
        exact hp
      · exact terminal_alphaNL_nil ht2
    · intro he
      have := hiff.mp he
      subst this
      rw [List.append_nil] at hsrc ⊢
      omega

theorem single_leftover_digit_witness :
    (AlphaNL [65] ∧ Terminal [] ∧ (codes [65]).length ≤ 1 ∧
      (codes [90, 57, 67, 65, 10, 65]).length % 4 = 1 ∧
      3 * [90, 57, 67, 65, 10, 65].length / 4 ≤ [7, 7, 7, 7].length) ∧
      ((∃ si err, decodeQuantum [7] ([90, 57, 67, 65] ++ [65] ++ []) [90, 57, 67, 65].length =
          some (si, 0, err, [7]) ∧ (err = none ↔ ([] : List Nat) = [])) ∧
        ∃ n err d, DecodeBase64 64 [7, 7, 7, 7] [90, 57, 67, 65, 10, 65] = some (n, err, d) ∧
          (err = none ↔ AlphaNL [90, 57, 67, 65, 10, 65]) ∧
          (err = none → n = 3 * ((codes [90, 57, 67, 65, 10, 65]).length / 4))) :=
  ⟨⟨by decide, terminal_nil, by decide, by decide, by decide⟩,
    single_leftover_digit 64 [7] [90, 57, 67, 65] [65] [] [7, 7, 7, 7]
      [90, 57, 67, 65, 10, 65] (by decide) terminal_nil (by decide) (by decide) (by decide)⟩

/-- C15, as stated, fails: on the source `"A"`, a single alphabet character,
`decodeQuantum` collects one digit (`dlen = 1`) after reading it (`j = 1`, not the
clean case `j == 0`), writes no byte and returns a `nil` error, and `DecodeBase64`
returns `n = 0` and `err = nil`, although the number of alphabet characters of the
source is 1 modulo 4. -/
theorem single_leftover_digit_counterexample :
    (codes [65]).length % 4 = 1 ∧ 3 * [65].length / 4 ≤ ([] : List Nat).length ∧
      decodeQuantum [] [65] 0 = some (1, 0, none, []) ∧
      DecodeBase64 64 [] [65] = some (0, none, []) := by
  decide

end Base64dec
